import Mathlib

/-!
Prepared-statement packet codec (`net/mysql/packetio_stmt.go`)

A shallow embedding of `WriteStmtPrepareResponse`, `ReadStmtExecuteRequest` and
`bindStmtArgs`, and the properties of the prepare-response writer and of the
execute-request decoder stated in the specification.

Conventions of the embedding

* A Go `byte` is a `Fin 256`; a Go `int` is an `Int`, and the result of every sum
  and shift of the decoder that depends on its input (`ParamNum + 7`,
  `paramNum << 1`, `pos + nullBitmapLen`, `pos + 1`, `pos + n`, ...) is reduced to
  64 bits, two's complement, by `wrapInt`. The lengths of slices and the loop index
  `i` are natural numbers; `i` stays below `ParamNum`.
* A run-time panic (index or slice bound out of range) is the value `none` of an
  `Option`; a returned Go `error` is a value of `GoError`. At a panic in
  `bindStmtArgs` the store holds the `Args` written by the iterations before it.
* `*Stmt` pointers are addresses into a `Heap`; writing `args[i]` updates the `Args`
  of the statement the pointer designates. Every statement owns its `Args` slice.
* The debugging call `PrintPacketData` has no effect on the result and is left out.
* The framing collaborator of `WriteStmtPrepareResponse` is a function from the calls
  made so far to its reply; the calls are recorded with their arguments.
-/

namespace Mysql

/-- A Go `byte`. -/
abbrev Byte := Fin 256

/-! ## Collaborators that the file uses and does not define -/

/-- Modelled from the spec: the names of the error-catalogue codes that
`packetio_stmt.go` passes to `NewDefaultError` and `NewError`; the catalogue itself
is not part of the file. -/
inductive ErrCode where
  | ER_UNKNOWN_STMT_HANDLER
  | ER_UNKNOWN_ERROR
  deriving DecidableEq, Repr

/-- Go `error` values that the decoder can return. `ErrMalformPacket` is the
sentinel `errors.ErrMalformPacket`; `NewDefaultError code args` and `NewError code msg`
stand for the values built by the two constructors of the same names (kept
symbolic: the message template of a code lives in the error catalogue);
`Errorf msg` is `fmt.Errorf` with the formatted message `msg`; `other name` is
any other error value, as the length-encoded string decoder may return. -/
inductive GoError where
  | ErrMalformPacket
  | NewDefaultError (code : ErrCode) (args : List String)
  | NewError (code : ErrCode) (msg : String)
  | Errorf (msg : String)
  | other (name : String)
  deriving DecidableEq, Repr

/-- The dynamic values stored in `Stmt.Args` (a Go `[]interface{}`): `nil`, the
eight fixed-width integer types, the two float types (a float is represented by
its IEEE-754 bit pattern, which determines it) and `[]byte`. -/
inductive Value where
  | null
  | uint8 (v : Nat)
  | int8 (v : Int)
  | uint16 (v : Nat)
  | int16 (v : Int)
  | uint32 (v : Nat)
  | int32 (v : Int)
  | uint64 (v : Nat)
  | int64 (v : Int)
  | float32 (bits : Nat)
  | float64 (bits : Nat)
  | bytes (v : List Byte)
  deriving DecidableEq, Repr

/-- Modelled from the spec: the `Stmt` descriptor (its type declaration is not in
`packetio_stmt.go`). `Params` and `Columns` hold, for each descriptor, the bytes its
`Dump()` produces. -/
structure Stmt where
  ID : Nat
  ParamNum : Int
  ColumnNum : Int
  Params : List (List Byte)
  Columns : List (List Byte)
  Args : List Value
  deriving DecidableEq, Repr

/-- The `MYSQL_TYPE_*` tags named in the `switch` of `bindStmtArgs`. -/
inductive FieldType where
  | MYSQL_TYPE_NULL
  | MYSQL_TYPE_TINY
  | MYSQL_TYPE_SHORT
  | MYSQL_TYPE_YEAR
  | MYSQL_TYPE_INT24
  | MYSQL_TYPE_LONG
  | MYSQL_TYPE_LONGLONG
  | MYSQL_TYPE_FLOAT
  | MYSQL_TYPE_DOUBLE
  | MYSQL_TYPE_DECIMAL
  | MYSQL_TYPE_NEWDECIMAL
  | MYSQL_TYPE_VARCHAR
  | MYSQL_TYPE_BIT
  | MYSQL_TYPE_ENUM
  | MYSQL_TYPE_SET
  | MYSQL_TYPE_TINY_BLOB
  | MYSQL_TYPE_MEDIUM_BLOB
  | MYSQL_TYPE_LONG_BLOB
  | MYSQL_TYPE_BLOB
  | MYSQL_TYPE_VAR_STRING
  | MYSQL_TYPE_STRING
  | MYSQL_TYPE_GEOMETRY
  | MYSQL_TYPE_DATE
  | MYSQL_TYPE_NEWDATE
  | MYSQL_TYPE_TIMESTAMP
  | MYSQL_TYPE_DATETIME
  | MYSQL_TYPE_TIME
  deriving DecidableEq, Repr

/-- The byte value of each `MYSQL_TYPE_*` constant. The constant declarations are
not part of the file, so the table is a parameter of the decoder; a Go `switch`
does not compile with two equal constant cases, hence the table is injective
(`Function.Injective`), which the theorems assume where they need it. -/
abbrev TagTable := FieldType → Byte

/-- The tag values of the MySQL client/server protocol, used to evaluate the
decoder on concrete packets. -/
def protocolTags : TagTable
  | .MYSQL_TYPE_DECIMAL => 0
  | .MYSQL_TYPE_TINY => 1
  | .MYSQL_TYPE_SHORT => 2
  | .MYSQL_TYPE_LONG => 3
  | .MYSQL_TYPE_FLOAT => 4
  | .MYSQL_TYPE_DOUBLE => 5
  | .MYSQL_TYPE_NULL => 6
  | .MYSQL_TYPE_TIMESTAMP => 7
  | .MYSQL_TYPE_LONGLONG => 8
  | .MYSQL_TYPE_INT24 => 9
  | .MYSQL_TYPE_DATE => 10
  | .MYSQL_TYPE_TIME => 11
  | .MYSQL_TYPE_DATETIME => 12
  | .MYSQL_TYPE_YEAR => 13
  | .MYSQL_TYPE_NEWDATE => 14
  | .MYSQL_TYPE_VARCHAR => 15
  | .MYSQL_TYPE_BIT => 16
  | .MYSQL_TYPE_NEWDECIMAL => 0xf6
  | .MYSQL_TYPE_ENUM => 0xf7
  | .MYSQL_TYPE_SET => 0xf8
  | .MYSQL_TYPE_TINY_BLOB => 0xf9
  | .MYSQL_TYPE_MEDIUM_BLOB => 0xfa
  | .MYSQL_TYPE_LONG_BLOB => 0xfb
  | .MYSQL_TYPE_BLOB => 0xfc
  | .MYSQL_TYPE_VAR_STRING => 0xfd
  | .MYSQL_TYPE_STRING => 0xfe
  | .MYSQL_TYPE_GEOMETRY => 0xff

/-- The result `(v, isNull, n, err)` of the length-encoded string decoder. -/
structure LenencResult where
  v : List Byte
  isNull : Bool
  n : Int
  err : Option GoError
  deriving DecidableEq, Repr

/-- The length-encoded string decoder `LenencStrToString`, which the file calls
and does not define: a parameter of the embedding. -/
abbrev LenencDecoder := List Byte → LenencResult

/-! ## Go primitives -/

/-- Indexing `b[i]` with a Go `int` index; `none` is the out-of-range panic. -/
def index {α : Type} (b : List α) (i : Int) : Option α :=
  if 0 ≤ i then b[i.toNat]? else none

/-- The slice expression `b[lo:hi]`; `none` is the out-of-range panic (the capacity
of a slice is taken to be its length). -/
def slice {α : Type} (b : List α) (lo hi : Int) : Option (List α) :=
  if 0 ≤ lo ∧ lo ≤ hi ∧ hi ≤ (b.length : Int) then
    some ((b.drop lo.toNat).take (hi.toNat - lo.toNat))
  else none

/-- The slice expression `b[lo:]`. -/
def sliceFrom {α : Type} (b : List α) (lo : Int) : Option (List α) :=
  slice b lo b.length

/-- The assignment `args[i] = v`; `none` is the out-of-range panic. -/
def setIndex {α : Type} (args : List α) (i : Nat) (v : α) : Option (List α) :=
  if i < args.length then some (args.set i v) else none

/-- `binary.LittleEndian.Uint16`: `uint16(b[0]) | uint16(b[1])<<8`. -/
def Uint16 (b : List Byte) : Option Nat :=
  match b with
  | b0 :: b1 :: _ => some (b0.val ||| (b1.val <<< 8))
  | _ => none

/-- `binary.LittleEndian.Uint32`. -/
def Uint32 (b : List Byte) : Option Nat :=
  match b with
  | b0 :: b1 :: b2 :: b3 :: _ =>
    some (b0.val ||| (b1.val <<< 8) ||| (b2.val <<< 16) ||| (b3.val <<< 24))
  | _ => none

/-- `binary.LittleEndian.Uint64`. -/
def Uint64 (b : List Byte) : Option Nat :=
  match b with
  | b0 :: b1 :: b2 :: b3 :: b4 :: b5 :: b6 :: b7 :: _ =>
    some (b0.val ||| (b1.val <<< 8) ||| (b2.val <<< 16) ||| (b3.val <<< 24)
      ||| (b4.val <<< 32) ||| (b5.val <<< 40) ||| (b6.val <<< 48) ||| (b7.val <<< 56))
  | _ => none

/-- The conversion of an unsigned `w`-bit value to the signed type of the same
width (`int8(x)`, `int16(x)`, `int32(x)`, `int64(x)`): the two's complement
reading of the same bits. -/
def toSigned (w : Nat) (u : Nat) : Int :=
  ((u : Int) + 2 ^ (w - 1)) % 2 ^ w - 2 ^ (w - 1)

/-- The value of a Go `int` (64 bits, two's complement) after an operation whose
exact result is `x`: `x` reduced modulo `2^64` into `[-2^63, 2^63)`. -/
def wrapInt (x : Int) : Int :=
  (x + 2 ^ 63) % 2 ^ 64 - 2 ^ 63

/-- Decimal rendering of an unsigned number (`strconv.FormatUint(_, 10)`, and the
verb `%d` of `fmt` applied to a byte). -/
def decimal (n : Nat) : String := Nat.repr n

/-! ## `bindStmtArgs` -/

/-- How one iteration of the `for` loop of `bindStmtArgs` ends: with `continue`
(the loop goes on with the next index) or with `return err`. Both carry the
contents of `args` and the cursor `pos` at that point. -/
inductive Step where
  | next (args : List Value) (pos : Int)
  | fail (args : List Value) (pos : Int) (err : GoError)
  deriving DecidableEq, Repr

/-- The test `nullBitmap[i>>3]&(1<<(uint(i)%8)) > 0` on the bitmap byte `b`. -/
def nullBit (b : Byte) (i : Nat) : Bool :=
  decide (b.val &&& (1 <<< (i % 8)) > 0)

/-- The test `(paramTypes[(i<<1)+1] & 0x80) > 0` on the flag byte `f`. -/
def unsignedFlag (f : Byte) : Bool :=
  decide (f.val &&& 0x80 > 0)

/-- The clauses of the `switch tp` of `bindStmtArgs`, in source order: the eight
`case` clauses and `default`. -/
inductive Clause where
  | caseNull
  | caseTiny
  | caseShort
  | caseLong
  | caseLongLong
  | caseFloat
  | caseDouble
  | caseString
  | caseDefault
  deriving DecidableEq, Repr

/-- The clause that `switch tp` selects: the first one, in source order, with a
label equal to `tp`, and `default` when there is none. -/
def selectClause (T : TagTable) (tp : Byte) : Clause :=
  if tp = T .MYSQL_TYPE_NULL then Clause.caseNull
  else if tp = T .MYSQL_TYPE_TINY then Clause.caseTiny
  else if tp = T .MYSQL_TYPE_SHORT ∨ tp = T .MYSQL_TYPE_YEAR then Clause.caseShort
  else if tp = T .MYSQL_TYPE_INT24 ∨ tp = T .MYSQL_TYPE_LONG then Clause.caseLong
  else if tp = T .MYSQL_TYPE_LONGLONG then Clause.caseLongLong
  else if tp = T .MYSQL_TYPE_FLOAT then Clause.caseFloat
  else if tp = T .MYSQL_TYPE_DOUBLE then Clause.caseDouble
  else if tp = T .MYSQL_TYPE_DECIMAL ∨ tp = T .MYSQL_TYPE_NEWDECIMAL
      ∨ tp = T .MYSQL_TYPE_VARCHAR ∨ tp = T .MYSQL_TYPE_BIT ∨ tp = T .MYSQL_TYPE_ENUM
      ∨ tp = T .MYSQL_TYPE_SET ∨ tp = T .MYSQL_TYPE_TINY_BLOB
      ∨ tp = T .MYSQL_TYPE_MEDIUM_BLOB ∨ tp = T .MYSQL_TYPE_LONG_BLOB
      ∨ tp = T .MYSQL_TYPE_BLOB ∨ tp = T .MYSQL_TYPE_VAR_STRING
      ∨ tp = T .MYSQL_TYPE_STRING ∨ tp = T .MYSQL_TYPE_GEOMETRY
      ∨ tp = T .MYSQL_TYPE_DATE ∨ tp = T .MYSQL_TYPE_NEWDATE
      ∨ tp = T .MYSQL_TYPE_TIMESTAMP ∨ tp = T .MYSQL_TYPE_DATETIME
      ∨ tp = T .MYSQL_TYPE_TIME then Clause.caseString
  else Clause.caseDefault

/-- The body of the selected clause of `switch tp`, for the type byte `tp` and the
unsigned flag `isUnsigned`, at index `i`, started with the slots `args` and the
cursor `pos`. `none` is a run-time panic. -/
def runClause (dec : LenencDecoder) (paramValues : List Byte) (tp : Byte)
    (isUnsigned : Bool) (i : Nat) (args : List Value) (pos : Int) :
    Clause → Option Step
  | Clause.caseNull => do
    let args1 ← setIndex args i Value.null
    pure (Step.next args1 pos)
  | Clause.caseTiny =>
    if (paramValues.length : Int) < wrapInt (pos + 1) then
      pure (Step.fail args pos GoError.ErrMalformPacket)
    else do
      let b ← index paramValues pos
      let args1 ← setIndex args i
        (if isUnsigned then Value.uint8 b.val else Value.int8 (toSigned 8 b.val))
      pure (Step.next args1 (wrapInt (pos + 1)))
  | Clause.caseShort =>
    if (paramValues.length : Int) < wrapInt (pos + 2) then
      pure (Step.fail args pos GoError.ErrMalformPacket)
    else do
      let u ← (slice paramValues pos (wrapInt (pos + 2))).bind Uint16
      let args1 ← setIndex args i
        (if isUnsigned then Value.uint16 u else Value.int16 (toSigned 16 u))
      pure (Step.next args1 (wrapInt (pos + 2)))
  | Clause.caseLong =>
    if (paramValues.length : Int) < wrapInt (pos + 4) then
      pure (Step.fail args pos GoError.ErrMalformPacket)
    else do
      let u ← (slice paramValues pos (wrapInt (pos + 4))).bind Uint32
      let args1 ← setIndex args i
        (if isUnsigned then Value.uint32 u else Value.int32 (toSigned 32 u))
      pure (Step.next args1 (wrapInt (pos + 4)))
  | Clause.caseLongLong =>
    if (paramValues.length : Int) < wrapInt (pos + 8) then
      pure (Step.fail args pos GoError.ErrMalformPacket)
    else do
      let u ← (slice paramValues pos (wrapInt (pos + 8))).bind Uint64
      let args1 ← setIndex args i
        (if isUnsigned then Value.uint64 u else Value.int64 (toSigned 64 u))
      pure (Step.next args1 (wrapInt (pos + 8)))
  | Clause.caseFloat =>
    if (paramValues.length : Int) < wrapInt (pos + 4) then
      pure (Step.fail args pos GoError.ErrMalformPacket)
    else do
      let u ← (slice paramValues pos (wrapInt (pos + 4))).bind Uint32
      let args1 ← setIndex args i (Value.float32 u)
      pure (Step.next args1 (wrapInt (pos + 4)))
  | Clause.caseDouble =>
    if (paramValues.length : Int) < wrapInt (pos + 8) then
      pure (Step.fail args pos GoError.ErrMalformPacket)
    else do
      let u ← (slice paramValues pos (wrapInt (pos + 8))).bind Uint64
      let args1 ← setIndex args i (Value.float64 u)
      pure (Step.next args1 (wrapInt (pos + 8)))
  | Clause.caseString =>
    if (paramValues.length : Int) < wrapInt (pos + 1) then
      pure (Step.fail args pos GoError.ErrMalformPacket)
    else do
      let rest ← sliceFrom paramValues pos
      let r := dec rest
      let pos1 := wrapInt (pos + r.n)
      match r.err with
      | some err => pure (Step.fail args pos1 err)
      | none =>
        if !r.isNull then do
          let args1 ← setIndex args i (Value.bytes r.v)
          pure (Step.next args1 pos1)
        else do
          let args1 ← setIndex args i Value.null
          pure (Step.next args1 pos1)
  | Clause.caseDefault =>
    pure (Step.fail args pos
      (GoError.Errorf ("Stmt Unknown FieldType " ++ decimal tp.val)))

/-- The part of the loop body of `bindStmtArgs` after the null-bitmap test: the
reads of `tp` and `isUnsigned`, then `switch tp`. `none` is a run-time panic. -/
def bindValue (T : TagTable) (dec : LenencDecoder)
    (paramTypes paramValues : List Byte)
    (i : Nat) (args : List Value) (pos : Int) : Option Step := do
  let tp ← index paramTypes ((i <<< 1 : Nat) : Int)
  let fb ← index paramTypes (((i <<< 1) + 1 : Nat) : Int)
  let isUnsigned := unsignedFlag fb
  runClause dec paramValues tp isUnsigned i args pos (selectClause T tp)

/-- The body of the `for` loop of `bindStmtArgs` at index `i`: the null-bitmap
test, then `bindValue`. `none` is a run-time panic. -/
def bindParam (T : TagTable) (dec : LenencDecoder)
    (nullBitmap paramTypes paramValues : List Byte)
    (i : Nat) (args : List Value) (pos : Int) : Option Step := do
  let nb ← index nullBitmap ((i >>> 3 : Nat) : Int)
  if nullBit nb i then
    let args1 ← setIndex args i Value.null
    pure (Step.next args1 pos)
  else
    bindValue T dec paramTypes paramValues i args pos

/-- What a run of `bindStmtArgs` leaves behind: the contents of `s.Args`, the
final value of the cursor `pos`, and the returned error (`none` for `nil`). -/
structure BindResult where
  args : List Value
  pos : Int
  err : Option GoError
  deriving DecidableEq, Repr

/-- The loop `for i := ...; i < s.ParamNum; i++` entered at index `i` with `rem`
iterations left (`rem = ParamNum - i`). `none` is a run-time panic. -/
def bindLoop (T : TagTable) (dec : LenencDecoder)
    (nullBitmap paramTypes paramValues : List Byte) :
    Nat → Nat → List Value → Int → Option BindResult
  | 0, _, args, pos => some ⟨args, pos, none⟩
  | rem + 1, i, args, pos =>
    match bindParam T dec nullBitmap paramTypes paramValues i args pos with
    | none => none
    | some (Step.fail args1 pos1 err) => some ⟨args1, pos1, some err⟩
    | some (Step.next args1 pos1) =>
      bindLoop T dec nullBitmap paramTypes paramValues rem (i + 1) args1 pos1

/-- `bindStmtArgs`: the loop runs over `i = 0 .. s.ParamNum - 1`, from `pos = 0`,
on the slots `s.Args`. -/
def bindStmtArgs (T : TagTable) (dec : LenencDecoder) (s : Stmt)
    (nullBitmap paramTypes paramValues : List Byte) : Option BindResult :=
  bindLoop T dec nullBitmap paramTypes paramValues s.ParamNum.toNat 0 s.Args 0

/-- The contents of `s.Args` when the loop stops, however it stops: after the
last iteration, at a `return err`, or at a panic. An iteration writes `args[i]` as
its last action, so at a panic the slots hold what the iterations before it
wrote. -/
def bindWritten (T : TagTable) (dec : LenencDecoder)
    (nullBitmap paramTypes paramValues : List Byte) :
    Nat → Nat → List Value → Int → List Value
  | 0, _, args, _ => args
  | rem + 1, i, args, pos =>
    match bindParam T dec nullBitmap paramTypes paramValues i args pos with
    | none => args
    | some (Step.fail args1 _ _) => args1
    | some (Step.next args1 pos1) =>
      bindWritten T dec nullBitmap paramTypes paramValues rem (i + 1) args1 pos1

/-! ## `ReadStmtExecuteRequest` -/

/-- The address of a `Stmt` (a Go `*Stmt`). -/
abbrev StmtPtr := Nat

/-- The statements that pointers designate. -/
abbrev Heap := StmtPtr → Stmt

/-- The store after `args[i] = v` writes through the statement at `p`. -/
def Heap.setArgs (h : Heap) (p : StmtPtr) (args : List Value) : Heap :=
  fun q => if q = p then { h p with Args := args } else h q

/-- The two values returned by `ReadStmtExecuteRequest`: `stmt = none` is the
`nil` pointer, `err = none` the `nil` error. -/
structure Returned where
  stmt : Option StmtPtr
  err : Option GoError
  deriving DecidableEq, Repr

/-- What a call of `ReadStmtExecuteRequest` produces: the returned values (`none`
when the call panics), the store it leaves, and the ids with which it called
`findStmtByID`, in order. -/
structure ReadResult where
  ret : Option Returned
  heap : Heap
  lookups : List Nat

/-- The part of `ReadStmtExecuteRequest` after `findStmtByID` has returned the
non-nil pointer `p` (from `flag := data[pos]`, with `pos = 4`, to the end): the
returned values (`none` is a run-time panic) and the store left. Before the call
of `bindStmtArgs` nothing is written, so a panic there leaves the store `h`; a
panic in `bindStmtArgs` leaves the slots it had written. The cursor is the
constant 9 after the fixed header; from there on its sums are 64-bit. -/
def readParams (T : TagTable) (dec : LenencDecoder) (h : Heap)
    (data : List Byte) (p : StmtPtr) : Option Returned × Heap :=
  let s := h p
  let run : Option (Option Returned × Heap) := do
    let pos : Int := 4
    let flag ← index data pos
    let pos := pos + 1
    if flag ≠ 0 then
      pure (some ⟨none, some (GoError.NewError ErrCode.ER_UNKNOWN_ERROR
        ("unsupported flag " ++ decimal flag.val))⟩, h)
    else
      let pos := pos + 4
      let paramNum := s.ParamNum
      if paramNum > 0 then
        let nullBitmapLen : Int := wrapInt (s.ParamNum + 7) >>> (3 : Nat)
        if (data.length : Int) < wrapInt (wrapInt (pos + nullBitmapLen) + 1) then
          pure (some ⟨none, some GoError.ErrMalformPacket⟩, h)
        else
          let nullBitmaps ← slice data pos (wrapInt (pos + nullBitmapLen))
          let pos := wrapInt (pos + nullBitmapLen)
          let bound ← index data pos
          if bound = 1 then
            let pos := wrapInt (pos + 1)
            if (data.length : Int) < wrapInt (pos + wrapInt (paramNum <<< (1 : Int))) then
              pure (some ⟨none, some GoError.ErrMalformPacket⟩, h)
            else
              let paramTypes ← slice data pos (wrapInt (pos + wrapInt (paramNum <<< (1 : Int))))
              let pos := wrapInt (pos + wrapInt (paramNum <<< (1 : Int)))
              let paramValues ← sliceFrom data pos
              match bindStmtArgs T dec s nullBitmaps paramTypes paramValues with
              | none =>
                pure (none, h.setArgs p (bindWritten T dec nullBitmaps paramTypes
                  paramValues s.ParamNum.toNat 0 s.Args 0))
              | some r =>
                match r.err with
                | some err => pure (some ⟨none, some err⟩, h.setArgs p r.args)
                | none => pure (some ⟨some p, none⟩, h.setArgs p r.args)
          else
            pure (some ⟨some p, none⟩, h)
      else
        pure (some ⟨some p, none⟩, h)
  run.getD (none, h)

/-- `ReadStmtExecuteRequest` run on the store `h`. -/
def ReadStmtExecuteRequest (T : TagTable) (dec : LenencDecoder) (h : Heap)
    (data : List Byte) (findStmtByID : Nat → Option StmtPtr) : ReadResult :=
  if data.length < 9 then
    ⟨some ⟨none, some GoError.ErrMalformPacket⟩, h, []⟩
  else
    match (slice data 0 4).bind Uint32 with
    | none => ⟨none, h, []⟩
    | some id =>
      match findStmtByID id with
      | none =>
        ⟨some ⟨none, some (GoError.NewDefaultError ErrCode.ER_UNKNOWN_STMT_HANDLER
          [decimal id, "stmt_execute"])⟩, h, [id]⟩
      | some p =>
        ⟨(readParams T dec h data p).1, (readParams T dec h data p).2, [id]⟩

end Mysql

namespace Mysql

/-! ## `WriteStmtPrepareResponse` -/

/-- Modelled from the spec: the little-endian 16-bit encode helper `Uint16ToBytes`
(not defined in `packetio_stmt.go`): the two bytes of `n`, low byte first. -/
def Uint16ToBytes (n : Nat) : List Byte :=
  [Fin.ofNat n, Fin.ofNat (n >>> 8)]

/-- Modelled from the spec: the little-endian 32-bit encode helper `Uint32ToBytes`
(not defined in `packetio_stmt.go`): the four bytes of `n`, low byte first. -/
def Uint32ToBytes (n : Nat) : List Byte :=
  [Fin.ofNat n, Fin.ofNat (n >>> 8), Fin.ofNat (n >>> 16), Fin.ofNat (n >>> 24)]

/-- The conversion `uint16(x)` of a Go `int`: `x` modulo `2^16`. -/
def toUint16 (x : Int) : Nat := (x % 2 ^ 16).toNat

/-- The first four bytes of the buffer `data`, the region in which the framing
collaborator fills in the packet header. -/
structure Region where
  b0 : Byte
  b1 : Byte
  b2 : Byte
  b3 : Byte
  deriving DecidableEq, Repr

/-- The bytes of a region. -/
def Region.bytes (r : Region) : List Byte := [r.b0, r.b1, r.b2, r.b3]

/-- A call to the framing collaborator, with its arguments: `WritePacketBatch(total,
data, direct)` (`data = none` is a nil slice) and `WriteEOFBatch(total, capability,
status, direct)`. -/
inductive FramingCall where
  | WritePacketBatch (total : List Byte) (data : Option (List Byte)) (direct : Bool)
  | WriteEOFBatch (total : List Byte) (capability status : Nat) (direct : Bool)
  deriving DecidableEq, Repr

/-- What a call to the framing collaborator leaves: the returned buffer `total`,
the returned error, and, since `data` is a slice the callee may write into, the
contents of `data[0:4]` after the call. -/
structure FramingReply where
  total : List Byte
  region : Region
  err : Option GoError
  deriving DecidableEq, Repr

/-- The framing collaborator (`WritePacketBatch` and `WriteEOFBatch` are not defined
in `packetio_stmt.go`): its reply to a call is a function of the calls made so
far, the current one last. -/
abbrev Framing := List FramingCall → FramingReply

/-- The local state of `WriteStmtPrepareResponse` between calls: the calls made so
far, the variable `total`, and the contents of `data[0:4]`. -/
structure Progress where
  calls : List FramingCall
  total : List Byte
  region : Region
  deriving DecidableEq, Repr

/-- How a part of `WriteStmtPrepareResponse` ends: control goes on, the function
returns an error, or an index expression panics. -/
inductive Phase where
  | goOn (pr : Progress)
  | returned (calls : List FramingCall) (err : GoError)
  | panicked (calls : List FramingCall)
  deriving DecidableEq, Repr

/-- The statement `total, err = p.WritePacketBatch(total, data, direct)`. -/
def callPacket (io : Framing) (pr : Progress) (data : Option (List Byte))
    (direct : Bool) : Progress × Option GoError :=
  let calls := pr.calls ++ [FramingCall.WritePacketBatch pr.total data direct]
  let reply := io calls
  (⟨calls, reply.total, if data.isSome then reply.region else pr.region⟩, reply.err)

/-- The statement `total, err = p.WriteEOFBatch(total, capability, status, direct)`. -/
def callEOF (io : Framing) (pr : Progress) (capability status : Nat)
    (direct : Bool) : Progress × Option GoError :=
  let calls := pr.calls ++ [FramingCall.WriteEOFBatch pr.total capability status direct]
  let reply := io calls
  (⟨calls, reply.total, pr.region⟩, reply.err)

/-- The loop `for i := ...; i < num; i++` over the descriptors `defs` (`s.Params`
or `s.Columns`, each given by its `Dump()`), entered at index `i` with `rem`
iterations left: `data = data[0:4]`, `data = append(data, defs[i].Dump()...)`,
then `WritePacketBatch(total, data, false)`. -/
def writeDefs (io : Framing) (defs : List (List Byte)) : Nat → Nat → Progress → Phase
  | 0, _, pr => Phase.goOn pr
  | rem + 1, i, pr =>
    match defs[i]? with
    | none => Phase.panicked pr.calls
    | some dump =>
      match callPacket io pr (some (pr.region.bytes ++ dump)) false with
      | (pr1, some err) => Phase.returned pr1.calls err
      | (pr1, none) => writeDefs io defs rem (i + 1) pr1

/-- The block `if num > 0 { for ... ; WriteEOFBatch(total, capability, status,
false) }`, which the function has once for `s.ParamNum`, `s.Params` and once for
`s.ColumnNum`, `s.Columns`. -/
def writeSection (io : Framing) (capability status : Nat) (num : Int)
    (defs : List (List Byte)) (pr : Progress) : Phase :=
  if num > 0 then
    match writeDefs io defs num.toNat 0 pr with
    | Phase.goOn pr1 =>
      match callEOF io pr1 capability status false with
      | (pr2, some err) => Phase.returned pr2.calls err
      | (pr2, none) => Phase.goOn pr2
    | other => other
  else Phase.goOn pr

/-- The first body that `WriteStmtPrepareResponse` builds in `data`. -/
def prepareHeader (s : Stmt) : List Byte :=
  [0, 0, 0, 0] ++ [0] ++ Uint32ToBytes s.ID ++ Uint16ToBytes (toUint16 s.ColumnNum)
    ++ Uint16ToBytes (toUint16 s.ParamNum) ++ [0] ++ [0, 0]

/-- What a call of `WriteStmtPrepareResponse` produces: the calls it made to the
framing collaborator, in order, and the returned error (`some none` is a nil
error, `none` a run-time panic). -/
structure WriteResult where
  calls : List FramingCall
  ret : Option (Option GoError)
  deriving DecidableEq, Repr

/-- `WriteStmtPrepareResponse`. -/
def WriteStmtPrepareResponse (io : Framing) (capability status : Nat) (s : Stmt) :
    WriteResult :=
  match callPacket io ⟨[], [], ⟨0, 0, 0, 0⟩⟩ (some (prepareHeader s)) false with
  | (pr1, some err) => ⟨pr1.calls, some (some err)⟩
  | (pr1, none) =>
    match writeSection io capability status s.ParamNum s.Params pr1 with
    | Phase.returned calls err => ⟨calls, some (some err)⟩
    | Phase.panicked calls => ⟨calls, none⟩
    | Phase.goOn pr2 =>
      match writeSection io capability status s.ColumnNum s.Columns pr2 with
      | Phase.returned calls err => ⟨calls, some (some err)⟩
      | Phase.panicked calls => ⟨calls, none⟩
      | Phase.goOn pr3 =>
        match callPacket io pr3 none true with
        | (pr4, err) => ⟨pr4.calls, some err⟩

/-! ## Sample data for evaluating the decoder -/

/-- A decoder that reads a one-byte length header and the bytes it announces,
a stand-in for `LenencStrToString` on concrete packets. -/
def sampleDecoder : LenencDecoder := fun b =>
  match b with
  | [] => ⟨[], false, 0, some GoError.ErrMalformPacket⟩
  | l :: rest =>
    if rest.length < l.val then ⟨[], false, 1 + l.val, some GoError.ErrMalformPacket⟩
    else ⟨rest.take l.val, false, 1 + l.val, none⟩

/-- A statement with id 7, two parameters and two empty argument slots. -/
def sampleStmt : Stmt := ⟨7, 2, 0, [], [], [Value.null, Value.null]⟩

/-- A store in which every address holds `sampleStmt`. -/
def sampleHeap : Heap := fun _ => sampleStmt

/-- A registry that knows statement 7 only, at address 0. -/
def sampleLookup : Nat → Option StmtPtr := fun id => if id = 7 then some 0 else none

/-! ## Vocabulary of the specification -/

/-- The number whose little-endian representation is the `w` bytes of `pv` from
offset `pos`: the sum of `pv[pos+k] * 256^k` for `k < w`. -/
def leSum (pv : List Byte) (pos : Nat) : Nat → Nat
  | 0 => 0
  | w + 1 => leSum pv pos w + (pv.getD (pos + w) 0).val * 256 ^ w

/-- The row of the specification's type table to which each tag belongs, as a
clause of the `switch`. -/
def clauseOf : FieldType → Clause
  | .MYSQL_TYPE_NULL => Clause.caseNull
  | .MYSQL_TYPE_TINY => Clause.caseTiny
  | .MYSQL_TYPE_SHORT => Clause.caseShort
  | .MYSQL_TYPE_YEAR => Clause.caseShort
  | .MYSQL_TYPE_INT24 => Clause.caseLong
  | .MYSQL_TYPE_LONG => Clause.caseLong
  | .MYSQL_TYPE_LONGLONG => Clause.caseLongLong
  | .MYSQL_TYPE_FLOAT => Clause.caseFloat
  | .MYSQL_TYPE_DOUBLE => Clause.caseDouble
  | _ => Clause.caseString

/-- The width in bytes of the integer tags (`none` for the other tags). -/
def intWidth : FieldType → Option Nat
  | .MYSQL_TYPE_TINY => some 1
  | .MYSQL_TYPE_SHORT => some 2
  | .MYSQL_TYPE_YEAR => some 2
  | .MYSQL_TYPE_INT24 => some 4
  | .MYSQL_TYPE_LONG => some 4
  | .MYSQL_TYPE_LONGLONG => some 8
  | _ => none

/-- The unsigned Go value of `w` bytes holding `u`. -/
def unsignedValue (w : Nat) (u : Nat) : Value :=
  if w = 1 then Value.uint8 u
  else if w = 2 then Value.uint16 u
  else if w = 4 then Value.uint32 u
  else Value.uint64 u

/-- The signed Go value of `w` bytes holding `v`. -/
def signedValue (w : Nat) (v : Int) : Value :=
  if w = 1 then Value.int8 v
  else if w = 2 then Value.int16 v
  else if w = 4 then Value.int32 v
  else Value.int64 v

/-- The width in bytes of the fixed-width tags (`none` for the other tags). -/
def fixedWidth : FieldType → Option Nat
  | .MYSQL_TYPE_NULL => some 0
  | .MYSQL_TYPE_TINY => some 1
  | .MYSQL_TYPE_SHORT => some 2
  | .MYSQL_TYPE_YEAR => some 2
  | .MYSQL_TYPE_INT24 => some 4
  | .MYSQL_TYPE_LONG => some 4
  | .MYSQL_TYPE_FLOAT => some 4
  | .MYSQL_TYPE_LONGLONG => some 8
  | .MYSQL_TYPE_DOUBLE => some 8
  | _ => none

/-- Whether the null bitmap marks parameter `i`: bit `i % 8`, least significant
first, of byte `i >> 3`. -/
def isNullParam (nullBitmap : List Byte) (i : Nat) : Bool :=
  match nullBitmap[i >>> 3]? with
  | some b => b.val.testBit (i % 8)
  | none => false

/-- The bytes that parameter `i` takes in `paramValues` when its tag is `tags i`:
none when the bitmap marks it null, the width of its tag otherwise. -/
def paramWidth (nullBitmap : List Byte) (tags : Nat → FieldType) (i : Nat) : Nat :=
  if isNullParam nullBitmap i then 0 else (fixedWidth (tags i)).getD 0

/-- The sum of `paramWidth` over the parameters `0 .. n-1`. -/
def widthSum (nullBitmap : List Byte) (tags : Nat → FieldType) : Nat → Nat
  | 0 => 0
  | n + 1 => widthSum nullBitmap tags n + paramWidth nullBitmap tags n

/-- Tags for the two parameters of `sampleStmt`: a `TINY`, then a `LONG`. -/
def sampleTags : Nat → FieldType := fun i =>
  if i = 0 then FieldType.MYSQL_TYPE_TINY else FieldType.MYSQL_TYPE_LONG

/-- A statement whose `ParamNum` is the largest Go `int`, `2^63 - 1`. -/
def hugeStmt : Stmt := ⟨7, 9223372036854775807, 0, [], [], []⟩

/-- A store in which every address holds `hugeStmt`. -/
def hugeHeap : Heap := fun _ => hugeStmt

/-- A statement with two parameters and a single argument slot. -/
def shortArgsStmt : Stmt := ⟨7, 2, 0, [], [], [Value.null]⟩

/-- A store in which every address holds `shortArgsStmt`. -/
def shortArgsHeap : Heap := fun _ => shortArgsStmt

/-- A statement with id 7 and no parameter, column or argument. -/
def sampleStmt0 : Stmt := ⟨7, 0, 0, [], [], []⟩

/-- A store in which every address holds `sampleStmt0`. -/
def sampleHeap0 : Heap := fun _ => sampleStmt0

/-- Modelled from the spec: what the leading length-encoded unsigned integer header
of a length-encoded string yields: the length it declares, whether it is the
reserved value that denotes an embedded null, and the number of bytes the header
itself takes. -/
structure LenencHeader where
  length : Nat
  isNull : Bool
  size : Nat
  deriving DecidableEq, Repr

/-- Modelled from the spec: the length-encoded string decoder `LenencStrToString`,
which `packetio_stmt.go` calls and does not define. The specification describes a
length-encoded byte string as a leading length-encoded unsigned integer header
followed by that many raw bytes, a reserved header value denoting an embedded null;
the decoder returns `(value, isNull, bytesConsumed, error)` and must detect
truncation and report `MalformedPacket`. The byte format of the header is the
parameter `header`. -/
def lenencStrToString (header : List Byte → LenencHeader) : LenencDecoder := fun b =>
  if (header b).isNull then
    ⟨[], true, (header b).size, none⟩
  else if b.length < (header b).size + (header b).length then
    ⟨[], false, (header b).size + (header b).length, some GoError.ErrMalformPacket⟩
  else
    ⟨(b.drop (header b).size).take (header b).length, false,
      (header b).size + (header b).length, none⟩

/-- A one-byte header: the byte is the declared length, `0xfb` is the reserved
null value. -/
def sampleHeader : List Byte → LenencHeader := fun b =>
  match b with
  | [] => ⟨0, false, 1⟩
  | l :: _ => if l = 0xfb then ⟨0, true, 1⟩ else ⟨l.val, false, 1⟩

/-- A decoder that always succeeds and reports `2^63 - 1` bytes consumed, the
largest `int`. -/
def jumpDecoder : LenencDecoder := fun _ => ⟨[], false, 9223372036854775807, none⟩

/-- A decoder that always succeeds and reports nine bytes consumed, whatever it is
given: a consumed count that can overshoot the buffer. -/
def overshootDecoder : LenencDecoder := fun _ => ⟨[], false, 9, none⟩

/-- A framing collaborator that accepts every call and writes nothing. -/
def quietFraming : Framing := fun _ => ⟨[], ⟨0, 0, 0, 0⟩, none⟩

/-- A framing collaborator that writes a header into `data[0:4]`, appends nothing,
and fails the third call with an `other` error. -/
def failingFraming : Framing := fun calls =>
  ⟨[], ⟨1, 2, 3, 4⟩, if calls.length = 3 then some (GoError.other "EPIPE") else none⟩

/-- A statement with id 1 and neither parameters nor columns. -/
def emptyStmt : Stmt := ⟨1, 0, 0, [], [], []⟩

/-- A statement with id 258, two parameters and one column. -/
def preparedStmt : Stmt :=
  ⟨258, 2, 1, [[10, 11], [12]], [[20]], [Value.null, Value.null]⟩

/-- A statement with 65536 parameters. -/
def wideStmt : Stmt :=
  ⟨1, 65536, 0, List.replicate 65536 [], [], List.replicate 65536 Value.null⟩

/-- What the specification tells about a framing call: a packet with a header
region of `regionLen` bytes followed by `payload`, the terminating call with a nil
body, or an EOF marker; each with its `isLast` flag. -/
inductive CallKind where
  | packet (regionLen : Nat) (payload : List Byte) (isLast : Bool)
  | flush (isLast : Bool)
  | eof (capability status : Nat) (isLast : Bool)
  deriving DecidableEq, Repr

/-- The kind of a framing call. -/
def FramingCall.kind : FramingCall → CallKind
  | FramingCall.WritePacketBatch _ (some data) direct =>
    CallKind.packet (data.take 4).length (data.drop 4) direct
  | FramingCall.WritePacketBatch _ none direct => CallKind.flush direct
  | FramingCall.WriteEOFBatch _ capability status direct =>
    CallKind.eof capability status direct

/-- The calls that the specification lists for `num` descriptors: none when
`num` is not positive, otherwise one packet per descriptor, in index order, and
one EOF marker. -/
def sectionKinds (capability status : Nat) (num : Int) (defs : List (List Byte)) :
    List CallKind :=
  if num > 0 then
    (defs.take num.toNat).map (fun d => CallKind.packet 4 d false)
      ++ [CallKind.eof capability status false]
  else []

/-- The calls that the specification lists for a prepare response. -/
def expectedKinds (capability status : Nat) (s : Stmt) : List CallKind :=
  [CallKind.packet 4 ((prepareHeader s).drop 4) false]
    ++ sectionKinds capability status s.ParamNum s.Params
    ++ sectionKinds capability status s.ColumnNum s.Columns
    ++ [CallKind.flush true]

/-- The first `m` of the calls `calls` were all answered without an error. -/
def AllOk (io : Framing) (calls : List FramingCall) (m : Nat) : Prop :=
  ∀ k, k < m → (io (calls.take (k + 1))).err = none

/-- The invariant of a part of `WriteStmtPrepareResponse`: when control goes on, or
at a panic, every call made was answered without an error; when the function
returns an error, it is the error of the last call made and every earlier call
was answered without one. -/
def Phase.Sound (io : Framing) : Phase → Prop
  | Phase.goOn pr => AllOk io pr.calls pr.calls.length
  | Phase.returned calls err =>
    AllOk io calls (calls.length - 1) ∧ (io calls).err = some err ∧ calls ≠ []
  | Phase.panicked calls => AllOk io calls calls.length

/-- The calls made when a part of `WriteStmtPrepareResponse` ends. -/
def Phase.calls : Phase → List FramingCall
  | Phase.goOn pr => pr.calls
  | Phase.returned calls _ => calls
  | Phase.panicked calls => calls

/-! ## Little-endian reads -/

theorem or_shiftLeft_eq_add (x y k : Nat) (hx : x < 2 ^ k) :
    x ||| (y <<< k) = x + 2 ^ k * y := by
  rw [Nat.shiftLeft_eq, Nat.or_comm, Nat.mul_comm, ← Nat.mul_add_lt_is_or hx]
  omega

theorem le16_eq (b0 b1 : Byte) :
    b0.val ||| (b1.val <<< 8) = b0.val + 2 ^ 8 * b1.val :=
  or_shiftLeft_eq_add _ _ 8 (by have := b0.isLt; omega)

theorem le32_eq (b0 b1 b2 b3 : Byte) :
    b0.val ||| (b1.val <<< 8) ||| (b2.val <<< 16) ||| (b3.val <<< 24)
      = b0.val + 2 ^ 8 * b1.val + 2 ^ 16 * b2.val + 2 ^ 24 * b3.val := by
  have h0 := b0.isLt
  have h1 := b1.isLt
  have h2 := b2.isLt
  rw [le16_eq, or_shiftLeft_eq_add _ _ 16 (by omega), or_shiftLeft_eq_add _ _ 24 (by omega)]

theorem le64_eq (b0 b1 b2 b3 b4 b5 b6 b7 : Byte) :
    b0.val ||| (b1.val <<< 8) ||| (b2.val <<< 16) ||| (b3.val <<< 24)
      ||| (b4.val <<< 32) ||| (b5.val <<< 40) ||| (b6.val <<< 48) ||| (b7.val <<< 56)
      = b0.val + 2 ^ 8 * b1.val + 2 ^ 16 * b2.val + 2 ^ 24 * b3.val
        + 2 ^ 32 * b4.val + 2 ^ 40 * b5.val + 2 ^ 48 * b6.val + 2 ^ 56 * b7.val := by
  have h0 := b0.isLt
  have h1 := b1.isLt
  have h2 := b2.isLt
  have h3 := b3.isLt
  have h4 := b4.isLt
  have h5 := b5.isLt
  have h6 := b6.isLt
  rw [le32_eq, or_shiftLeft_eq_add _ _ 32 (by omega), or_shiftLeft_eq_add _ _ 40 (by omega),
    or_shiftLeft_eq_add _ _ 48 (by omega), or_shiftLeft_eq_add _ _ 56 (by omega)]

/-! ## Indexing and slicing -/

theorem index_natCast {α : Type} (b : List α) (k : Nat) : index b (k : Int) = b[k]? := by
  simp [index]

theorem slice_natCast {α : Type} (b : List α) (lo hi : Nat) (h1 : lo ≤ hi)
    (h2 : hi ≤ b.length) :
    slice b (lo : Int) (hi : Int) = some ((b.drop lo).take (hi - lo)) := by
  have : (lo : Int) ≤ hi ∧ (hi : Int) ≤ b.length := by omega
  simp [slice, this]

/-- The statement id of a payload of at least four bytes. -/
theorem read_id (data : List Byte) (hlen : 9 ≤ data.length) :
    (slice data 0 4).bind Uint32
      = some ((data.getD 0 0).val + 2 ^ 8 * (data.getD 1 0).val
          + 2 ^ 16 * (data.getD 2 0).val + 2 ^ 24 * (data.getD 3 0).val) := by
  rcases data with _ | ⟨b0, _ | ⟨b1, _ | ⟨b2, _ | ⟨b3, rest⟩⟩⟩⟩ <;>
    simp at hlen
  have h := slice_natCast (b0 :: b1 :: b2 :: b3 :: rest) 0 4 (by omega) (by simp)
  simp only [Nat.cast_ofNat, Nat.cast_zero] at h
  simp [h, Uint32, le32_eq]

theorem index_eq_getD {α : Type} (b : List α) (k : Nat) (d : α) (hk : k < b.length) :
    index b (k : Int) = some (b.getD k d) := by
  rw [index_natCast, List.getD_eq_getElem?_getD, List.getElem?_eq_getElem hk]
  rfl

theorem int_shiftLeft_one (m : Int) : m <<< (1 : Int) = m * 2 := by
  have h := Int.shiftLeft_eq_mul_pow m 1
  simpa using h

theorem int_shiftRight_three (n : Nat) :
    ((n : Int) + 7) >>> (3 : Nat) = (((n + 7) >>> 3 : Nat) : Int) := by
  rw [Int.shiftRight_eq_div_pow, Nat.shiftRight_eq_div_pow]
  push_cast
  rfl

/-! ## The parameter section of `ReadStmtExecuteRequest` -/

/-- 64-bit arithmetic is exact on results that fit. -/
theorem wrapInt_of_range (x : Int) (h0 : -2 ^ 63 ≤ x) (h1 : x < 2 ^ 63) : wrapInt x = x := by
  unfold wrapInt
  omega

theorem wrapInt_natCast (k : Nat) (h : k < 2 ^ 63) : wrapInt (k : Int) = (k : Int) :=
  wrapInt_of_range _ (by omega) (by omega)

/-- A non-zero cursor flag ends the call with the unsupported-flag error. -/
theorem readParams_flag (T : TagTable) (dec : LenencDecoder) (h : Heap)
    (data : List Byte) (p : StmtPtr) (hlen : 9 ≤ data.length)
    (hflag : data.getD 4 0 ≠ 0) :
    readParams T dec h data p
      = (some ⟨none, some (GoError.NewError ErrCode.ER_UNKNOWN_ERROR
          ("unsupported flag " ++ decimal (data.getD 4 0).val))⟩, h) := by
  have hi := index_eq_getD data 4 0 (by omega)
  simp only [Nat.cast_ofNat] at hi
  simp only [readParams, hi, Option.bind_eq_bind, Option.some_bind, Option.pure_def, ne_eq,
    hflag, not_false_eq_true, if_true, Option.getD_some]

/-- With cursor flag 0 and no parameter the statement is returned at once. -/
theorem readParams_noParams (T : TagTable) (dec : LenencDecoder) (h : Heap)
    (data : List Byte) (p : StmtPtr) (hlen : 9 ≤ data.length)
    (hflag : data.getD 4 0 = 0) (hn : (h p).ParamNum ≤ 0) :
    readParams T dec h data p = (some ⟨some p, none⟩, h) := by
  have hi := index_eq_getD data 4 0 (by omega)
  simp only [Nat.cast_ofNat] at hi
  have hn1 : ¬ (0 < (h p).ParamNum) := by omega
  simp only [readParams, hi, Option.bind_eq_bind, Option.some_bind, Option.pure_def, ne_eq,
    hflag, not_true_eq_false, if_false, gt_iff_lt, hn1, Option.getD_some]

/-- With cursor flag 0 and `n > 0` parameters, `n` small enough for the offsets to
fit in 64 bits (the largest, `10 + L + 2n`, is below `2^63`): the two length
checks, the test of the new-params-bound byte and the call of `bindStmtArgs`, with
offsets in `Nat`. -/
theorem readParams_params (T : TagTable) (dec : LenencDecoder) (h : Heap)
    (data : List Byte) (p : StmtPtr) (n : Nat) (hlen : 9 ≤ data.length)
    (hflag : data.getD 4 0 = 0) (hn : (h p).ParamNum = (n : Int)) (hpos : 0 < n)
    (hsmall : 10 + ((n + 7) >>> 3) + 2 * n < 2 ^ 63) :
    readParams T dec h data p
      = if data.length < 9 + ((n + 7) >>> 3) + 1 then
          (some ⟨none, some GoError.ErrMalformPacket⟩, h)
        else if data.getD (9 + ((n + 7) >>> 3)) 0 = 1 then
          if data.length < 10 + ((n + 7) >>> 3) + 2 * n then
            (some ⟨none, some GoError.ErrMalformPacket⟩, h)
          else
            match bindStmtArgs T dec (h p) ((data.drop 9).take ((n + 7) >>> 3))
              ((data.drop (10 + ((n + 7) >>> 3))).take (2 * n))
              (data.drop (10 + ((n + 7) >>> 3) + 2 * n)) with
            | none =>
              (none, h.setArgs p (bindWritten T dec ((data.drop 9).take ((n + 7) >>> 3))
                ((data.drop (10 + ((n + 7) >>> 3))).take (2 * n))
                (data.drop (10 + ((n + 7) >>> 3) + 2 * n)) n 0 (h p).Args 0))
            | some r =>
              (some ⟨if r.err = none then some p else none, r.err⟩, h.setArgs p r.args)
        else (some ⟨some p, none⟩, h) := by
  have hi := index_eq_getD data 4 0 (by omega)
  simp only [Nat.cast_ofNat] at hi
  have hn1 : (0 : Int) < (n : Int) := by omega
  generalize hL : (n + 7) >>> 3 = L at hsmall ⊢
  have hL8 : L = (n + 7) / 8 := by rw [← hL, Nat.shiftRight_eq_div_pow]
  have hL' : wrapInt ((n : Int) + 7) >>> (3 : Nat) = (L : Int) := by
    rw [wrapInt_of_range _ (by omega) (by omega), int_shiftRight_three, hL]
  have hsh : wrapInt ((n : Int) <<< (1 : Int)) = ((2 * n : Nat) : Int) := by
    rw [int_shiftLeft_one, wrapInt_of_range _ (by omega) (by omega)]
    push_cast; ring
  unfold readParams
  simp only [hi, Option.bind_eq_bind, Option.some_bind, hflag, ne_eq, not_true_eq_false,
    if_false, hn, Int.toNat_ofNat]
  rw [if_pos (show (n : Int) > 0 from hn1), hL', hsh]
  have e2 : wrapInt ((4 : Int) + 1 + 4 + (L : Int)) = ((9 + L : Nat) : Int) := by
    rw [wrapInt_of_range _ (by omega) (by omega)]
    push_cast; ring
  have e1 : wrapInt (((9 + L : Nat) : Int) + 1) = ((9 + L + 1 : Nat) : Int) := by
    rw [wrapInt_of_range _ (by omega) (by omega)]
    push_cast; ring
  have e3 : (4 : Int) + 1 + 4 = ((9 : Nat) : Int) := by norm_num
  have e4 : 9 + L + 1 = 10 + L := by omega
  have e5 : wrapInt (((10 + L : Nat) : Int) + ((2 * n : Nat) : Int))
      = ((10 + L + 2 * n : Nat) : Int) := by
    rw [wrapInt_of_range _ (by omega) (by omega)]
    push_cast; ring
  rw [e2, e1, e3]
  by_cases h1 : data.length < 9 + L + 1
  · have : (data.length : Int) < ((9 + L + 1 : Nat) : Int) := by exact_mod_cast h1
    rw [if_pos this, if_pos h1]
    rfl
  · have : ¬ (data.length : Int) < ((9 + L + 1 : Nat) : Int) := by
      intro hc; exact h1 (by exact_mod_cast hc)
    rw [if_neg this, if_neg h1, slice_natCast data 9 (9 + L) (by omega) (by omega),
      index_eq_getD data (9 + L) 0 (by omega)]
    simp only [Option.some_bind]
    by_cases h2 : data.getD (9 + L) 0 = 1
    · rw [if_pos h2, if_pos h2, e4, e5]
      by_cases h3 : data.length < 10 + L + 2 * n
      · have : (data.length : Int) < ((10 + L + 2 * n : Nat) : Int) := by exact_mod_cast h3
        rw [if_pos this, if_pos h3]
        rfl
      · have : ¬ (data.length : Int) < ((10 + L + 2 * n : Nat) : Int) := by
          intro hc; exact h3 (by exact_mod_cast hc)
        rw [if_neg this, if_neg h3,
          slice_natCast data (10 + L) (10 + L + 2 * n) (by omega) (by omega)]
        simp only [Option.some_bind, sliceFrom]
        rw [slice_natCast data (10 + L + 2 * n) data.length (by omega) (by omega)]
        simp only [Option.some_bind]
        have t1 : 9 + L - 9 = L := by omega
        have t2 : 10 + L + 2 * n - (10 + L) = 2 * n := by omega
        have t3 : List.take (data.length - (10 + L + 2 * n)) (List.drop (10 + L + 2 * n) data)
            = List.drop (10 + L + 2 * n) data := List.take_of_length_le (by simp)
        rw [t1, t2, t3]
        generalize bindStmtArgs T dec (h p) (List.take L (List.drop 9 data))
            (List.take (2 * n) (List.drop (10 + L) data))
            (List.drop (10 + L + 2 * n) data) = res
        cases res with
        | none => rfl
        | some r =>
          cases hr : r.err with
          | none => simp [hr]
          | some e => simp [hr]
    · rw [if_neg h2, if_neg h2]
      rfl

/-- With cursor flag 0, `n > 0` parameters and a payload that holds the null bitmap
and a new-params-bound byte other than 1, the statement is returned. -/
theorem readParams_unbound (T : TagTable) (dec : LenencDecoder) (h : Heap)
    (data : List Byte) (p : StmtPtr) (n : Nat) (hlen : 9 ≤ data.length)
    (hflag : data.getD 4 0 = 0) (hn : (h p).ParamNum = (n : Int)) (hpos : 0 < n)
    (hnum : n + 7 < 2 ^ 63) (hfull : 9 + ((n + 7) >>> 3) + 1 ≤ data.length)
    (hgo : data.length < 2 ^ 63) (hbound : data.getD (9 + ((n + 7) >>> 3)) 0 ≠ 1) :
    readParams T dec h data p = (some ⟨some p, none⟩, h) := by
  have hi := index_eq_getD data 4 0 (by omega)
  simp only [Nat.cast_ofNat] at hi
  have hn1 : (0 : Int) < (n : Int) := by omega
  generalize hL : (n + 7) >>> 3 = L at hfull hbound
  have hL' : wrapInt ((n : Int) + 7) >>> (3 : Nat) = (L : Int) := by
    rw [wrapInt_of_range _ (by omega) (by omega), int_shiftRight_three, hL]
  unfold readParams
  simp only [hi, Option.bind_eq_bind, Option.some_bind, hflag, ne_eq, not_true_eq_false,
    if_false, hn, Int.toNat_ofNat]
  rw [if_pos (show (n : Int) > 0 from hn1), hL']
  have e2 : wrapInt ((4 : Int) + 1 + 4 + (L : Int)) = ((9 + L : Nat) : Int) := by
    rw [wrapInt_of_range _ (by omega) (by omega)]
    push_cast; ring
  have e1 : wrapInt (((9 + L : Nat) : Int) + 1) = ((9 + L + 1 : Nat) : Int) := by
    rw [wrapInt_of_range _ (by omega) (by omega)]
    push_cast; ring
  have e3 : (4 : Int) + 1 + 4 = ((9 : Nat) : Int) := by norm_num
  rw [e2, e1, e3]
  have hc : ¬ (data.length : Int) < ((9 + L + 1 : Nat) : Int) := by
    intro hc
    have : data.length < 9 + L + 1 := by exact_mod_cast hc
    omega
  rw [if_neg hc, slice_natCast data 9 (9 + L) (by omega) (by omega),
    index_eq_getD data (9 + L) 0 (by omega)]
  simp only [Option.some_bind]
  rw [if_neg hbound]
  rfl

/-- The call on a payload of at least 9 bytes whose id resolves to `p`. -/
theorem read_resolved (T : TagTable) (dec : LenencDecoder) (h : Heap)
    (data : List Byte) (findStmtByID : Nat → Option StmtPtr) (id : Nat) (p : StmtPtr)
    (hlen : 9 ≤ data.length)
    (hid : id = (data.getD 0 0).val + 2 ^ 8 * (data.getD 1 0).val
      + 2 ^ 16 * (data.getD 2 0).val + 2 ^ 24 * (data.getD 3 0).val)
    (hfind : findStmtByID id = some p) :
    ReadStmtExecuteRequest T dec h data findStmtByID
      = ⟨(readParams T dec h data p).1, (readParams T dec h data p).2, [id]⟩ := by
  have hlt : ¬ data.length < 9 := by omega
  have hrd := read_id data hlen
  rw [← hid] at hrd
  unfold ReadStmtExecuteRequest
  rw [if_neg hlt, hrd]
  dsimp only
  rw [hfind]

/-! ## Theorems on `ReadStmtExecuteRequest` -/

/-- C1: a payload shorter than 9 bytes is rejected with `ErrMalformPacket` and a nil
statement; the lookup function is not called (the call log is empty) and the store
is left as it was, so no statement has its `Args` changed. -/
theorem short_payload_malformed (T : TagTable) (dec : LenencDecoder) (h : Heap)
    (data : List Byte) (findStmtByID : Nat → Option StmtPtr)
    (hlen : data.length < 9) :
    ReadStmtExecuteRequest T dec h data findStmtByID
      = ⟨some ⟨none, some GoError.ErrMalformPacket⟩, h, []⟩ := by
  simp [ReadStmtExecuteRequest, hlen]

theorem short_payload_malformed_witness :
    ([7, 0, 0, 0, 0, 1, 0, 0] : List Byte).length < 9 ∧
    ReadStmtExecuteRequest protocolTags sampleDecoder sampleHeap
        [7, 0, 0, 0, 0, 1, 0, 0] sampleLookup
      = ⟨some ⟨none, some GoError.ErrMalformPacket⟩, sampleHeap, []⟩ :=
  ⟨by decide, short_payload_malformed _ _ _ _ _ (by decide)⟩

/-- C2: on a payload of at least 9 bytes the lookup function is called exactly once,
with the little-endian value of the first four bytes; when it returns no statement
the call returns a nil statement and the `ER_UNKNOWN_STMT_HANDLER` error built from
the decimal id and `"stmt_execute"`, with the store untouched, whatever the other
bytes are; that error is neither `ErrMalformPacket` nor an `ER_UNKNOWN_ERROR`. -/
theorem unknown_statement_handler (T : TagTable) (dec : LenencDecoder) (h : Heap)
    (data : List Byte) (findStmtByID : Nat → Option StmtPtr) (id : Nat)
    (hlen : 9 ≤ data.length)
    (hid : id = (data.getD 0 0).val + 2 ^ 8 * (data.getD 1 0).val
      + 2 ^ 16 * (data.getD 2 0).val + 2 ^ 24 * (data.getD 3 0).val) :
    (ReadStmtExecuteRequest T dec h data findStmtByID).lookups = [id] ∧
    (findStmtByID id = none →
      ReadStmtExecuteRequest T dec h data findStmtByID
        = ⟨some ⟨none, some (GoError.NewDefaultError ErrCode.ER_UNKNOWN_STMT_HANDLER
            [decimal id, "stmt_execute"])⟩, h, [id]⟩ ∧
      (ReadStmtExecuteRequest T dec h data findStmtByID).ret
        ≠ some ⟨none, some GoError.ErrMalformPacket⟩ ∧
      ∀ msg, (ReadStmtExecuteRequest T dec h data findStmtByID).ret
        ≠ some ⟨none, some (GoError.NewError ErrCode.ER_UNKNOWN_ERROR msg)⟩) := by
  have hlt : ¬ data.length < 9 := by omega
  have hrd := read_id data hlen
  rw [← hid] at hrd
  constructor
  · unfold ReadStmtExecuteRequest
    rw [if_neg hlt, hrd]
    dsimp only
    cases findStmtByID id with
    | none => rfl
    | some p => rfl
  · intro hnone
    have heq : ReadStmtExecuteRequest T dec h data findStmtByID
        = ⟨some ⟨none, some (GoError.NewDefaultError ErrCode.ER_UNKNOWN_STMT_HANDLER
            [decimal id, "stmt_execute"])⟩, h, [id]⟩ := by
      unfold ReadStmtExecuteRequest
      rw [if_neg hlt, hrd]
      dsimp only
      rw [hnone]
    rw [heq]
    simp

theorem unknown_statement_handler_witness :
    (ReadStmtExecuteRequest protocolTags sampleDecoder sampleHeap
        [8, 1, 0, 0, 1, 1, 0, 0, 0] sampleLookup).lookups = [264] ∧
    (ReadStmtExecuteRequest protocolTags sampleDecoder sampleHeap
        [8, 1, 0, 0, 1, 1, 0, 0, 0] sampleLookup).ret
      = some ⟨none, some (GoError.NewDefaultError ErrCode.ER_UNKNOWN_STMT_HANDLER
          ["264", "stmt_execute"])⟩ := by
  have h := unknown_statement_handler protocolTags sampleDecoder sampleHeap
    [8, 1, 0, 0, 1, 1, 0, 0, 0] sampleLookup 264 (by decide) (by decide)
  refine ⟨h.1, ?_⟩
  rw [(h.2 (by decide)).1]
  decide

/-- C3: on a payload of at least 9 bytes whose id resolves to a statement, a cursor
flag `data[4]` other than 0 makes the call return a nil statement and the
`ER_UNKNOWN_ERROR` error with message `"unsupported flag "` followed by the decimal
value of the flag; the store, hence the statement's `Args`, is unchanged. -/
theorem unsupported_cursor_flag (T : TagTable) (dec : LenencDecoder) (h : Heap)
    (data : List Byte) (findStmtByID : Nat → Option StmtPtr) (id : Nat) (p : StmtPtr)
    (hlen : 9 ≤ data.length)
    (hid : id = (data.getD 0 0).val + 2 ^ 8 * (data.getD 1 0).val
      + 2 ^ 16 * (data.getD 2 0).val + 2 ^ 24 * (data.getD 3 0).val)
    (hfind : findStmtByID id = some p) (hflag : data.getD 4 0 ≠ 0) :
    ReadStmtExecuteRequest T dec h data findStmtByID
      = ⟨some ⟨none, some (GoError.NewError ErrCode.ER_UNKNOWN_ERROR
          ("unsupported flag " ++ decimal (data.getD 4 0).val))⟩, h, [id]⟩ := by
  rw [read_resolved T dec h data findStmtByID id p hlen hid hfind,
    readParams_flag T dec h data p hlen hflag]

theorem unsupported_cursor_flag_witness :
    (ReadStmtExecuteRequest protocolTags sampleDecoder sampleHeap
        [7, 0, 0, 0, 1, 1, 0, 0, 0, 0, 1, 1, 0, 1, 0, 5, 6] sampleLookup).ret
      = some ⟨none, some (GoError.NewError ErrCode.ER_UNKNOWN_ERROR "unsupported flag 1")⟩ ∧
    ∀ q, ((ReadStmtExecuteRequest protocolTags sampleDecoder sampleHeap
        [7, 0, 0, 0, 1, 1, 0, 0, 0, 0, 1, 1, 0, 1, 0, 5, 6] sampleLookup).heap q).Args
      = (sampleHeap q).Args := by
  have h := unsupported_cursor_flag protocolTags sampleDecoder sampleHeap
    [7, 0, 0, 0, 1, 1, 0, 0, 0, 0, 1, 1, 0, 1, 0, 5, 6] sampleLookup 7 0
    (by decide) (by decide) (by decide) (by decide)
  rw [h]
  exact ⟨by decide, fun _ => rfl⟩

/-- C4, as amended: for a resolved statement with `n > 0` parameters and a payload
of at least 9 bytes with cursor flag 0, write `L = (n+7)>>3` and let
`10 + L + 2n < 2^63` (as for every `n < 2^61`), so that `n + 7`, `n << 1` and the
offsets built from them fit in a 64-bit `int`. If the
payload has fewer than `9 + L + 1` bytes, or its byte at offset `9 + L` is 1 and it
has fewer than `10 + L + 2n` bytes, the call returns a nil statement and
`ErrMalformPacket` and leaves the store unchanged (in particular when the null
bitmap is cut short, `len(data) < 9 + L`). In every other case the length
validation is passed: when the byte at `9 + L` is not 1 the statement is returned,
and when it is 1 `bindStmtArgs` runs on the bitmap `data[9:9+L]`, the types
`data[10+L:10+L+2n]` and the values `data[10+L+2n:]`; the call returns what it
returns, and if it panics the store holds the slots written before the panic. -/
theorem param_section_validation (T : TagTable) (dec : LenencDecoder) (h : Heap)
    (data : List Byte) (findStmtByID : Nat → Option StmtPtr) (id : Nat) (p : StmtPtr)
    (n L : Nat) (hlen : 9 ≤ data.length)
    (hid : id = (data.getD 0 0).val + 2 ^ 8 * (data.getD 1 0).val
      + 2 ^ 16 * (data.getD 2 0).val + 2 ^ 24 * (data.getD 3 0).val)
    (hfind : findStmtByID id = some p) (hflag : data.getD 4 0 = 0)
    (hn : (h p).ParamNum = (n : Int)) (hpos : 0 < n) (hL : L = (n + 7) >>> 3)
    (hsmall : 10 + L + 2 * n < 2 ^ 63) :
    L = (n + 7) / 8 ∧ 8 * L < n + 8 ∧ n ≤ 8 * L ∧
    (¬ (9 + L + 1 ≤ data.length ∧
          (data.getD (9 + L) 0 ≠ 1 ∨ 10 + L + 2 * n ≤ data.length)) →
      ReadStmtExecuteRequest T dec h data findStmtByID
        = ⟨some ⟨none, some GoError.ErrMalformPacket⟩, h, [id]⟩) ∧
    (data.length < 9 + L →
      ReadStmtExecuteRequest T dec h data findStmtByID
        = ⟨some ⟨none, some GoError.ErrMalformPacket⟩, h, [id]⟩) ∧
    (9 + L + 1 ≤ data.length → data.getD (9 + L) 0 ≠ 1 →
      ReadStmtExecuteRequest T dec h data findStmtByID = ⟨some ⟨some p, none⟩, h, [id]⟩) ∧
    (10 + L + 2 * n ≤ data.length → data.getD (9 + L) 0 = 1 →
      (∀ r, bindStmtArgs T dec (h p) ((data.drop 9).take L)
            ((data.drop (10 + L)).take (2 * n)) (data.drop (10 + L + 2 * n)) = some r →
        ReadStmtExecuteRequest T dec h data findStmtByID
          = ⟨some ⟨if r.err = none then some p else none, r.err⟩,
              h.setArgs p r.args, [id]⟩) ∧
      (bindStmtArgs T dec (h p) ((data.drop 9).take L)
            ((data.drop (10 + L)).take (2 * n)) (data.drop (10 + L + 2 * n)) = none →
        ReadStmtExecuteRequest T dec h data findStmtByID
          = ⟨none, h.setArgs p (bindWritten T dec ((data.drop 9).take L)
              ((data.drop (10 + L)).take (2 * n)) (data.drop (10 + L + 2 * n))
              n 0 (h p).Args 0), [id]⟩)) := by
  have hL8 : L = (n + 7) / 8 := by rw [hL, Nat.shiftRight_eq_div_pow]
  have hrp := readParams_params T dec h data p n hlen hflag hn hpos (by rw [← hL]; exact hsmall)
  rw [← hL] at hrp
  have hrd := read_resolved T dec h data findStmtByID id p hlen hid hfind
  refine ⟨hL8, by omega, by omega, ?_, ?_, ?_, ?_⟩
  · intro hc
    rw [hrd, hrp]
    by_cases h1 : data.length < 9 + L + 1
    · rw [if_pos h1]
    · rw [if_neg h1]
      have h2 : data.getD (9 + L) 0 = 1 ∧ data.length < 10 + L + 2 * n := by
        by_contra hcon
        apply hc
        refine ⟨by omega, ?_⟩
        by_cases h3 : data.getD (9 + L) 0 = 1
        · right
          by_contra h4
          exact hcon ⟨h3, by omega⟩
        · left; exact h3
      rw [if_pos h2.1, if_pos h2.2]
  · intro hc
    have h1 : data.length < 9 + L + 1 := by omega
    rw [hrd, hrp, if_pos h1]
  · intro h1 h2
    have h1' : ¬ data.length < 9 + L + 1 := by omega
    rw [hrd, hrp, if_neg h1', if_neg h2]
  · intro h1 h2
    have h1' : ¬ data.length < 9 + L + 1 := by omega
    have h3' : ¬ data.length < 10 + L + 2 * n := by omega
    rw [hrd, hrp, if_neg h1', if_pos h2, if_neg h3']
    constructor
    · intro r hr
      rw [hr]
    · intro hr
      rw [hr]

theorem param_section_validation_witness :
    ReadStmtExecuteRequest protocolTags sampleDecoder sampleHeap
        [7, 0, 0, 0, 0, 1, 0, 0, 0] sampleLookup
      = ⟨some ⟨none, some GoError.ErrMalformPacket⟩, sampleHeap, [7]⟩ :=
  (param_section_validation protocolTags sampleDecoder sampleHeap
    [7, 0, 0, 0, 0, 1, 0, 0, 0] sampleLookup 7 0 2 1
    (by decide) (by decide) (by decide) (by decide) (by decide) (by decide)
    (by decide) (by decide)).2.2.2.2.1 (by decide)

/-- A call that panics keeps the slots written before the panic: with two `TINY`
parameters and one slot in `Args`, the first value is stored in `Args[0]` and the
write of `Args[1]` is out of range. -/
theorem read_panic_keeps_written_slots :
    (ReadStmtExecuteRequest protocolTags sampleDecoder shortArgsHeap
        [7, 0, 0, 0, 0, 1, 0, 0, 0, 0, 1, 1, 0, 1, 0, 5, 6] sampleLookup).ret = none ∧
    ((ReadStmtExecuteRequest protocolTags sampleDecoder shortArgsHeap
        [7, 0, 0, 0, 0, 1, 0, 0, 0, 0, 1, 1, 0, 1, 0, 5, 6] sampleLookup).heap 0).Args
      = [Value.int8 5] :=
  ⟨by decide, by decide⟩

/-- C4, as stated, fails: for a statement with `ParamNum = 2^63 - 1` and a payload
of 9 bytes (shorter than `9 + L + 1`), `ParamNum + 7` overflows to a negative
number, the first length check passes, and the slice expression
`data[pos : pos+nullBitmapLen]` panics: the call does not return
`ErrMalformPacket`. -/
theorem param_section_overflow :
    hugeStmt.ParamNum = 2 ^ 63 - 1 ∧
    ([7, 0, 0, 0, 0, 1, 0, 0, 0] : List Byte).length
      < 9 + ((9223372036854775807 + 7) >>> 3) + 1 ∧
    (ReadStmtExecuteRequest protocolTags sampleDecoder hugeHeap
        [7, 0, 0, 0, 0, 1, 0, 0, 0] sampleLookup).ret = none :=
  ⟨by decide, by decide, by decide⟩

theorem setIndex_some {α : Type} (args a1 : List α) (i : Nat) (v : α)
    (h : setIndex args i v = some a1) :
    i < args.length ∧ a1 = args.set i v := by
  unfold setIndex at h
  split_ifs at h with hi
  exact ⟨hi, (Option.some.inj h).symm⟩

/-- Every way out of a clause: a `return err` leaves `args` as it was, a
`continue` has written slot `i` and nothing else. -/
theorem runClause_shape (dec : LenencDecoder) (pv : List Byte) (tp : Byte) (u : Bool)
    (i : Nat) (args : List Value) (pos : Int) (c : Clause) (st : Step)
    (h : runClause dec pv tp u i args pos c = some st) :
    (∃ p1 e, st = Step.fail args p1 e) ∨
    (∃ v p1, i < args.length ∧ st = Step.next (args.set i v) p1) := by
  cases c <;> unfold runClause at h <;>
    simp only [Option.bind_eq_bind, Option.pure_def] at h
  case caseString =>
    split_ifs at h with h1
    · simp only [Option.some.injEq] at h; subst h; left; exact ⟨_, _, rfl⟩
    · simp only [Option.bind_eq_some] at h
      obtain ⟨rest, -, h⟩ := h
      split at h
      · simp only [Option.some.injEq] at h; subst h; left; exact ⟨_, _, rfl⟩
      · split_ifs at h <;>
        · simp only [Option.bind_eq_some, Option.some.injEq] at h
          obtain ⟨a1, ha, h⟩ := h
          obtain ⟨hi, rfl⟩ := setIndex_some _ _ _ _ ha
          subst h; right; exact ⟨_, _, hi, rfl⟩
  case caseDefault =>
    simp only [Option.some.injEq] at h; subst h; left; exact ⟨_, _, rfl⟩
  case caseNull =>
    simp only [Option.bind_eq_some, Option.some.injEq] at h
    obtain ⟨a1, ha, h⟩ := h
    obtain ⟨hi, rfl⟩ := setIndex_some _ _ _ _ ha
    subst h; right; exact ⟨_, _, hi, rfl⟩
  all_goals
    split at h
    · simp only [Option.some.injEq] at h; subst h; left; exact ⟨_, _, rfl⟩
    · simp only [Option.bind_eq_some, Option.some.injEq] at h
      obtain ⟨b, -, a1, ha, h⟩ := h
      obtain ⟨hi, rfl⟩ := setIndex_some _ _ _ _ ha
      subst h; right; exact ⟨_, _, hi, rfl⟩


/-! ## One iteration of the loop -/

/-- The bitmap test reads bit `i % 8` (least significant first) of the byte. -/
theorem nullBit_eq_testBit (b : Byte) (i : Nat) :
    nullBit b i = b.val.testBit (i % 8) := by
  unfold nullBit
  rw [Nat.one_shiftLeft]
  cases hb : b.val.testBit (i % 8)
  · have hz : b.val &&& 2 ^ (i % 8) = 0 := by
      apply Nat.eq_of_testBit_eq
      intro j
      rw [Nat.testBit_and, Nat.testBit_two_pow, Nat.zero_testBit]
      by_cases hj : i % 8 = j
      · subst hj; simp [hb]
      · simp [hj]
    simp [hz]
  · have hne : b.val &&& 2 ^ (i % 8) ≠ 0 := by
      intro hz
      have := Nat.testBit_and b.val (2 ^ (i % 8)) (i % 8)
      rw [hz, Nat.zero_testBit, hb, Nat.testBit_two_pow_self] at this
      simp at this
    simp [Nat.pos_of_ne_zero hne]

/-- The unsigned test reads bit 7 of the flag byte. -/
theorem unsignedFlag_eq_testBit (f : Byte) : unsignedFlag f = f.val.testBit 7 := by
  have h := nullBit_eq_testBit f 7
  unfold nullBit at h
  unfold unsignedFlag
  exact h

theorem bindParam_of_null (T : TagTable) (dec : LenencDecoder) (nb pt pv : List Byte)
    (i : Nat) (args : List Value) (pos : Int) (b : Byte)
    (hb : nb[i >>> 3]? = some b) (hbit : nullBit b i = true) :
    bindParam T dec nb pt pv i args pos
      = (setIndex args i Value.null).bind (fun a => some (Step.next a pos)) := by
  unfold bindParam
  rw [index_natCast, hb]
  simp only [Option.bind_eq_bind, Option.some_bind, hbit, if_true, Option.pure_def]

theorem bindParam_of_clear (T : TagTable) (dec : LenencDecoder) (nb pt pv : List Byte)
    (i : Nat) (args : List Value) (pos : Int) (b : Byte)
    (hb : nb[i >>> 3]? = some b) (hbit : nullBit b i = false) :
    bindParam T dec nb pt pv i args pos = bindValue T dec pt pv i args pos := by
  unfold bindParam
  rw [index_natCast, hb]
  simp [hbit]

/-- An iteration that returns an error leaves `args` as it was; one that continues
has written slot `i` and nothing else. -/
theorem bindParam_shape (T : TagTable) (dec : LenencDecoder) (nb pt pv : List Byte)
    (i : Nat) (args : List Value) (pos : Int) (st : Step)
    (h : bindParam T dec nb pt pv i args pos = some st) :
    (∃ p1 e, st = Step.fail args p1 e) ∨
    (∃ v p1, i < args.length ∧ st = Step.next (args.set i v) p1) := by
  unfold bindParam at h
  simp only [Option.bind_eq_bind, Option.pure_def, Option.bind_eq_some] at h
  obtain ⟨b, -, h⟩ := h
  split at h
  · simp only [Option.bind_eq_some, Option.some.injEq] at h
    obtain ⟨a1, ha, h⟩ := h
    obtain ⟨hi, rfl⟩ := setIndex_some _ _ _ _ ha
    subst h; right; exact ⟨_, _, hi, rfl⟩
  · unfold bindValue at h
    simp only [Option.bind_eq_bind, Option.bind_eq_some] at h
    obtain ⟨tp, -, fb, -, h⟩ := h
    exact runClause_shape _ _ _ _ _ _ _ _ _ h

/-! ## The loop -/

theorem bindLoop_succ (T : TagTable) (dec : LenencDecoder) (nb pt pv : List Byte)
    (rem i : Nat) (args : List Value) (pos : Int) :
    bindLoop T dec nb pt pv (rem + 1) i args pos
      = match bindParam T dec nb pt pv i args pos with
        | none => none
        | some (Step.fail args1 pos1 err) => some ⟨args1, pos1, some err⟩
        | some (Step.next args1 pos1) => bindLoop T dec nb pt pv rem (i + 1) args1 pos1 := by
  rw [bindLoop]

/-- Running `m + k` iterations is running `m` and, unless they ended with an
error, `k` more from where they stopped. -/
theorem bindLoop_add (T : TagTable) (dec : LenencDecoder) (nb pt pv : List Byte)
    (m k : Nat) : ∀ (i : Nat) (args : List Value) (pos : Int),
    bindLoop T dec nb pt pv (m + k) i args pos
      = (bindLoop T dec nb pt pv m i args pos).bind (fun r =>
          match r.err with
          | none => bindLoop T dec nb pt pv k (i + m) r.args r.pos
          | some _ => some r) := by
  induction m with
  | zero =>
    intro i args pos
    simp [bindLoop]
  | succ m ih =>
    intro i args pos
    have e : m + 1 + k = (m + k) + 1 := by omega
    rw [e, bindLoop_succ, bindLoop_succ]
    cases hst : bindParam T dec nb pt pv i args pos with
    | none => rfl
    | some st =>
      cases st with
      | fail a1 p1 err => rfl
      | next a1 p1 =>
        simp only
        rw [ih (i + 1) a1 p1]
        have e2 : i + 1 + m = i + (m + 1) := by omega
        rw [e2]

/-- The loop only writes the slots of the indices it visits, and none at all from
the index at which it returns an error. -/
theorem bindLoop_frame (T : TagTable) (dec : LenencDecoder) (nb pt pv : List Byte)
    (rem : Nat) : ∀ (i : Nat) (args : List Value) (pos : Int) (r : BindResult),
    bindLoop T dec nb pt pv rem i args pos = some r →
    r.args.length = args.length ∧
    ∀ j, (j < i ∨ i + rem ≤ j) → r.args[j]? = args[j]? := by
  induction rem with
  | zero =>
    intro i args pos r h
    simp only [bindLoop, Option.some.injEq] at h
    subst h
    exact ⟨rfl, fun _ _ => rfl⟩
  | succ rem ih =>
    intro i args pos r h
    rw [bindLoop_succ] at h
    cases hst : bindParam T dec nb pt pv i args pos with
    | none => rw [hst] at h; exact absurd h (by simp)
    | some st =>
      rw [hst] at h
      rcases bindParam_shape _ _ _ _ _ _ _ _ _ hst with ⟨p1, e, rfl⟩ | ⟨v, p1, hi, rfl⟩
      · simp only [Option.some.injEq] at h
        subst h
        exact ⟨rfl, fun _ _ => rfl⟩
      · simp only at h
        obtain ⟨hl, hf⟩ := ih _ _ _ _ h
        refine ⟨by rw [hl, List.length_set], ?_⟩
        intro j hj
        rw [hf j (by omega), List.getElem?_set_ne (by omega)]


/-- A run of `n` iterations seen from index `i < n`: the first `i` iterations give
a state; if they ended with an error that is the result of the run; otherwise
iteration `i` runs from that state, and either ends the run with its error or is
followed by the remaining `n - i - 1` iterations. -/
theorem bindLoop_split (T : TagTable) (dec : LenencDecoder) (nb pt pv : List Byte)
    (n i : Nat) (hi : i < n) (a0 : List Value) (r : BindResult)
    (h : bindLoop T dec nb pt pv n 0 a0 0 = some r) :
    ∃ ri, bindLoop T dec nb pt pv i 0 a0 0 = some ri ∧
      (ri.err ≠ none → r = ri) ∧
      (ri.err = none → ∃ st, bindParam T dec nb pt pv i ri.args ri.pos = some st ∧
        ((∃ a p e, st = Step.fail a p e ∧ r = ⟨a, p, some e⟩) ∨
         (∃ a p, st = Step.next a p ∧
            bindLoop T dec nb pt pv (i + 1) 0 a0 0 = some ⟨a, p, none⟩ ∧
            bindLoop T dec nb pt pv (n - i - 1) (i + 1) a p = some r))) := by
  have e : n = i + (1 + (n - i - 1)) := by omega
  rw [e, bindLoop_add] at h
  cases hri : bindLoop T dec nb pt pv i 0 a0 0 with
  | none => rw [hri] at h; exact absurd h (by simp)
  | some ri =>
    rw [hri] at h
    simp only [Option.some_bind, Nat.zero_add] at h
    refine ⟨ri, rfl, ?_, ?_⟩
    · intro hne
      cases herr : ri.err with
      | none => exact absurd herr hne
      | some e1 =>
        rw [herr] at h
        simp only [Option.some.injEq] at h
        exact h.symm
    · intro herr
      rw [herr] at h
      simp only at h
      have e1 : 1 + (n - i - 1) = (n - i - 1) + 1 := by omega
      rw [e1, bindLoop_succ] at h
      have hstep : bindLoop T dec nb pt pv (i + 1) 0 a0 0
          = (match bindParam T dec nb pt pv i ri.args ri.pos with
            | none => none
            | some (Step.fail args1 pos1 err) => some ⟨args1, pos1, some err⟩
            | some (Step.next args1 pos1) => some ⟨args1, pos1, none⟩) := by
        rw [bindLoop_add, hri]
        simp only [Option.some_bind, herr, Nat.zero_add]
        rw [bindLoop_succ]
        cases bindParam T dec nb pt pv i ri.args ri.pos with
        | none => rfl
        | some st =>
          cases st with
          | fail a p e => rfl
          | next a p => simp [bindLoop]
      cases hst : bindParam T dec nb pt pv i ri.args ri.pos with
      | none => rw [hst] at h; exact absurd h (by simp)
      | some st =>
        rw [hst] at h hstep
        refine ⟨st, rfl, ?_⟩
        cases st with
        | fail a p e =>
          left
          simp only [Option.some.injEq] at h
          exact ⟨a, p, e, rfl, h.symm⟩
        | next a p =>
          right
          exact ⟨a, p, rfl, hstep, h⟩

/-! ## Theorems on `bindStmtArgs` -/

/-- C5: in a run of `bindStmtArgs` that returns no error, for an index
`i < ParamNum` whose bit is set in the null bitmap (bit `i % 8`, least significant
first, of byte `i >> 3`; this is what the test `nullBitmap[i>>3]&(1<<(i%8)) > 0`
reads), `Args[i]` is nil at the end and the cursor is the same before and after
iteration `i`, whatever `paramTypes` holds. When the bit is clear the iteration is
the type dispatch, not the null branch. -/
theorem null_bit_binds_nil (T : TagTable) (dec : LenencDecoder) (s : Stmt)
    (nb pt pv : List Byte) (r : BindResult) (i : Nat) (b : Byte)
    (hrun : bindStmtArgs T dec s nb pt pv = some r) (hok : r.err = none)
    (hi : (i : Int) < s.ParamNum) (hb : nb[i >>> 3]? = some b) :
    (decide (b.val &&& (1 <<< (i % 8)) > 0) = b.val.testBit (i % 8)) ∧
    (b.val.testBit (i % 8) = true →
      r.args[i]? = some Value.null ∧
      ∃ a0 a1 c, bindLoop T dec nb pt pv i 0 s.Args 0 = some ⟨a0, c, none⟩ ∧
        bindParam T dec nb pt pv i a0 c = some (Step.next a1 c) ∧
        bindLoop T dec nb pt pv (i + 1) 0 s.Args 0 = some ⟨a1, c, none⟩) ∧
    (b.val.testBit (i % 8) = false →
      ∀ args pos, bindParam T dec nb pt pv i args pos
        = bindValue T dec pt pv i args pos) := by
  refine ⟨nullBit_eq_testBit b i, ?_, ?_⟩
  · intro hbit
    rw [← nullBit_eq_testBit] at hbit
    unfold bindStmtArgs at hrun
    have hin : i < s.ParamNum.toNat := by omega
    obtain ⟨ri, hri, hne, hcont⟩ := bindLoop_split T dec nb pt pv _ i hin _ _ hrun
    have herr : ri.err = none := by
      by_contra hc
      rw [hne hc] at hok
      exact hc hok
    obtain ⟨st, hst, hcase⟩ := hcont herr
    rw [bindParam_of_null T dec nb pt pv i _ _ b hb hbit] at hst
    simp only [Option.bind_eq_some, Option.some.injEq] at hst
    obtain ⟨a1, ha1, hst⟩ := hst
    obtain ⟨hlen, rfl⟩ := setIndex_some _ _ _ _ ha1
    subst hst
    rcases hcase with ⟨a, p, e, hf, -⟩ | ⟨a, p, hn, hnext, hrest⟩
    · exact absurd hf (by simp)
    · simp only [Step.next.injEq] at hn
      obtain ⟨rfl, rfl⟩ := hn
      obtain ⟨-, hfr⟩ := bindLoop_frame T dec nb pt pv _ _ _ _ _ hrest
      refine ⟨?_, ri.args, _, ri.pos, ?_, ?_, hnext⟩
      · rw [hfr i (by omega), List.getElem?_set_self hlen]
      · rw [hri]
        cases ri
        simp only at herr
        subst herr
        rfl
      · rw [bindParam_of_null T dec nb pt pv i _ _ b hb hbit, ha1]
        rfl
  · intro hbit args pos
    rw [← nullBit_eq_testBit] at hbit
    exact bindParam_of_clear T dec nb pt pv i args pos b hb hbit

theorem null_bit_binds_nil_witness :
    (bindStmtArgs protocolTags sampleDecoder sampleStmt [2] [1, 0, 3, 0] [5]).map
        (fun r => r.args[1]?) = some (some Value.null) ∧
    ∃ a0 a1 c, bindLoop protocolTags sampleDecoder [2] [1, 0, 3, 0] [5] 1 0
        sampleStmt.Args 0 = some ⟨a0, c, none⟩ ∧
      bindParam protocolTags sampleDecoder [2] [1, 0, 3, 0] [5] 1 a0 c
        = some (Step.next a1 c) ∧
      bindLoop protocolTags sampleDecoder [2] [1, 0, 3, 0] [5] 2 0
        sampleStmt.Args 0 = some ⟨a1, c, none⟩ := by
  have h := null_bit_binds_nil protocolTags sampleDecoder sampleStmt [2] [1, 0, 3, 0] [5]
    ⟨[Value.int8 5, Value.null], 1, none⟩ 1 2 (by decide) rfl (by decide) (by decide)
  exact ⟨by decide, (h.2.1 (by decide)).2⟩


/-! ## Clause selection and fixed-width reads -/

/-- With pairwise distinct tag values, `switch tp` on the value of a tag selects
the clause that lists the tag. -/
theorem selectClause_tag (T : TagTable) (hT : Function.Injective T) (tag : FieldType) :
    selectClause T (T tag) = clauseOf tag := by
  cases tag <;> simp [selectClause, clauseOf, hT.eq_iff]

theorem read8 (pv : List Byte) (pos : Nat) (h : pos + 1 ≤ pv.length) :
    index pv (pos : Int) = some (pv.getD pos 0) ∧ (pv.getD pos 0).val = leSum pv pos 1 := by
  refine ⟨index_eq_getD pv pos 0 (by omega), ?_⟩
  simp [leSum]

theorem take_drop_succ (pv : List Byte) (pos w : Nat) (h : pos + w < pv.length) :
    (pv.drop pos).take (w + 1) = (pv.drop pos).take w ++ [pv.getD (pos + w) 0] := by
  rw [List.take_succ, List.getElem?_drop, List.getD_eq_getElem?_getD,
    List.getElem?_eq_getElem h]
  rfl

theorem read16 (pv : List Byte) (pos : Nat) (h : pos + 2 ≤ pv.length) :
    (slice pv (pos : Int) ((pos : Int) + 2)).bind Uint16 = some (leSum pv pos 2) := by
  have e : (pos : Int) + 2 = ((pos + 2 : Nat) : Int) := by push_cast; rfl
  rw [e, slice_natCast pv pos (pos + 2) (by omega) h]
  have t : pos + 2 - pos = 2 := by omega
  rw [t, take_drop_succ pv pos 1 (by omega), take_drop_succ pv pos 0 (by omega)]
  simp only [List.take_zero, List.nil_append, List.singleton_append, Option.some_bind,
    Uint16, le16_eq, leSum, Nat.add_zero]
  congr 1
  omega

theorem read32 (pv : List Byte) (pos : Nat) (h : pos + 4 ≤ pv.length) :
    (slice pv (pos : Int) ((pos : Int) + 4)).bind Uint32 = some (leSum pv pos 4) := by
  have e : (pos : Int) + 4 = ((pos + 4 : Nat) : Int) := by push_cast; rfl
  rw [e, slice_natCast pv pos (pos + 4) (by omega) h]
  have t : pos + 4 - pos = 4 := by omega
  rw [t, take_drop_succ pv pos 3 (by omega), take_drop_succ pv pos 2 (by omega),
    take_drop_succ pv pos 1 (by omega), take_drop_succ pv pos 0 (by omega)]
  simp only [List.take_zero, List.nil_append, List.singleton_append, List.cons_append,
    Option.some_bind, Uint32, le32_eq, leSum, Nat.add_zero]
  congr 1
  omega

theorem read64 (pv : List Byte) (pos : Nat) (h : pos + 8 ≤ pv.length) :
    (slice pv (pos : Int) ((pos : Int) + 8)).bind Uint64 = some (leSum pv pos 8) := by
  have e : (pos : Int) + 8 = ((pos + 8 : Nat) : Int) := by push_cast; rfl
  rw [e, slice_natCast pv pos (pos + 8) (by omega) h]
  have t : pos + 8 - pos = 8 := by omega
  rw [t, take_drop_succ pv pos 7 (by omega), take_drop_succ pv pos 6 (by omega),
    take_drop_succ pv pos 5 (by omega), take_drop_succ pv pos 4 (by omega),
    take_drop_succ pv pos 3 (by omega), take_drop_succ pv pos 2 (by omega),
    take_drop_succ pv pos 1 (by omega), take_drop_succ pv pos 0 (by omega)]
  simp only [List.take_zero, List.nil_append, List.singleton_append, List.cons_append,
    Option.some_bind, Uint64, le64_eq, leSum, Nat.add_zero]
  congr 1
  omega


theorem setIndex_of_lt {α : Type} (args : List α) (i : Nat) (v : α) (h : i < args.length) :
    setIndex args i v = some (args.set i v) := by
  simp [setIndex, h]

theorem shiftLeft_one_eq (i : Nat) : i <<< 1 = 2 * i := by
  rw [Nat.shiftLeft_eq]; omega

/-- The reads of the type byte and of the flag byte, then the selected clause. -/
theorem bindValue_eq (T : TagTable) (dec : LenencDecoder) (pt pv : List Byte)
    (i : Nat) (args : List Value) (pos : Int) (tp fb : Byte)
    (htp : pt[2 * i]? = some tp) (hfb : pt[2 * i + 1]? = some fb) :
    bindValue T dec pt pv i args pos
      = runClause dec pv tp (unsignedFlag fb) i args pos (selectClause T tp) := by
  unfold bindValue
  rw [index_natCast, index_natCast, shiftLeft_one_eq, htp, hfb]
  rfl

/-- The integer clauses on a value that fits in the remaining bytes of a slice
(whose length, a Go `int`, is below `2^63`). -/
theorem bindValue_int (T : TagTable) (hT : Function.Injective T) (dec : LenencDecoder)
    (pt pv : List Byte) (i : Nat) (args : List Value) (pos : Nat) (tag : FieldType)
    (fb : Byte) (w : Nat)
    (htp : pt[2 * i]? = some (T tag)) (hfb : pt[2 * i + 1]? = some fb)
    (hw : intWidth tag = some w) (hlen : pos + w ≤ pv.length) (hi : i < args.length)
    (hgo : pv.length < 2 ^ 63) :
    bindValue T dec pt pv i args pos
      = some (Step.next
          (args.set i (if unsignedFlag fb then unsignedValue w (leSum pv pos w)
            else signedValue w (toSigned (8 * w) (leSum pv pos w))))
          ((pos : Int) + (w : Int))) := by
  rw [bindValue_eq T dec pt pv i args pos (T tag) fb htp hfb, selectClause_tag T hT]
  cases tag <;> simp only [intWidth, Option.some.injEq, reduceCtorEq] at hw <;> subst hw <;>
    simp only [clauseOf, runClause]
  case MYSQL_TYPE_TINY =>
    rw [wrapInt_of_range ((pos : Int) + 1) (by omega) (by omega)]
    have hc : ¬ ((pv.length : Int) < (pos : Int) + 1) := by omega
    rw [if_neg hc, (read8 pv pos hlen).1]
    simp only [Option.bind_eq_bind, Option.some_bind, Option.pure_def]
    rw [setIndex_of_lt _ _ _ hi, (read8 pv pos hlen).2]
    cases unsignedFlag fb <;> simp [unsignedValue, signedValue]
  case MYSQL_TYPE_SHORT =>
    rw [wrapInt_of_range ((pos : Int) + 2) (by omega) (by omega)]
    have hc : ¬ ((pv.length : Int) < (pos : Int) + 2) := by omega
    rw [if_neg hc, read16 pv pos hlen]
    simp only [Option.bind_eq_bind, Option.some_bind, Option.pure_def]
    rw [setIndex_of_lt _ _ _ hi]
    cases unsignedFlag fb <;> simp [unsignedValue, signedValue]
  case MYSQL_TYPE_YEAR =>
    rw [wrapInt_of_range ((pos : Int) + 2) (by omega) (by omega)]
    have hc : ¬ ((pv.length : Int) < (pos : Int) + 2) := by omega
    rw [if_neg hc, read16 pv pos hlen]
    simp only [Option.bind_eq_bind, Option.some_bind, Option.pure_def]
    rw [setIndex_of_lt _ _ _ hi]
    cases unsignedFlag fb <;> simp [unsignedValue, signedValue]
  case MYSQL_TYPE_INT24 =>
    rw [wrapInt_of_range ((pos : Int) + 4) (by omega) (by omega)]
    have hc : ¬ ((pv.length : Int) < (pos : Int) + 4) := by omega
    rw [if_neg hc, read32 pv pos hlen]
    simp only [Option.bind_eq_bind, Option.some_bind, Option.pure_def]
    rw [setIndex_of_lt _ _ _ hi]
    cases unsignedFlag fb <;> simp [unsignedValue, signedValue]
  case MYSQL_TYPE_LONG =>
    rw [wrapInt_of_range ((pos : Int) + 4) (by omega) (by omega)]
    have hc : ¬ ((pv.length : Int) < (pos : Int) + 4) := by omega
    rw [if_neg hc, read32 pv pos hlen]
    simp only [Option.bind_eq_bind, Option.some_bind, Option.pure_def]
    rw [setIndex_of_lt _ _ _ hi]
    cases unsignedFlag fb <;> simp [unsignedValue, signedValue]
  case MYSQL_TYPE_LONGLONG =>
    rw [wrapInt_of_range ((pos : Int) + 8) (by omega) (by omega)]
    have hc : ¬ ((pv.length : Int) < (pos : Int) + 8) := by omega
    rw [if_neg hc, read64 pv pos hlen]
    simp only [Option.bind_eq_bind, Option.some_bind, Option.pure_def]
    rw [setIndex_of_lt _ _ _ hi]
    cases unsignedFlag fb <;> simp [unsignedValue, signedValue]

theorem leSum_lt (pv : List Byte) (pos w : Nat) : leSum pv pos w < 256 ^ w := by
  induction w with
  | zero => simp [leSum]
  | succ w ih =>
    have hb := (pv.getD (pos + w) 0).isLt
    have hm : (pv.getD (pos + w) 0).val * 256 ^ w ≤ 255 * 256 ^ w :=
      Nat.mul_le_mul_right _ (by omega)
    rw [leSum, pow_succ]
    omega

/-- The two's complement reading, by cases, for the four widths. -/
theorem toSigned_cases (w u : Nat) (hw : w = 1 ∨ w = 2 ∨ w = 4 ∨ w = 8)
    (hu : u < 256 ^ w) :
    toSigned (8 * w) u
      = if u < 2 ^ (8 * w - 1) then (u : Int) else (u : Int) - 2 ^ (8 * w) := by
  unfold toSigned
  rcases hw with rfl | rfl | rfl | rfl <;> norm_num at hu ⊢ <;> split_ifs <;> omega

/-- C6: at a parameter `i` whose null bit is clear, reached at cursor `pos` with at
least `w` bytes left, where `w` is 1, 2, 2, 4, 4, 8 for the tags `TINY`, `SHORT`,
`YEAR`, `INT24`, `LONG`, `LONGLONG`, the iteration advances the cursor by exactly
`w` and stores in `Args[i]` the number `leSum paramValues pos w` (the sum of
`paramValues[pos+k] * 256^k`, `k < w`), as the unsigned type of that width when
the unsigned flag is set and converted to the signed type of that width when not.
`paramValues` is a Go slice: its length is an `int`, below `2^63`. -/
theorem integer_tags_width_and_value (T : TagTable) (hT : Function.Injective T)
    (dec : LenencDecoder) (nb pt pv : List Byte) (i : Nat) (args : List Value)
    (pos : Nat) (b fb : Byte) (tag : FieldType) (w : Nat)
    (hb : nb[i >>> 3]? = some b) (hbit : b.val.testBit (i % 8) = false)
    (htp : pt[2 * i]? = some (T tag)) (hfb : pt[2 * i + 1]? = some fb)
    (hw : intWidth tag = some w) (hlen : pos + w ≤ pv.length) (hi : i < args.length)
    (hgo : pv.length < 2 ^ 63) :
    bindParam T dec nb pt pv i args pos
      = some (Step.next
          (args.set i (if fb.val &&& 0x80 > 0 then unsignedValue w (leSum pv pos w)
            else signedValue w (toSigned (8 * w) (leSum pv pos w))))
          ((pos : Int) + (w : Int))) := by
  rw [← nullBit_eq_testBit] at hbit
  rw [bindParam_of_clear T dec nb pt pv i args pos b hb hbit,
    bindValue_int T hT dec pt pv i args pos tag fb w htp hfb hw hlen hi hgo]
  unfold unsignedFlag
  by_cases hf : fb.val &&& 0x80 > 0 <;> simp [hf]


theorem protocolTags_injective : Function.Injective protocolTags := by
  intro a b h
  cases a <;> cases b <;> first | rfl | exact absurd h (by decide)

theorem integer_tags_width_and_value_witness :
    bindParam protocolTags sampleDecoder [0] [1, 0, 3, 0] [9, 1, 2, 3, 0x80] 1
        [Value.int8 9, Value.null] 1
      = some (Step.next [Value.int8 9, Value.int32 (-2147286527)] 5) ∧
    leSum [9, 1, 2, 3, 0x80] 1 4 = 1 + 2 * 256 + 3 * 256 ^ 2 + 128 * 256 ^ 3 := by
  have h := integer_tags_width_and_value protocolTags protocolTags_injective sampleDecoder
    [0] [1, 0, 3, 0] [9, 1, 2, 3, 0x80] 1 [Value.int8 9, Value.null] 1 0 0
    FieldType.MYSQL_TYPE_LONG 4 (by decide) (by decide) (by decide) (by decide)
    (by decide) (by decide) (by decide) (by decide)
  exact ⟨h.trans (by decide), by decide⟩

/-- C7: for an integer tag of `w` bytes (`TINY` 1, `SHORT`/`YEAR` 2, `INT24`/`LONG`
4, `LONGLONG` 8) and bytes of little-endian value `u`, the iteration stores the
unsigned `u` when bit 7 (mask `0x80`) of `paramTypes[2i+1]` is set, and otherwise
the signed value `u` if `u < 2^(8w-1)` and `u - 2^(8w)` if not. The other bits of
`paramTypes[2i+1]` do not matter: a type array with the same tag and a flag byte
with the same bit 7 gives the same result. `paramValues` is a Go slice: its length
is an `int`, below `2^63`. -/
theorem unsigned_flag_selects_signedness (T : TagTable) (hT : Function.Injective T)
    (dec : LenencDecoder) (nb pt pv : List Byte) (i : Nat) (args : List Value)
    (pos : Nat) (b fb : Byte) (tag : FieldType) (w u : Nat)
    (hb : nb[i >>> 3]? = some b) (hbit : b.val.testBit (i % 8) = false)
    (htp : pt[2 * i]? = some (T tag)) (hfb : pt[2 * i + 1]? = some fb)
    (hw : intWidth tag = some w) (hlen : pos + w ≤ pv.length) (hi : i < args.length)
    (hu : u = leSum pv pos w) (hgo : pv.length < 2 ^ 63) :
    bindParam T dec nb pt pv i args pos
      = some (Step.next
          (args.set i (if fb.val.testBit 7 then unsignedValue w u
            else signedValue w
              (if u < 2 ^ (8 * w - 1) then (u : Int) else (u : Int) - 2 ^ (8 * w))))
          ((pos : Int) + (w : Int))) ∧
    ∀ (pt1 : List Byte) (fb1 : Byte), pt1[2 * i]? = some (T tag) →
      pt1[2 * i + 1]? = some fb1 → fb1.val.testBit 7 = fb.val.testBit 7 →
      bindParam T dec nb pt1 pv i args pos = bindParam T dec nb pt pv i args pos := by
  have hw4 : w = 1 ∨ w = 2 ∨ w = 4 ∨ w = 8 := by
    cases tag <;> simp [intWidth] at hw <;> omega
  have key : ∀ (pt1 : List Byte) (fb1 : Byte), pt1[2 * i]? = some (T tag) →
      pt1[2 * i + 1]? = some fb1 →
      bindParam T dec nb pt1 pv i args pos
        = some (Step.next
            (args.set i (if fb1.val.testBit 7 then unsignedValue w u
              else signedValue w
                (if u < 2 ^ (8 * w - 1) then (u : Int) else (u : Int) - 2 ^ (8 * w))))
            ((pos : Int) + (w : Int))) := by
    intro pt1 fb1 h1 h2
    have hnb := hbit
    rw [← nullBit_eq_testBit] at hnb
    rw [bindParam_of_clear T dec nb pt1 pv i args pos b hb hnb,
      bindValue_int T hT dec pt1 pv i args pos tag fb1 w h1 h2 hw hlen hi hgo,
      unsignedFlag_eq_testBit, ← hu, toSigned_cases w u hw4 (by rw [hu]; exact leSum_lt _ _ _)]
  refine ⟨key pt fb htp hfb, ?_⟩
  intro pt1 fb1 h1 h2 h7
  rw [key pt1 fb1 h1 h2, key pt fb htp hfb, h7]

theorem unsigned_flag_selects_signedness_witness :
    bindParam protocolTags sampleDecoder [0] [1, 0x80] [0xFF] 0 [Value.null] 0
      = some (Step.next [Value.uint8 255] 1) ∧
    bindParam protocolTags sampleDecoder [0] [1, 0x7F] [0xFF] 0 [Value.null] 0
      = some (Step.next [Value.int8 (-1)] 1) ∧
    bindParam protocolTags sampleDecoder [0] [3, 0x80] [1, 2, 3, 0x80] 0 [Value.null] 0
      = some (Step.next [Value.uint32 2147680769] 4) ∧
    (2147680769 : Int) > 2 ^ 31 - 1 ∧
    bindParam protocolTags sampleDecoder [0] [3, 0] [1, 2, 3, 0x80] 0 [Value.null] 0
      = some (Step.next [Value.int32 (-2147286527)] 4) := by
  have h := (unsigned_flag_selects_signedness protocolTags protocolTags_injective
    sampleDecoder [0] [1, 0x80] [0xFF] 0 [Value.null] 0 0 0x80
    FieldType.MYSQL_TYPE_TINY 1 255 (by decide) (by decide) (by decide) (by decide)
    (by decide) (by decide) (by decide) (by decide) (by decide)).1
  exact ⟨h.trans (by decide), by decide, by decide, by decide, by decide⟩


/-! ## Fixed-width parameters -/

/-- A fixed-width clause at cursor `pos`: `ErrMalformPacket` when fewer than `w`
bytes are left, and otherwise a write of slot `i` with the cursor moved by `w`.
The slice is short enough for `pos + 8` to fit in an `int`. -/
theorem bindValue_fixed (T : TagTable) (hT : Function.Injective T) (dec : LenencDecoder)
    (pt pv : List Byte) (i : Nat) (args : List Value) (pos : Nat) (tag : FieldType)
    (fb : Byte) (w : Nat)
    (htp : pt[2 * i]? = some (T tag)) (hfb : pt[2 * i + 1]? = some fb)
    (hw : fixedWidth tag = some w) (hpos : pos ≤ pv.length) (hi : i < args.length)
    (hgo : pv.length + 8 < 2 ^ 63) :
    (pv.length < pos + w →
      bindValue T dec pt pv i args pos
        = some (Step.fail args pos GoError.ErrMalformPacket)) ∧
    (pos + w ≤ pv.length →
      ∃ v, bindValue T dec pt pv i args pos
        = some (Step.next (args.set i v) ((pos + w : Nat) : Int))) := by
  constructor
  · intro hlt
    rw [bindValue_eq T dec pt pv i args pos (T tag) fb htp hfb, selectClause_tag T hT]
    cases tag <;> simp only [fixedWidth, Option.some.injEq, reduceCtorEq] at hw <;>
      subst hw <;> simp only [clauseOf, runClause]
    case MYSQL_TYPE_NULL => omega
    all_goals
      first
        | rw [wrapInt_of_range ((pos : Int) + 1) (by omega) (by omega)]
        | rw [wrapInt_of_range ((pos : Int) + 2) (by omega) (by omega)]
        | rw [wrapInt_of_range ((pos : Int) + 4) (by omega) (by omega)]
        | rw [wrapInt_of_range ((pos : Int) + 8) (by omega) (by omega)]
      rw [if_pos (by omega)]
      rfl
  · intro hle
    by_cases hint : intWidth tag = some w
    · refine ⟨(if unsignedFlag fb then unsignedValue w (leSum pv pos w)
        else signedValue w (toSigned (8 * w) (leSum pv pos w))), ?_⟩
      rw [bindValue_int T hT dec pt pv i args pos tag fb w htp hfb hint hle hi (by omega)]
      push_cast
      rfl
    · rw [bindValue_eq T dec pt pv i args pos (T tag) fb htp hfb, selectClause_tag T hT]
      cases tag <;> simp only [fixedWidth, Option.some.injEq, reduceCtorEq] at hw <;>
        subst hw <;>
        simp only [intWidth, not_true_eq_false] at hint <;>
        simp only [clauseOf, runClause]
      · refine ⟨Value.null, ?_⟩
        simp only [Option.bind_eq_bind, Option.pure_def]
        rw [setIndex_of_lt _ _ _ hi]
        rfl
      · have hc : ¬ ((pv.length : Int) < (pos : Int) + 4) := by omega
        refine ⟨Value.float32 (leSum pv pos 4), ?_⟩
        rw [wrapInt_of_range ((pos : Int) + 4) (by omega) (by omega)]
        rw [if_neg hc, read32 pv pos hle]
        simp only [Option.bind_eq_bind, Option.some_bind, Option.pure_def]
        rw [setIndex_of_lt _ _ _ hi]
        push_cast
        rfl
      · have hc : ¬ ((pv.length : Int) < (pos : Int) + 8) := by omega
        refine ⟨Value.float64 (leSum pv pos 8), ?_⟩
        rw [wrapInt_of_range ((pos : Int) + 8) (by omega) (by omega)]
        rw [if_neg hc, read64 pv pos hle]
        simp only [Option.bind_eq_bind, Option.some_bind, Option.pure_def]
        rw [setIndex_of_lt _ _ _ hi]
        push_cast
        rfl

theorem widthSum_mono (nb : List Byte) (tags : Nat → FieldType) (i n : Nat) (h : i ≤ n) :
    widthSum nb tags i ≤ widthSum nb tags n := by
  induction n with
  | zero =>
    have : i = 0 := by omega
    subst this
    exact Nat.le_refl _
  | succ n ih =>
    by_cases hi : i = n + 1
    · subst hi; exact Nat.le_refl _
    · have := ih (by omega)
      rw [widthSum]
      omega

/-- The loop over parameters that are null or carry fixed-width tags. -/
theorem bindLoop_fixed (T : TagTable) (hT : Function.Injective T) (dec : LenencDecoder)
    (nb pt pv : List Byte) (tags : Nat → FieldType) (n : Nat)
    (hnb : n ≤ 8 * nb.length) (hpt : 2 * n ≤ pt.length)
    (htag : ∀ i, i < n → isNullParam nb i = false →
      pt[2 * i]? = some (T (tags i)) ∧ fixedWidth (tags i) ≠ none)
    (hgo : pv.length + 8 < 2 ^ 63)
    (rem : Nat) : ∀ (i : Nat) (args : List Value) (pos : Nat),
    i + rem = n → pos = widthSum nb tags i → pos ≤ pv.length → n ≤ args.length →
    ∃ r, bindLoop T dec nb pt pv rem i args pos = some r ∧
      (pv.length < widthSum nb tags n → r.err = some GoError.ErrMalformPacket) ∧
      (widthSum nb tags n ≤ pv.length →
        r.err = none ∧ r.pos = (widthSum nb tags n : Nat)) := by
  induction rem with
  | zero =>
    intro i args pos hin hpos hle hargs
    have : i = n := by omega
    subst this
    refine ⟨⟨args, pos, none⟩, rfl, ?_, ?_⟩
    · intro hlt; omega
    · intro _; exact ⟨rfl, by rw [hpos]⟩
  | succ rem ih =>
    intro i args pos hin hpos hle hargs
    have hilt : i < n := by omega
    have hidx : i >>> 3 < nb.length := by
      rw [Nat.shiftRight_eq_div_pow]
      have : i / 2 ^ 3 * 8 ≤ i := Nat.div_mul_le_self i 8
      omega
    have hb : nb[i >>> 3]? = some nb[i >>> 3] := List.getElem?_eq_getElem hidx
    have hnull : isNullParam nb i = nb[i >>> 3].val.testBit (i % 8) := by
      unfold isNullParam
      rw [hb]
    rw [bindLoop_succ]
    cases hbit : isNullParam nb i
    · -- the bit is clear: the tag is a fixed-width one
      obtain ⟨htp, hfix⟩ := htag i hilt hbit
      obtain ⟨w, hw⟩ := Option.ne_none_iff_exists'.mp hfix
      have hfbidx : 2 * i + 1 < pt.length := by omega
      have hfb : pt[2 * i + 1]? = some pt[2 * i + 1] := List.getElem?_eq_getElem hfbidx
      have hpw : paramWidth nb tags i = w := by
        simp [paramWidth, hbit, hw]
      have hstep : widthSum nb tags (i + 1) = pos + w := by
        rw [widthSum, hpw, hpos]
      have hmono := widthSum_mono nb tags (i + 1) n (by omega)
      rw [hnull, ← nullBit_eq_testBit] at hbit
      rw [bindParam_of_clear T dec nb pt pv i args pos _ hb hbit]
      obtain ⟨hfail, hnext⟩ := bindValue_fixed T hT dec pt pv i args pos (tags i)
        pt[2 * i + 1] w htp hfb hw hle (by omega) hgo
      by_cases hlt : pv.length < pos + w
      · rw [hfail hlt]
        refine ⟨_, rfl, fun _ => rfl, ?_⟩
        intro hge; omega
      · obtain ⟨v, hv⟩ := hnext (by omega)
        rw [hv]
        exact ih (i + 1) (args.set i v) (pos + w) (by omega) hstep.symm (by omega)
          (by rw [List.length_set]; exact hargs)
    · -- the bit is set: nil, no byte taken
      have hpw : paramWidth nb tags i = 0 := by
        simp [paramWidth, hbit]
      have hstep : widthSum nb tags (i + 1) = pos := by
        rw [widthSum, hpw, hpos]; rfl
      rw [hnull, ← nullBit_eq_testBit] at hbit
      rw [bindParam_of_null T dec nb pt pv i args pos _ hb hbit,
        setIndex_of_lt _ _ _ (by omega)]
      exact ih (i + 1) (args.set i Value.null) pos (by omega) hstep.symm hle
        (by rw [List.length_set]; exact hargs)

/-- C8: when every parameter whose null bit is clear carries a fixed-width tag
(`NULL` 0 bytes, `TINY` 1, `SHORT`/`YEAR` 2, `INT24`/`LONG`/`FLOAT` 4,
`LONGLONG`/`DOUBLE` 8), `bindStmtArgs` returns `ErrMalformPacket` if and only if
`paramValues` is shorter than the sum of the widths of the parameters whose null
bit is clear; otherwise it returns no error and its final cursor is that sum. The
bitmap, the type array and `Args` are long enough for `ParamNum` parameters, and
`paramValues` is a Go slice: its length is an `int`, taken below `2^63 - 8` so
that the sums `pos + 8` of the length checks fit. -/
theorem fixed_width_bind_length (T : TagTable) (hT : Function.Injective T)
    (dec : LenencDecoder) (s : Stmt) (nb pt pv : List Byte) (tags : Nat → FieldType)
    (n : Nat) (hn : s.ParamNum = (n : Int)) (hargs : n ≤ s.Args.length)
    (hnb : n ≤ 8 * nb.length) (hpt : 2 * n ≤ pt.length)
    (htag : ∀ i, i < n → isNullParam nb i = false →
      pt[2 * i]? = some (T (tags i)) ∧ fixedWidth (tags i) ≠ none)
    (hgo : pv.length + 8 < 2 ^ 63) :
    ∃ r, bindStmtArgs T dec s nb pt pv = some r ∧
      (r.err = some GoError.ErrMalformPacket ↔ pv.length < widthSum nb tags n) ∧
      (widthSum nb tags n ≤ pv.length →
        r.err = none ∧ r.pos = (widthSum nb tags n : Nat)) := by
  have hloop := bindLoop_fixed T hT dec nb pt pv tags n hnb hpt htag hgo n 0 s.Args 0
    (by omega) rfl (by omega) hargs
  obtain ⟨r, hr, h1, h2⟩ := hloop
  refine ⟨r, ?_, ⟨?_, h1⟩, h2⟩
  · unfold bindStmtArgs
    rw [hn]
    exact hr
  · intro herr
    by_contra hc
    have := (h2 (by omega)).1
    rw [this] at herr
    exact absurd herr (by simp)


theorem fixed_width_bind_length_witness :
    ∃ r, bindStmtArgs protocolTags sampleDecoder sampleStmt [0] [1, 0, 3, 0]
        [5, 1, 2, 3, 4, 9] = some r ∧ r.err = none ∧ r.pos = 5 := by
  obtain ⟨r, hr, -, hok⟩ := fixed_width_bind_length protocolTags protocolTags_injective
    sampleDecoder sampleStmt [0] [1, 0, 3, 0] [5, 1, 2, 3, 4, 9] sampleTags 2
    (by decide) (by decide) (by decide) (by decide)
    (by
      intro i hi _
      have hcases : i = 0 ∨ i = 1 := by omega
      rcases hcases with rfl | rfl <;> exact ⟨by decide, by decide⟩)
    (by decide)
  exact ⟨r, hr, hok (by decide)⟩

/-! ## Failing runs -/

/-- A run that returns an error has a first failing index `k`: the iterations
before `k` all continue, iteration `k` returns the error, and the result of the
run is the state in which iteration `k` started, with that error. -/
theorem bindLoop_error_index (T : TagTable) (dec : LenencDecoder) (nb pt pv : List Byte)
    (a0 : List Value) (n : Nat) : ∀ (r : BindResult) (e : GoError),
    bindLoop T dec nb pt pv n 0 a0 0 = some r → r.err = some e →
    ∃ k ak pk pk1, k < n ∧
      bindLoop T dec nb pt pv k 0 a0 0 = some ⟨ak, pk, none⟩ ∧
      bindParam T dec nb pt pv k ak pk = some (Step.fail ak pk1 e) ∧
      r = ⟨ak, pk1, some e⟩ := by
  induction n with
  | zero =>
    intro r e h herr
    simp only [bindLoop, Option.some.injEq] at h
    subst h
    exact absurd herr (by simp)
  | succ n ih =>
    intro r e h herr
    obtain ⟨ri, hri, hne, hcont⟩ := bindLoop_split T dec nb pt pv (n + 1) n (by omega) a0 r h
    cases hie : ri.err with
    | some e1 =>
      have hreq := hne (by rw [hie]; simp)
      subst hreq
      obtain ⟨k, ak, pk, pk1, hk, h1, h2, h3⟩ := ih r e hri herr
      exact ⟨k, ak, pk, pk1, by omega, h1, h2, h3⟩
    | none =>
      obtain ⟨st, hst, hcase⟩ := hcont hie
      rcases hcase with ⟨a, p, e1, rfl, rfl⟩ | ⟨a, p, rfl, -, hrest⟩
      · simp only [Option.some.injEq] at herr
        subst herr
        rcases bindParam_shape _ _ _ _ _ _ _ _ _ hst with ⟨p1, e2, heq⟩ | ⟨v, p1, -, heq⟩
        · simp only [Step.fail.injEq] at heq
          obtain ⟨rfl, rfl, rfl⟩ := heq
          refine ⟨n, ri.args, ri.pos, p, by omega, ?_, hst, rfl⟩
          rw [hri]
          cases ri
          simp only at hie
          subst hie
          rfl
        · exact absurd heq (by simp)
      · have e0 : n + 1 - n - 1 = 0 := by omega
        rw [e0] at hrest
        simp only [bindLoop, Option.some.injEq] at hrest
        subst hrest
        exact absurd herr (by simp)

/-- In a state reached by `k` iterations without error, each slot `j < k` holds
the value that iteration `j` wrote, and the other slots are as at the start. -/
theorem bindLoop_prefix_slots (T : TagTable) (dec : LenencDecoder) (nb pt pv : List Byte)
    (a0 ak : List Value) (k : Nat) (pk : Int)
    (h : bindLoop T dec nb pt pv k 0 a0 0 = some ⟨ak, pk, none⟩) :
    (∀ j, k ≤ j → ak[j]? = a0[j]?) ∧
    ∀ j, j < k → ∃ aj pj v pj1,
      bindLoop T dec nb pt pv j 0 a0 0 = some ⟨aj, pj, none⟩ ∧
      bindParam T dec nb pt pv j aj pj = some (Step.next (aj.set j v) pj1) ∧
      ak[j]? = some v := by
  constructor
  · intro j hj
    exact (bindLoop_frame T dec nb pt pv k 0 a0 0 _ h).2 j (Or.inr (by omega))
  · intro j hj
    obtain ⟨ri, hri, hne, hcont⟩ := bindLoop_split T dec nb pt pv k j hj a0 _ h
    have hie : ri.err = none := by
      by_contra hc
      have := hne hc
      rw [← this] at hc
      exact hc rfl
    obtain ⟨st, hst, hcase⟩ := hcont hie
    rcases hcase with ⟨a, p, e1, -, heq⟩ | ⟨a, p, rfl, -, hrest⟩
    · exact absurd heq (by simp)
    · rcases bindParam_shape _ _ _ _ _ _ _ _ _ hst with ⟨p1, e2, heq⟩ | ⟨v, p1, hlt, heq⟩
      · exact absurd heq (by simp)
      · simp only [Step.next.injEq] at heq
        obtain ⟨rfl, rfl⟩ := heq
        refine ⟨ri.args, ri.pos, v, p, ?_, hst, ?_⟩
        · rw [hri]
          cases ri
          simp only at hie
          subst hie
          rfl
        · have hfr := (bindLoop_frame T dec nb pt pv _ _ _ _ _ hrest).2 j (Or.inl (by omega))
          simp only at hfr
          rw [hfr, List.getElem?_set_self hlt]

/-- C9: when `bindStmtArgs`, called by `ReadStmtExecuteRequest`, returns an error
`e`, the call returns a nil statement with `e`, and the store holds the `Args`
that the bind left: there is a first failing index `k < ParamNum`, every slot
`j < k` holds the value that iteration `j` decoded and wrote, and every slot
`j >= k` holds what it held before the call. Nothing is rolled back. The payload
is a Go slice: its length is an `int`, below `2^63`. -/
theorem failed_bind_not_rolled_back (T : TagTable) (dec : LenencDecoder) (h : Heap)
    (data : List Byte) (findStmtByID : Nat → Option StmtPtr) (id : Nat) (p : StmtPtr)
    (n L : Nat) (r : BindResult) (e : GoError) (hlen : 9 ≤ data.length)
    (hid : id = (data.getD 0 0).val + 2 ^ 8 * (data.getD 1 0).val
      + 2 ^ 16 * (data.getD 2 0).val + 2 ^ 24 * (data.getD 3 0).val)
    (hfind : findStmtByID id = some p) (hflag : data.getD 4 0 = 0)
    (hn : (h p).ParamNum = (n : Int)) (hpos : 0 < n) (hL : L = (n + 7) >>> 3)
    (hfull : 10 + L + 2 * n ≤ data.length) (hbound : data.getD (9 + L) 0 = 1)
    (hrun : bindStmtArgs T dec (h p) ((data.drop 9).take L)
      ((data.drop (10 + L)).take (2 * n)) (data.drop (10 + L + 2 * n)) = some r)
    (herr : r.err = some e) (hgo : data.length < 2 ^ 63) :
    ReadStmtExecuteRequest T dec h data findStmtByID
      = ⟨some ⟨none, some e⟩, h.setArgs p r.args, [id]⟩ ∧
    ((ReadStmtExecuteRequest T dec h data findStmtByID).heap p).Args = r.args ∧
    ∃ k ak pk pk1, k < n ∧
      bindLoop T dec ((data.drop 9).take L) ((data.drop (10 + L)).take (2 * n))
        (data.drop (10 + L + 2 * n)) k 0 (h p).Args 0 = some ⟨ak, pk, none⟩ ∧
      bindParam T dec ((data.drop 9).take L) ((data.drop (10 + L)).take (2 * n))
        (data.drop (10 + L + 2 * n)) k ak pk = some (Step.fail ak pk1 e) ∧
      r.args = ak ∧
      (∀ j, k ≤ j → r.args[j]? = (h p).Args[j]?) ∧
      ∀ j, j < k → ∃ aj pj v pj1,
        bindLoop T dec ((data.drop 9).take L) ((data.drop (10 + L)).take (2 * n))
          (data.drop (10 + L + 2 * n)) j 0 (h p).Args 0 = some ⟨aj, pj, none⟩ ∧
        bindParam T dec ((data.drop 9).take L) ((data.drop (10 + L)).take (2 * n))
          (data.drop (10 + L + 2 * n)) j aj pj = some (Step.next (aj.set j v) pj1) ∧
        r.args[j]? = some v := by
  have hrp := readParams_params T dec h data p n hlen hflag hn hpos (by rw [← hL]; omega)
  rw [← hL] at hrp
  have hrd := read_resolved T dec h data findStmtByID id p hlen hid hfind
  have h1 : ¬ data.length < 9 + L + 1 := by omega
  have h3 : ¬ data.length < 10 + L + 2 * n := by omega
  have heq : ReadStmtExecuteRequest T dec h data findStmtByID
      = ⟨some ⟨none, some e⟩, h.setArgs p r.args, [id]⟩ := by
    rw [hrd, hrp, if_neg h1, if_pos hbound, if_neg h3, hrun]
    simp [herr]
  refine ⟨heq, ?_, ?_⟩
  · rw [heq]
    simp [Heap.setArgs]
  · have hrun2 := hrun
    unfold bindStmtArgs at hrun2
    rw [hn, Int.toNat_ofNat] at hrun2
    obtain ⟨k, ak, pk, pk1, hk, hpre, hstep, hreq⟩ :=
      bindLoop_error_index T dec _ _ _ _ n r e hrun2 herr
    obtain ⟨hframe, hslots⟩ := bindLoop_prefix_slots T dec _ _ _ _ ak k pk hpre
    subst hreq
    exact ⟨k, ak, pk, pk1, hk, hpre, hstep, rfl, hframe, hslots⟩


theorem failed_bind_not_rolled_back_witness :
    ReadStmtExecuteRequest protocolTags sampleDecoder sampleHeap
        [7, 0, 0, 0, 0, 1, 0, 0, 0, 0, 1, 1, 0, 3, 0x80, 0xFF, 1, 2, 3] sampleLookup
      = ⟨some ⟨none, some GoError.ErrMalformPacket⟩,
          sampleHeap.setArgs 0 [Value.int8 (-1), Value.null], [7]⟩ :=
  (failed_bind_not_rolled_back protocolTags sampleDecoder sampleHeap
    [7, 0, 0, 0, 0, 1, 0, 0, 0, 0, 1, 1, 0, 3, 0x80, 0xFF, 1, 2, 3] sampleLookup 7 0 2 1
    ⟨[Value.int8 (-1), Value.null], 1, some GoError.ErrMalformPacket⟩
    GoError.ErrMalformPacket
    (by decide) (by decide) (by decide) (by decide) (by decide) (by decide) (by decide)
    (by decide) (by decide) (by decide) rfl (by decide)).1

/-! ## The `default` clause -/

/-- The value of a tag never selects `default`. -/
theorem selectClause_tag_ne_default (T : TagTable) (tag : FieldType) :
    selectClause T (T tag) ≠ Clause.caseDefault := by
  intro h
  unfold selectClause at h
  split_ifs at h with h1 h2 h3 h4 h5 h6 h7 h8
  cases tag <;>
    first
    | exact h1 rfl
    | exact h2 rfl
    | exact h3 (Or.inl rfl)
    | exact h3 (Or.inr rfl)
    | exact h4 (Or.inl rfl)
    | exact h4 (Or.inr rfl)
    | exact h5 rfl
    | exact h6 rfl
    | exact h7 rfl
    | exact h8 (by simp)

/-- A clause other than `default` returns `ErrMalformPacket` or an error of the
string decoder. -/
theorem runClause_error (dec : LenencDecoder) (pv : List Byte) (tp : Byte) (u : Bool)
    (i : Nat) (args a : List Value) (pos p : Int) (c : Clause) (e : GoError)
    (hc : c ≠ Clause.caseDefault)
    (h : runClause dec pv tp u i args pos c = some (Step.fail a p e)) :
    e = GoError.ErrMalformPacket ∨ ∃ x, (dec x).err = some e := by
  cases c <;> unfold runClause at h <;>
    simp only [Option.bind_eq_bind, Option.pure_def] at h
  case caseDefault => exact absurd rfl hc
  case caseString =>
    split at h
    · simp only [Option.some.injEq, Step.fail.injEq] at h
      exact Or.inl h.2.2.symm
    · simp only [Option.bind_eq_some] at h
      obtain ⟨rest, -, h⟩ := h
      split at h
      · rename_i err herr
        simp only [Option.some.injEq, Step.fail.injEq] at h
        right
        exact ⟨rest, by rw [herr, h.2.2]⟩
      · split_ifs at h <;>
        · simp only [Option.bind_eq_some, Option.some.injEq] at h
          obtain ⟨a1, -, h⟩ := h
          exact absurd h (by simp)
  case caseNull =>
    simp only [Option.bind_eq_some, Option.some.injEq] at h
    obtain ⟨a1, -, h⟩ := h
    exact absurd h (by simp)
  all_goals
    split at h
    · simp only [Option.some.injEq, Step.fail.injEq] at h
      exact Or.inl h.2.2.symm
    · simp only [Option.bind_eq_some, Option.some.injEq] at h
      obtain ⟨b, -, a1, -, h⟩ := h
      exact absurd h (by simp)

/-- C10: when the iterations before index `k` all continue, the null bit of `k` is
clear and the type byte `paramTypes[2k]` is the value of none of the tags of the
`switch`, the bind returns the error with message `"Stmt Unknown FieldType "`
followed by the decimal tag value. For a type byte that is the value of a tag,
an iteration that returns an error returns `ErrMalformPacket` or an error of the
string decoder; so, unless the decoder itself returns an `Errorf` error, no tag of
the recognised set produces an unknown-field-type error. -/
theorem unknown_field_type (T : TagTable) (dec : LenencDecoder) (nb pt pv : List Byte)
    (a0 ak : List Value) (n k : Nat) (pk : Int) (b tp fb : Byte) (hk : k < n)
    (hpre : bindLoop T dec nb pt pv k 0 a0 0 = some ⟨ak, pk, none⟩)
    (hb : nb[k >>> 3]? = some b) (hbit : b.val.testBit (k % 8) = false)
    (htp : pt[2 * k]? = some tp) (hfb : pt[2 * k + 1]? = some fb)
    (hunk : ∀ tag, tp ≠ T tag) :
    bindLoop T dec nb pt pv n 0 a0 0
      = some ⟨ak, pk,
          some (GoError.Errorf ("Stmt Unknown FieldType " ++ decimal tp.val))⟩ ∧
    (∀ (tag : FieldType) (nb1 pt1 pv1 : List Byte) (i : Nat) (args a : List Value)
        (pos p : Int) (e : GoError), pt1[2 * i]? = some (T tag) →
      bindParam T dec nb1 pt1 pv1 i args pos = some (Step.fail a p e) →
      e = GoError.ErrMalformPacket ∨ ∃ x, (dec x).err = some e) ∧
    ((∀ x m, (dec x).err ≠ some (GoError.Errorf m)) →
      ∀ (tag : FieldType) (nb1 pt1 pv1 : List Byte) (i : Nat) (args a : List Value)
        (pos p : Int) (m : String), pt1[2 * i]? = some (T tag) →
      bindParam T dec nb1 pt1 pv1 i args pos ≠ some (Step.fail a p (GoError.Errorf m))) := by
  have hrec : ∀ (tag : FieldType) (nb1 pt1 pv1 : List Byte) (i : Nat) (args a : List Value)
      (pos p : Int) (e : GoError), pt1[2 * i]? = some (T tag) →
      bindParam T dec nb1 pt1 pv1 i args pos = some (Step.fail a p e) →
      e = GoError.ErrMalformPacket ∨ ∃ x, (dec x).err = some e := by
    intro tag nb1 pt1 pv1 i args a pos p e h1 h2
    unfold bindParam at h2
    simp only [Option.bind_eq_bind, Option.pure_def, Option.bind_eq_some] at h2
    obtain ⟨b1, -, h2⟩ := h2
    split at h2
    · simp only [Option.bind_eq_some, Option.some.injEq] at h2
      obtain ⟨a1, -, h2⟩ := h2
      exact absurd h2 (by simp)
    · unfold bindValue at h2
      rw [index_natCast, index_natCast, shiftLeft_one_eq, h1] at h2
      simp only [Option.bind_eq_bind, Option.some_bind, Option.bind_eq_some] at h2
      obtain ⟨fb1, -, h2⟩ := h2
      exact runClause_error dec pv1 _ _ i args a pos p _ e
        (selectClause_tag_ne_default T tag) h2
  refine ⟨?_, hrec, ?_⟩
  · have hsel : selectClause T tp = Clause.caseDefault := by
      unfold selectClause
      simp [hunk]
    have hnb := hbit
    rw [← nullBit_eq_testBit] at hnb
    have hstep : bindParam T dec nb pt pv k ak pk
        = some (Step.fail ak pk
            (GoError.Errorf ("Stmt Unknown FieldType " ++ decimal tp.val))) := by
      rw [bindParam_of_clear T dec nb pt pv k ak pk b hb hnb,
        bindValue_eq T dec pt pv k ak pk tp fb htp hfb, hsel]
      rfl
    have e : n = k + ((n - k - 1) + 1) := by omega
    rw [e, bindLoop_add, hpre]
    simp only [Option.some_bind, Nat.zero_add]
    rw [bindLoop_succ, hstep]
  · intro hdec tag nb1 pt1 pv1 i args a pos p m h1 h2
    rcases hrec tag nb1 pt1 pv1 i args a pos p _ h1 h2 with h3 | ⟨x, hx⟩
    · exact absurd h3 (by simp)
    · exact hdec x m hx

theorem unknown_field_type_witness :
    bindLoop protocolTags sampleDecoder [0] [1, 0, 33, 0] [0xFF, 1, 2, 3] 2 0
        [Value.null, Value.null] 0
      = some ⟨[Value.int8 (-1), Value.null], 1,
          some (GoError.Errorf "Stmt Unknown FieldType 33")⟩ := by
  have h := (unknown_field_type protocolTags sampleDecoder [0] [1, 0, 33, 0]
    [0xFF, 1, 2, 3] [Value.null, Value.null] [Value.int8 (-1), Value.null] 2 1 1 0 33 0
    (by decide) (by decide) (by decide) (by decide) (by decide) (by decide)
    (by intro tag; cases tag <;> decide)).1
  exact h.trans (by decide)

/-! ## Requests that bind nothing -/

/-- C11: for a resolved statement with `n > 0` parameters and a payload of at least
9 bytes with cursor flag 0 that holds the null bitmap (`L = (n+7)>>3` bytes) and
the new-params-bound byte, a new-params-bound byte `data[9+L]` other than 1 makes
the call return that statement with a nil error and leave the store, hence every
element of every `Args`, as it was, whatever bytes follow. The payload is a Go
slice of fewer than `2^60` bytes, so that `ParamNum + 7`, which is below
`8 * len(data)`, fits in an `int`. -/
theorem unbound_params_keep_args (T : TagTable) (dec : LenencDecoder) (h : Heap)
    (data : List Byte) (findStmtByID : Nat → Option StmtPtr) (id : Nat) (p : StmtPtr)
    (n L : Nat) (hlen : 9 ≤ data.length)
    (hid : id = (data.getD 0 0).val + 2 ^ 8 * (data.getD 1 0).val
      + 2 ^ 16 * (data.getD 2 0).val + 2 ^ 24 * (data.getD 3 0).val)
    (hfind : findStmtByID id = some p) (hflag : data.getD 4 0 = 0)
    (hn : (h p).ParamNum = (n : Int)) (hpos : 0 < n) (hL : L = (n + 7) >>> 3)
    (hfull : 9 + L + 1 ≤ data.length) (hbound : data.getD (9 + L) 0 ≠ 1)
    (hgo : data.length < 2 ^ 60) :
    ReadStmtExecuteRequest T dec h data findStmtByID = ⟨some ⟨some p, none⟩, h, [id]⟩ ∧
    ∀ (q : StmtPtr) (j : Nat),
      ((ReadStmtExecuteRequest T dec h data findStmtByID).heap q).Args[j]?
        = (h q).Args[j]? := by
  have hL8 : L = (n + 7) / 8 := by rw [hL, Nat.shiftRight_eq_div_pow]
  have hrp := readParams_unbound T dec h data p n hlen hflag hn hpos (by omega)
    (by rw [← hL]; exact hfull) (by omega) (by rw [← hL]; exact hbound)
  have heq : ReadStmtExecuteRequest T dec h data findStmtByID
      = ⟨some ⟨some p, none⟩, h, [id]⟩ := by
    rw [read_resolved T dec h data findStmtByID id p hlen hid hfind, hrp]
  refine ⟨heq, ?_⟩
  intro q j
  rw [heq]

theorem unbound_params_keep_args_witness :
    ReadStmtExecuteRequest protocolTags sampleDecoder sampleHeap
        [7, 0, 0, 0, 0, 1, 0, 0, 0, 0, 2, 1, 0, 3, 0, 9, 9] sampleLookup
      = ⟨some ⟨some 0, none⟩, sampleHeap, [7]⟩ :=
  (unbound_params_keep_args protocolTags sampleDecoder sampleHeap
    [7, 0, 0, 0, 0, 1, 0, 0, 0, 0, 2, 1, 0, 3, 0, 9, 9] sampleLookup 7 0 2 1
    (by decide) (by decide) (by decide) (by decide) (by decide) (by decide) (by decide)
    (by decide) (by decide) (by decide)).1

/-- C12: on a payload of at least 9 bytes whose id resolves to a statement with
`ParamNum == 0` and whose cursor flag is 0, the call returns exactly the resolved
statement with a nil error and leaves the store as it was: no parameter section is
read (the result is the same whatever follows the ninth byte). -/
theorem no_params_returns_statement (T : TagTable) (dec : LenencDecoder) (h : Heap)
    (data : List Byte) (findStmtByID : Nat → Option StmtPtr) (id : Nat) (p : StmtPtr)
    (hlen : 9 ≤ data.length)
    (hid : id = (data.getD 0 0).val + 2 ^ 8 * (data.getD 1 0).val
      + 2 ^ 16 * (data.getD 2 0).val + 2 ^ 24 * (data.getD 3 0).val)
    (hfind : findStmtByID id = some p) (hflag : data.getD 4 0 = 0)
    (hn : (h p).ParamNum = 0) :
    ReadStmtExecuteRequest T dec h data findStmtByID = ⟨some ⟨some p, none⟩, h, [id]⟩ ∧
    ∀ t, ReadStmtExecuteRequest T dec h (data.take 9 ++ t) findStmtByID
      = ⟨some ⟨some p, none⟩, h, [id]⟩ := by
  have key : ∀ d : List Byte, 9 ≤ d.length →
      id = (d.getD 0 0).val + 2 ^ 8 * (d.getD 1 0).val
        + 2 ^ 16 * (d.getD 2 0).val + 2 ^ 24 * (d.getD 3 0).val →
      d.getD 4 0 = 0 →
      ReadStmtExecuteRequest T dec h d findStmtByID = ⟨some ⟨some p, none⟩, h, [id]⟩ := by
    intro d hd hidd hfd
    rw [read_resolved T dec h d findStmtByID id p hd hidd hfind,
      readParams_noParams T dec h d p hd hfd (by omega)]
  refine ⟨key data hlen hid hflag, ?_⟩
  intro t
  have hget : ∀ k, k < 9 → (data.take 9 ++ t).getD k 0 = data.getD k 0 := by
    intro k hk
    rw [List.getD_eq_getElem?_getD, List.getD_eq_getElem?_getD,
      List.getElem?_append_left (by rw [List.length_take]; omega),
      List.getElem?_take_of_lt hk]
  refine key _ ?_ ?_ ?_
  · rw [List.length_append, List.length_take]; omega
  · rw [hget 0 (by omega), hget 1 (by omega), hget 2 (by omega), hget 3 (by omega)]
    exact hid
  · rw [hget 4 (by omega)]
    exact hflag

theorem no_params_returns_statement_witness :
    ReadStmtExecuteRequest protocolTags sampleDecoder sampleHeap0
        [7, 0, 0, 0, 0, 0, 0, 0, 0] sampleLookup
      = ⟨some ⟨some 0, none⟩, sampleHeap0, [7]⟩ ∧
    (sampleHeap0 0).ID = 7 ∧ (sampleHeap0 0).Args = [] :=
  ⟨(no_params_returns_statement protocolTags sampleDecoder sampleHeap0
    [7, 0, 0, 0, 0, 0, 0, 0, 0] sampleLookup 7 0
    (by decide) (by decide) (by decide) (by decide) (by decide)).1, by decide, by decide⟩

/-! ## Floating-point parameters -/

/-- The little-endian sum of the bytes that encode `bits`. -/
theorem leSum_eq_mod (pv : List Byte) (pos bits w : Nat)
    (hbytes : ∀ k, k < w → (pv.getD (pos + k) 0).val = bits / 256 ^ k % 256) :
    leSum pv pos w = bits % 256 ^ w := by
  induction w with
  | zero => simp [leSum, Nat.mod_one]
  | succ w ih =>
    rw [leSum, ih (fun k hk => hbytes k (by omega)), hbytes w (by omega), Nat.mod_pow_succ,
      Nat.mul_comm]

/-- The `FLOAT` and `DOUBLE` clauses on a value that fits in the remaining bytes
of a slice (whose length, a Go `int`, is below `2^63`). -/
theorem bindValue_float (T : TagTable) (hT : Function.Injective T) (dec : LenencDecoder)
    (pt pv : List Byte) (i : Nat) (args : List Value) (pos : Nat) (fb : Byte)
    (hfb : pt[2 * i + 1]? = some fb) (hi : i < args.length) (hgo : pv.length < 2 ^ 63) :
    (pt[2 * i]? = some (T .MYSQL_TYPE_FLOAT) → pos + 4 ≤ pv.length →
      bindValue T dec pt pv i args pos
        = some (Step.next (args.set i (Value.float32 (leSum pv pos 4))) ((pos : Int) + 4))) ∧
    (pt[2 * i]? = some (T .MYSQL_TYPE_DOUBLE) → pos + 8 ≤ pv.length →
      bindValue T dec pt pv i args pos
        = some (Step.next (args.set i (Value.float64 (leSum pv pos 8))) ((pos : Int) + 8))) := by
  constructor
  · intro htp hlen
    have hc : ¬ ((pv.length : Int) < (pos : Int) + 4) := by omega
    rw [bindValue_eq T dec pt pv i args pos _ fb htp hfb, selectClause_tag T hT]
    simp only [clauseOf, runClause]
    rw [wrapInt_of_range ((pos : Int) + 4) (by omega) (by omega)]
    rw [if_neg hc, read32 pv pos hlen]
    simp only [Option.bind_eq_bind, Option.some_bind, Option.pure_def]
    rw [setIndex_of_lt _ _ _ hi]
    rfl
  · intro htp hlen
    have hc : ¬ ((pv.length : Int) < (pos : Int) + 8) := by omega
    rw [bindValue_eq T dec pt pv i args pos _ fb htp hfb, selectClause_tag T hT]
    simp only [clauseOf, runClause]
    rw [wrapInt_of_range ((pos : Int) + 8) (by omega) (by omega)]
    rw [if_neg hc, read64 pv pos hlen]
    simp only [Option.bind_eq_bind, Option.some_bind, Option.pure_def]
    rw [setIndex_of_lt _ _ _ hi]
    rfl

/-- C13: a float is represented by its bit pattern. When the four bytes of
`paramValues` at the cursor are the little-endian encoding of a 32-bit pattern
`bits` (byte `k` is `bits / 256^k % 256`), a `FLOAT` parameter is decoded to the
`float32` with exactly that pattern and the cursor advances by 4; likewise a
`DOUBLE` parameter with eight bytes, a 64-bit pattern and `float64`. The flag byte
`paramTypes[2i+1]` has no effect on either. `paramValues` is a Go slice: its
length is an `int`, below `2^63`. -/
theorem float_bit_pattern_round_trip (T : TagTable) (hT : Function.Injective T)
    (dec : LenencDecoder) (nb pt pv : List Byte) (i : Nat) (args : List Value)
    (pos : Nat) (b fb : Byte) (bits : Nat)
    (hb : nb[i >>> 3]? = some b) (hbit : b.val.testBit (i % 8) = false)
    (hfb : pt[2 * i + 1]? = some fb) (hi : i < args.length) (hgo : pv.length < 2 ^ 63) :
    (pt[2 * i]? = some (T .MYSQL_TYPE_FLOAT) → bits < 2 ^ 32 → pos + 4 ≤ pv.length →
      (∀ k, k < 4 → (pv.getD (pos + k) 0).val = bits / 256 ^ k % 256) →
      bindParam T dec nb pt pv i args pos
        = some (Step.next (args.set i (Value.float32 bits)) ((pos : Int) + 4))) ∧
    (pt[2 * i]? = some (T .MYSQL_TYPE_DOUBLE) → bits < 2 ^ 64 → pos + 8 ≤ pv.length →
      (∀ k, k < 8 → (pv.getD (pos + k) 0).val = bits / 256 ^ k % 256) →
      bindParam T dec nb pt pv i args pos
        = some (Step.next (args.set i (Value.float64 bits)) ((pos : Int) + 8))) ∧
    (∀ (pt1 : List Byte) (fb1 : Byte), pt1[2 * i]? = pt[2 * i]? →
      pt1[2 * i + 1]? = some fb1 →
      (pt[2 * i]? = some (T .MYSQL_TYPE_FLOAT) ∧ pos + 4 ≤ pv.length) ∨
        (pt[2 * i]? = some (T .MYSQL_TYPE_DOUBLE) ∧ pos + 8 ≤ pv.length) →
      bindParam T dec nb pt1 pv i args pos = bindParam T dec nb pt pv i args pos) := by
  have hnb := hbit
  rw [← nullBit_eq_testBit] at hnb
  refine ⟨?_, ?_, ?_⟩
  · intro htp hbits hlen hbytes
    rw [bindParam_of_clear T dec nb pt pv i args pos b hb hnb,
      (bindValue_float T hT dec pt pv i args pos fb hfb hi hgo).1 htp hlen,
      leSum_eq_mod pv pos bits 4 hbytes, Nat.mod_eq_of_lt (by omega)]
  · intro htp hbits hlen hbytes
    rw [bindParam_of_clear T dec nb pt pv i args pos b hb hnb,
      (bindValue_float T hT dec pt pv i args pos fb hfb hi hgo).2 htp hlen,
      leSum_eq_mod pv pos bits 8 hbytes, Nat.mod_eq_of_lt (by omega)]
  · intro pt1 fb1 h1 h2 hcase
    rw [bindParam_of_clear T dec nb pt pv i args pos b hb hnb,
      bindParam_of_clear T dec nb pt1 pv i args pos b hb hnb]
    rcases hcase with ⟨htp, hlen⟩ | ⟨htp, hlen⟩
    · rw [(bindValue_float T hT dec pt pv i args pos fb hfb hi hgo).1 htp hlen,
        (bindValue_float T hT dec pt1 pv i args pos fb1 h2 hi hgo).1 (h1.trans htp) hlen]
    · rw [(bindValue_float T hT dec pt pv i args pos fb hfb hi hgo).2 htp hlen,
        (bindValue_float T hT dec pt1 pv i args pos fb1 h2 hi hgo).2 (h1.trans htp) hlen]

theorem float_bit_pattern_round_trip_witness :
    bindParam protocolTags sampleDecoder [0] [4, 0x80] [0, 0, 0x80, 0x3F, 7] 0
        [Value.null] 0
      = some (Step.next [Value.float32 0x3F800000] 4) := by
  have h := (float_bit_pattern_round_trip protocolTags protocolTags_injective
    sampleDecoder [0] [4, 0x80] [0, 0, 0x80, 0x3F, 7] 0 [Value.null] 0 0 0x80
    0x3F800000 (by decide) (by decide) (by decide) (by decide) (by decide)).1
    (by decide) (by decide) (by decide)
    (by
      intro k hk
      have hcases : k = 0 ∨ k = 1 ∨ k = 2 ∨ k = 3 := by omega
      rcases hcases with rfl | rfl | rfl | rfl <;> decide)
  exact h.trans (by decide)

/-! ## String-class parameters -/

theorem sliceFrom_natCast {α : Type} (b : List α) (pos : Nat) (h : pos ≤ b.length) :
    sliceFrom b (pos : Int) = some (b.drop pos) := by
  unfold sliceFrom
  rw [slice_natCast b pos b.length h (Nat.le_refl _), List.take_of_length_le (by simp)]

/-- The string clause at a cursor `pos` below the largest `int`. -/
theorem bindValue_string (T : TagTable) (hT : Function.Injective T) (dec : LenencDecoder)
    (pt pv : List Byte) (i : Nat) (args : List Value) (pos : Nat) (tag : FieldType)
    (fb : Byte) (htp : pt[2 * i]? = some (T tag)) (hfb : pt[2 * i + 1]? = some fb)
    (hstr : clauseOf tag = Clause.caseString) (hcur : pos + 1 < 2 ^ 63) :
    bindValue T dec pt pv i args pos
      = if pv.length < pos + 1 then some (Step.fail args pos GoError.ErrMalformPacket)
        else match (dec (pv.drop pos)).err with
          | some err =>
            some (Step.fail args (wrapInt ((pos : Int) + (dec (pv.drop pos)).n)) err)
          | none =>
            (setIndex args i (if (dec (pv.drop pos)).isNull then Value.null
              else Value.bytes (dec (pv.drop pos)).v)).bind
              (fun a => some (Step.next a (wrapInt ((pos : Int) + (dec (pv.drop pos)).n)))) := by
  rw [bindValue_eq T dec pt pv i args pos (T tag) fb htp hfb, selectClause_tag T hT, hstr]
  simp only [runClause]
  rw [wrapInt_of_range ((pos : Int) + 1) (by omega) (by omega)]
  by_cases hlt : pv.length < pos + 1
  · have hc : (pv.length : Int) < (pos : Int) + 1 := by omega
    rw [if_pos hc, if_pos hlt]
    rfl
  · have hc : ¬ ((pv.length : Int) < (pos : Int) + 1) := by omega
    rw [if_neg hc, if_neg hlt, sliceFrom_natCast pv pos (by omega)]
    simp only [Option.bind_eq_bind, Option.some_bind, Option.pure_def]
    cases (dec (pv.drop pos)).err with
    | some err => rfl
    | none =>
      cases (dec (pv.drop pos)).isNull <;> rfl

/-- C15, as amended: at a parameter `i` whose null bit is clear and whose tag is one
of the string-class tags, reached at a cursor `pos` below the largest `int`
(`pos + 1 < 2^63`, so that the sum `pos + 1` of the length check does not wrap):
when no byte is left (`len(paramValues) < pos + 1`) the iteration returns
`ErrMalformPacket`, and does so whatever the string decoder is, so the decoder
plays no part; otherwise the decoder is applied to `paramValues[pos:]`, an error it
returns is returned as it is with `Args` not written, and on success `Args[i]`
becomes nil when `isNull` and the byte string `v` when not. The cursor becomes the
64-bit sum of `pos` and `n`, which is `pos + n` exactly when that fits in an
`int`. -/
theorem string_parameter_decoding (T : TagTable) (hT : Function.Injective T)
    (dec : LenencDecoder) (nb pt pv : List Byte) (i : Nat) (args : List Value)
    (pos : Nat) (b fb : Byte) (tag : FieldType)
    (hb : nb[i >>> 3]? = some b) (hbit : b.val.testBit (i % 8) = false)
    (htp : pt[2 * i]? = some (T tag)) (hfb : pt[2 * i + 1]? = some fb)
    (hstr : clauseOf tag = Clause.caseString) (hcur : pos + 1 < 2 ^ 63) :
    (pv.length < pos + 1 → ∀ dec1 : LenencDecoder,
      bindParam T dec1 nb pt pv i args pos
        = some (Step.fail args pos GoError.ErrMalformPacket)) ∧
    (pos + 1 ≤ pv.length →
      (∀ e, (dec (pv.drop pos)).err = some e →
        bindParam T dec nb pt pv i args pos
          = some (Step.fail args (wrapInt ((pos : Int) + (dec (pv.drop pos)).n)) e)) ∧
      ((dec (pv.drop pos)).err = none → i < args.length →
        bindParam T dec nb pt pv i args pos
          = some (Step.next
              (args.set i (if (dec (pv.drop pos)).isNull then Value.null
                else Value.bytes (dec (pv.drop pos)).v))
              (wrapInt ((pos : Int) + (dec (pv.drop pos)).n)))) ∧
      (-2 ^ 63 ≤ (pos : Int) + (dec (pv.drop pos)).n →
        (pos : Int) + (dec (pv.drop pos)).n < 2 ^ 63 →
        wrapInt ((pos : Int) + (dec (pv.drop pos)).n)
          = (pos : Int) + (dec (pv.drop pos)).n)) := by
  have hnb := hbit
  rw [← nullBit_eq_testBit] at hnb
  refine ⟨?_, ?_⟩
  · intro hlt dec1
    rw [bindParam_of_clear T dec1 nb pt pv i args pos b hb hnb,
      bindValue_string T hT dec1 pt pv i args pos tag fb htp hfb hstr hcur, if_pos hlt]
  · intro hle
    have hc : ¬ pv.length < pos + 1 := by omega
    rw [bindParam_of_clear T dec nb pt pv i args pos b hb hnb,
      bindValue_string T hT dec pt pv i args pos tag fb htp hfb hstr hcur, if_neg hc]
    refine ⟨?_, ?_, ?_⟩
    · intro e he
      rw [he]
    · intro hnone hi
      rw [hnone]
      simp only
      rw [setIndex_of_lt _ _ _ hi]
      rfl
    · intro h0 h1
      exact wrapInt_of_range _ h0 h1

theorem string_parameter_decoding_witness :
    bindParam protocolTags sampleDecoder [0] [0xfd, 0] [9, 2, 65, 66, 7] 0 [Value.null] 1
      = some (Step.next [Value.bytes [65, 66]] 4) := by
  have h := (string_parameter_decoding protocolTags protocolTags_injective sampleDecoder
    [0] [0xfd, 0] [9, 2, 65, 66, 7] 0 [Value.null] 1 0 0 FieldType.MYSQL_TYPE_VAR_STRING
    (by decide) (by decide) (by decide) (by decide) (by decide) (by decide)).2 (by decide)
  exact (h.2.1 (by decide) (by decide)).trans (by decide)

/-- C15, as stated, fails at the largest cursor: after a string parameter for
which the decoder reports `2^63 - 1` bytes consumed, the next string parameter is
reached at cursor `2^63 - 1`; no byte remains (`len(paramValues) = 1`), but the sum
`pos + 1` of the length check wraps to `-2^63`, the check passes, and the slice
expression `paramValues[pos:]` panics instead of the bind returning
`ErrMalformPacket`. -/
theorem string_cursor_overflow :
    bindLoop protocolTags jumpDecoder [0] [0xfd, 0, 0xfd, 0] [0] 1 0
        [Value.null, Value.null] 0
      = some ⟨[Value.bytes [], Value.null], 9223372036854775807, none⟩ ∧
    (([0] : List Byte).length : Int) < 9223372036854775807 + 1 ∧
    bindParam protocolTags jumpDecoder [0] [0xfd, 0, 0xfd, 0] [0] 1
        [Value.bytes [], Value.null] 9223372036854775807 = none ∧
    bindStmtArgs protocolTags jumpDecoder sampleStmt [0] [0xfd, 0, 0xfd, 0] [0] = none :=
  ⟨by decide, by decide, by decide, by decide⟩

/-- C14: with the length-encoded string decoder of the specification, when the
iterations before index `k` all continue, the null bit of `k` is clear, its tag is
a string-class tag, and the header at the cursor is not the null value and
declares more bytes than `paramValues` holds after the header, the bind returns
`ErrMalformPacket`. The cursor is below the largest `int`, as it is whenever the
Go slice `paramValues` holds a header byte at the cursor. -/
theorem truncated_string_malformed (T : TagTable) (hT : Function.Injective T)
    (header : List Byte → LenencHeader) (nb pt pv : List Byte)
    (a0 ak : List Value) (n k pos : Nat) (b fb : Byte) (tag : FieldType) (hk : k < n)
    (hpre : bindLoop T (lenencStrToString header) nb pt pv k 0 a0 0
      = some ⟨ak, (pos : Int), none⟩)
    (hb : nb[k >>> 3]? = some b) (hbit : b.val.testBit (k % 8) = false)
    (htp : pt[2 * k]? = some (T tag)) (hfb : pt[2 * k + 1]? = some fb)
    (hstr : clauseOf tag = Clause.caseString)
    (hnull : (header (pv.drop pos)).isNull = false)
    (htrunc : pv.length < pos + (header (pv.drop pos)).size
      + (header (pv.drop pos)).length)
    (hcur : pos + 1 < 2 ^ 63) :
    ∃ c, bindLoop T (lenencStrToString header) nb pt pv n 0 a0 0
      = some ⟨ak, c, some GoError.ErrMalformPacket⟩ := by
  have hnb := hbit
  rw [← nullBit_eq_testBit] at hnb
  have hstep : ∃ c, bindParam T (lenencStrToString header) nb pt pv k ak pos
      = some (Step.fail ak c GoError.ErrMalformPacket) := by
    rw [bindParam_of_clear T _ nb pt pv k ak pos b hb hnb,
      bindValue_string T hT _ pt pv k ak pos tag fb htp hfb hstr hcur]
    by_cases hlt : pv.length < pos + 1
    · rw [if_pos hlt]
      exact ⟨_, rfl⟩
    · rw [if_neg hlt]
      have hlen : (pv.drop pos).length
          < (header (pv.drop pos)).size + (header (pv.drop pos)).length := by
        rw [List.length_drop]; omega
      have herr : (lenencStrToString header (pv.drop pos)).err
          = some GoError.ErrMalformPacket := by
        unfold lenencStrToString
        rw [hnull, if_neg (by simp), if_pos hlen]
      rw [herr]
      exact ⟨_, rfl⟩
  obtain ⟨c, hc⟩ := hstep
  refine ⟨c, ?_⟩
  have e : n = k + ((n - k - 1) + 1) := by omega
  rw [e, bindLoop_add, hpre]
  simp only [Option.some_bind, Nat.zero_add]
  rw [bindLoop_succ, hc]

theorem truncated_string_malformed_witness :
    ∃ c, bindLoop protocolTags (lenencStrToString sampleHeader) [0] [1, 0, 0xfd, 0]
        [9, 5, 65, 66] 2 0 [Value.null, Value.null] 0
      = some ⟨[Value.int8 9, Value.null], c, some GoError.ErrMalformPacket⟩ :=
  truncated_string_malformed protocolTags protocolTags_injective sampleHeader
    [0] [1, 0, 0xfd, 0] [9, 5, 65, 66] [Value.null, Value.null]
    [Value.int8 9, Value.null] 2 1 1 0 0 FieldType.MYSQL_TYPE_VAR_STRING
    (by decide) (by decide) (by decide) (by decide) (by decide) (by decide) (by decide)
    (by decide) (by decide) (by decide)

/-! ## Trailing bytes -/

theorem index_append {α : Type} (b t : List α) (pos : Int) (x : α)
    (h : index b pos = some x) : index (b ++ t) pos = some x := by
  unfold index at h ⊢
  split_ifs at h ⊢ with hp
  obtain ⟨hlt, -⟩ := List.getElem?_eq_some_iff.mp h
  rw [List.getElem?_append_left hlt]
  exact h

theorem slice_some {α : Type} (b : List α) (lo hi : Int) (l : List α)
    (h : slice b lo hi = some l) :
    0 ≤ lo ∧ lo ≤ hi ∧ hi ≤ (b.length : Int) ∧
      l = (b.drop lo.toNat).take (hi.toNat - lo.toNat) := by
  unfold slice at h
  split_ifs at h with hc
  exact ⟨hc.1, hc.2.1, hc.2.2, (Option.some.inj h).symm⟩

theorem slice_append {α : Type} (b t : List α) (lo hi : Int) (l : List α)
    (h : slice b lo hi = some l) : slice (b ++ t) lo hi = some l := by
  obtain ⟨h0, h1, h2, rfl⟩ := slice_some b lo hi l h
  unfold slice
  have hc : 0 ≤ lo ∧ lo ≤ hi ∧ hi ≤ ((b ++ t).length : Int) := by
    rw [List.length_append]; push_cast; omega
  rw [if_pos hc, List.drop_append_of_le_length (by omega),
    List.take_append_of_le_length (by rw [List.length_drop]; omega)]

theorem sliceFrom_append {α : Type} (b t : List α) (lo : Int) (l : List α)
    (h : sliceFrom b lo = some l) : sliceFrom (b ++ t) lo = some (l ++ t) := by
  have h' := h
  unfold sliceFrom at h'
  obtain ⟨h0, h1, -, -⟩ := slice_some b lo _ l h'
  obtain ⟨q, rfl⟩ := Int.eq_ofNat_of_zero_le h0
  have hq : q ≤ b.length := by omega
  rw [sliceFrom_natCast b q hq] at h
  rw [sliceFrom_natCast (b ++ t) q (by rw [List.length_append]; omega),
    List.drop_append_of_le_length hq, ← Option.some.inj h]

/-- A clause that continues on `pv` continues in the same way on `pv ++ t`, for a
string decoder whose successful results do not depend on what follows. -/
theorem runClause_append (dec : LenencDecoder)
    (hdec : ∀ x y, (dec x).err = none → dec (x ++ y) = dec x)
    (pv t : List Byte) (tp : Byte) (u : Bool)
    (i : Nat) (args a : List Value) (pos p : Int) (c : Clause)
    (h : runClause dec pv tp u i args pos c = some (Step.next a p)) :
    runClause dec (pv ++ t) tp u i args pos c = some (Step.next a p) := by
  have hlen : ((pv ++ t).length : Int) = (pv.length : Int) + (t.length : Int) := by
    rw [List.length_append]; push_cast; rfl
  cases c <;> unfold runClause at h ⊢ <;>
    simp only [Option.bind_eq_bind, Option.pure_def] at h ⊢
  case caseNull => exact h
  case caseDefault => exact absurd h (by simp)
  case caseString =>
    split at h
    · exact absurd h (by simp)
    · rename_i hge
      rw [if_neg (by omega)]
      rw [Option.bind_eq_some] at h
      obtain ⟨rest, hrest, h⟩ := h
      rw [sliceFrom_append pv t pos rest hrest]
      simp only [Option.some_bind]
      cases herr : (dec rest).err with
      | some e =>
        rw [herr] at h
        exact absurd h (by simp)
      | none =>
        rw [hdec rest t herr]
        exact h
  case caseTiny =>
    split at h
    · exact absurd h (by simp)
    · rename_i hge
      rw [if_neg (by omega)]
      rw [Option.bind_eq_some] at h
      obtain ⟨x, hx, h⟩ := h
      rw [index_append pv t pos x hx]
      exact h
  all_goals
    split at h
    · exact absurd h (by simp)
    · rename_i hge
      rw [if_neg (by omega)]
      rw [Option.bind_eq_some] at h
      obtain ⟨x, hx, h⟩ := h
      rw [Option.bind_eq_some] at hx
      obtain ⟨l, hl, hx⟩ := hx
      rw [slice_append pv t pos _ l hl]
      simp only [Option.some_bind, hx]
      exact h

theorem bindParam_append (T : TagTable) (dec : LenencDecoder)
    (hdec : ∀ x y, (dec x).err = none → dec (x ++ y) = dec x)
    (nb pt pv t : List Byte) (i : Nat) (args a : List Value) (pos p : Int)
    (h : bindParam T dec nb pt pv i args pos = some (Step.next a p)) :
    bindParam T dec nb pt (pv ++ t) i args pos = some (Step.next a p) := by
  unfold bindParam at h ⊢
  simp only [Option.bind_eq_bind, Option.pure_def, Option.bind_eq_some] at h
  obtain ⟨b, hb, h⟩ := h
  rw [hb]
  simp only [Option.bind_eq_bind, Option.some_bind, Option.pure_def]
  split at h
  · rename_i hbit
    rw [if_pos hbit]
    exact h
  · rename_i hbit
    rw [if_neg hbit]
    unfold bindValue at h ⊢
    simp only [Option.bind_eq_bind, Option.bind_eq_some] at h
    obtain ⟨tp, htp, fb, hfb, h⟩ := h
    rw [htp, hfb]
    simp only [Option.bind_eq_bind, Option.some_bind]
    exact runClause_append dec hdec pv t tp _ i args a pos p _ h

theorem bindLoop_append (T : TagTable) (dec : LenencDecoder)
    (hdec : ∀ x y, (dec x).err = none → dec (x ++ y) = dec x)
    (nb pt pv t : List Byte) (rem : Nat) :
    ∀ (i : Nat) (args : List Value) (pos : Int) (r : BindResult),
    bindLoop T dec nb pt pv rem i args pos = some r → r.err = none →
    bindLoop T dec nb pt (pv ++ t) rem i args pos = some r := by
  induction rem with
  | zero =>
    intro i args pos r h _
    simpa [bindLoop] using h
  | succ rem ih =>
    intro i args pos r h herr
    rw [bindLoop_succ] at h ⊢
    cases hst : bindParam T dec nb pt pv i args pos with
    | none => rw [hst] at h; exact absurd h (by simp)
    | some st =>
      rw [hst] at h
      cases st with
      | fail a p e =>
        simp only [Option.some.injEq] at h
        subst h
        exact absurd herr (by simp)
      | next a p =>
        rw [bindParam_append T dec hdec nb pt pv t i args a pos p hst]
        exact ih (i + 1) a p r h herr

theorem getD_append_left {α : Type} (b t : List α) (k : Nat) (d : α) (hk : k < b.length) :
    (b ++ t).getD k d = b.getD k d := by
  rw [List.getD_eq_getElem?_getD, List.getD_eq_getElem?_getD, List.getElem?_append_left hk]

/-- The call on a payload of at least 9 bytes whose id does not resolve. -/
theorem read_unresolved (T : TagTable) (dec : LenencDecoder) (h : Heap)
    (data : List Byte) (findStmtByID : Nat → Option StmtPtr) (id : Nat)
    (hlen : 9 ≤ data.length)
    (hid : id = (data.getD 0 0).val + 2 ^ 8 * (data.getD 1 0).val
      + 2 ^ 16 * (data.getD 2 0).val + 2 ^ 24 * (data.getD 3 0).val)
    (hfind : findStmtByID id = none) :
    ReadStmtExecuteRequest T dec h data findStmtByID
      = ⟨some ⟨none, some (GoError.NewDefaultError ErrCode.ER_UNKNOWN_STMT_HANDLER
          [decimal id, "stmt_execute"])⟩, h, [id]⟩ := by
  have hlt : ¬ data.length < 9 := by omega
  have hrd := read_id data hlen
  rw [← hid] at hrd
  unfold ReadStmtExecuteRequest
  rw [if_neg hlt, hrd]
  dsimp only
  rw [hfind]

theorem getD_eq_some_of_ret {x : Option (Option Returned × Heap)} {h h1 : Heap}
    {r : Returned} (hx : x.getD (none, h) = (some r, h1)) : x = some (some r, h1) := by
  cases x with
  | none => exact absurd hx (by simp)
  | some v => exact congrArg some hx

theorem getD_of_eq_some {α : Type} {x : Option α} {d v : α} (h : x = some v) :
    x.getD d = v := by
  rw [h]; rfl

/-- The parameter section of a payload that is decoded successfully does not
change when bytes are appended to the payload. -/
theorem readParams_append (T : TagTable) (dec : LenencDecoder)
    (hdec : ∀ x y, (dec x).err = none → dec (x ++ y) = dec x) (h h1 : Heap)
    (d t : List Byte) (p q : StmtPtr)
    (hok : readParams T dec h d p = (some ⟨some q, none⟩, h1)) :
    readParams T dec h (d ++ t) p = (some ⟨some q, none⟩, h1) := by
  have hlenI : ((d ++ t).length : Int) = (d.length : Int) + (t.length : Int) := by
    rw [List.length_append]; push_cast; rfl
  unfold readParams at hok ⊢
  simp only [Option.bind_eq_bind, Option.pure_def] at hok ⊢
  have hok2 := getD_eq_some_of_ret hok
  apply getD_of_eq_some
  rw [Option.bind_eq_some] at hok2
  obtain ⟨flag, h4, hok2⟩ := hok2
  rw [index_append d t 4 flag h4]
  simp only [Option.some_bind]
  split at hok2
  · exact absurd hok2 (by simp)
  · rename_i hf
    rw [if_neg hf]
    split at hok2
    · rename_i hn
      rw [if_pos hn]
      split at hok2
      · exact absurd hok2 (by simp)
      · rename_i hc1
        rw [if_neg (by rw [hlenI]; omega)]
        rw [Option.bind_eq_some] at hok2
        obtain ⟨nbm, hs1, hok2⟩ := hok2
        rw [slice_append d t _ _ nbm hs1]
        simp only [Option.some_bind]
        rw [Option.bind_eq_some] at hok2
        obtain ⟨bound, hb, hok2⟩ := hok2
        rw [index_append d t _ bound hb]
        simp only [Option.some_bind]
        split at hok2
        · rename_i hb1
          rw [if_pos hb1]
          split at hok2
          · exact absurd hok2 (by simp)
          · rename_i hc2
            rw [if_neg (by rw [hlenI]; omega)]
            rw [Option.bind_eq_some] at hok2
            obtain ⟨ptys, hs2, hok2⟩ := hok2
            rw [slice_append d t _ _ ptys hs2]
            simp only [Option.some_bind]
            rw [Option.bind_eq_some] at hok2
            obtain ⟨pvs, hs3, hok2⟩ := hok2
            rw [sliceFrom_append d t _ pvs hs3]
            simp only [Option.some_bind]
            cases hbind : bindStmtArgs T dec (h p) nbm ptys pvs with
            | none =>
              rw [hbind] at hok2
              exact absurd hok2 (by simp)
            | some r =>
              rw [hbind] at hok2
              simp only at hok2
              cases herr : r.err with
              | some e =>
                rw [herr] at hok2
                exact absurd hok2 (by simp)
              | none =>
                rw [herr] at hok2
                have hbind2 : bindStmtArgs T dec (h p) nbm ptys (pvs ++ t) = some r := by
                  unfold bindStmtArgs at hbind ⊢
                  exact bindLoop_append T dec hdec _ _ _ t _ _ _ _ r hbind herr
                rw [hbind2]
                simp only [herr]
                exact hok2
        · rename_i hb1
          rw [if_neg hb1]
          exact hok2
    · rename_i hn
      rw [if_neg hn]
      exact hok2

/-- C16: for a string decoder whose successful result on `x` is also its result on
`x` followed by anything (it depends only on the header and the bytes the header
declares), a payload `d` that is decoded successfully to the statement `p` is
decoded in exactly the same way when any bytes `t` are appended: the same
statement is returned with a nil error, the store, hence the `Args`, ends the
same, and the same lookup is made. -/
theorem trailing_bytes_ignored (T : TagTable) (dec : LenencDecoder) (h : Heap)
    (d t : List Byte) (findStmtByID : Nat → Option StmtPtr) (p : StmtPtr)
    (hdec : ∀ x y, (dec x).err = none → dec (x ++ y) = dec x)
    (hok : (ReadStmtExecuteRequest T dec h d findStmtByID).ret = some ⟨some p, none⟩) :
    ReadStmtExecuteRequest T dec h (d ++ t) findStmtByID
      = ReadStmtExecuteRequest T dec h d findStmtByID ∧
    (ReadStmtExecuteRequest T dec h (d ++ t) findStmtByID).ret = some ⟨some p, none⟩ ∧
    ∀ q : StmtPtr, ((ReadStmtExecuteRequest T dec h (d ++ t) findStmtByID).heap q).Args
      = ((ReadStmtExecuteRequest T dec h d findStmtByID).heap q).Args := by
  have hlen : 9 ≤ d.length := by
    by_contra hc
    have hlt : d.length < 9 := by omega
    simp [ReadStmtExecuteRequest, hlt] at hok
  have hlen2 : 9 ≤ (d ++ t).length := by rw [List.length_append]; omega
  have heq : ReadStmtExecuteRequest T dec h (d ++ t) findStmtByID
      = ReadStmtExecuteRequest T dec h d findStmtByID := by
    generalize hid : (d.getD 0 0).val + 2 ^ 8 * (d.getD 1 0).val
      + 2 ^ 16 * (d.getD 2 0).val + 2 ^ 24 * (d.getD 3 0).val = id
    have hid2 : id = ((d ++ t).getD 0 0).val + 2 ^ 8 * ((d ++ t).getD 1 0).val
        + 2 ^ 16 * ((d ++ t).getD 2 0).val + 2 ^ 24 * ((d ++ t).getD 3 0).val := by
      rw [getD_append_left d t 0 0 (by omega), getD_append_left d t 1 0 (by omega),
        getD_append_left d t 2 0 (by omega), getD_append_left d t 3 0 (by omega), hid]
    cases hfind : findStmtByID id with
    | none =>
      rw [read_unresolved T dec h d findStmtByID id hlen hid.symm hfind] at hok
      exact absurd hok (by simp)
    | some p1 =>
      rw [read_resolved T dec h d findStmtByID id p1 hlen hid.symm hfind] at hok ⊢
      rw [read_resolved T dec h (d ++ t) findStmtByID id p1 hlen2 hid2 hfind]
      cases hrp : readParams T dec h d p1 with
      | mk ret h1 =>
        rw [hrp] at hok
        simp only at hok
        subst hok
        rw [readParams_append T dec hdec h h1 d t p1 p hrp]
  exact ⟨heq, by rw [heq]; exact hok, fun q => by rw [heq]⟩

theorem sampleDecoder_prefix (x y : List Byte) (h : (sampleDecoder x).err = none) :
    sampleDecoder (x ++ y) = sampleDecoder x := by
  cases x with
  | nil => simp [sampleDecoder] at h
  | cons l rest =>
    unfold sampleDecoder at h ⊢
    simp only [List.cons_append]
    by_cases hlt : rest.length < l.val
    · simp [hlt] at h
    · have hlt2 : ¬ (rest ++ y).length < l.val := by
        rw [List.length_append]; omega
      rw [if_neg hlt, if_neg hlt2, List.take_append_of_le_length (by omega)]

theorem trailing_bytes_ignored_witness :
    (ReadStmtExecuteRequest protocolTags sampleDecoder sampleHeap
        ([7, 0, 0, 0, 0, 1, 0, 0, 0, 0, 1, 1, 0, 0xfd, 0, 9, 2, 65, 66] ++ [1, 2, 3])
        sampleLookup).ret = some ⟨some 0, none⟩ ∧
    ((ReadStmtExecuteRequest protocolTags sampleDecoder sampleHeap
        ([7, 0, 0, 0, 0, 1, 0, 0, 0, 0, 1, 1, 0, 0xfd, 0, 9, 2, 65, 66] ++ [1, 2, 3])
        sampleLookup).heap 0).Args = [Value.int8 9, Value.bytes [65, 66]] := by
  have h := trailing_bytes_ignored protocolTags sampleDecoder sampleHeap
    [7, 0, 0, 0, 0, 1, 0, 0, 0, 0, 1, 1, 0, 0xfd, 0, 9, 2, 65, 66] [1, 2, 3]
    sampleLookup 0 sampleDecoder_prefix (by decide)
  exact ⟨h.2.1, (h.2.2 0).trans (by decide)⟩

/-! ## Index safety -/

/-- With an existing slot and a cursor between 0 and `len(paramValues) + 2^62`, no
clause panics, and a clause that continues leaves a cursor in the same range,
provided the string decoder reports a consumed count in `[0, 2^62)` and the slice
has fewer than `2^60` bytes. -/
theorem runClause_safe (dec : LenencDecoder)
    (hn : ∀ x, 0 ≤ (dec x).n ∧ (dec x).n < 2 ^ 62)
    (pv : List Byte) (tp : Byte) (u : Bool) (i : Nat) (args : List Value) (pos : Int)
    (c : Clause) (hi : i < args.length) (hpos : 0 ≤ pos)
    (hub : pos ≤ (pv.length : Int) + 2 ^ 62) (hgo : pv.length < 2 ^ 60) :
    ∃ st, runClause dec pv tp u i args pos c = some st ∧
      ∀ a p, st = Step.next a p → 0 ≤ p ∧ p ≤ (pv.length : Int) + 2 ^ 62 := by
  obtain ⟨q, rfl⟩ := Int.eq_ofNat_of_zero_le hpos
  have w1 : wrapInt ((q : Int) + 1) = (q : Int) + 1 :=
    wrapInt_of_range _ (by omega) (by omega)
  have w2 : wrapInt ((q : Int) + 2) = (q : Int) + 2 :=
    wrapInt_of_range _ (by omega) (by omega)
  have w4 : wrapInt ((q : Int) + 4) = (q : Int) + 4 :=
    wrapInt_of_range _ (by omega) (by omega)
  have w8 : wrapInt ((q : Int) + 8) = (q : Int) + 8 :=
    wrapInt_of_range _ (by omega) (by omega)
  cases c <;> unfold runClause <;> simp only [Option.bind_eq_bind, Option.pure_def]
  case caseNull =>
    rw [setIndex_of_lt _ _ _ hi]
    exact ⟨_, rfl, fun a p h => by simp only [Option.some_bind, Step.next.injEq] at h; omega⟩
  case caseDefault =>
    exact ⟨_, rfl, fun a p h => absurd h (by simp)⟩
  case caseString =>
    rw [w1]
    by_cases hlt : (pv.length : Int) < (q : Int) + 1
    · rw [if_pos hlt]
      exact ⟨_, rfl, fun a p h => absurd h (by simp)⟩
    · rw [if_neg hlt, sliceFrom_natCast pv q (by omega)]
      simp only [Option.some_bind]
      have hnn := hn (pv.drop q)
      rw [wrapInt_of_range ((q : Int) + (dec (pv.drop q)).n) (by omega) (by omega)]
      cases (dec (pv.drop q)).err with
      | some e => exact ⟨_, rfl, fun a p h => absurd h (by simp)⟩
      | none =>
        simp only
        cases (dec (pv.drop q)).isNull <;>
          simp only [Bool.not_true, Bool.not_false, if_true, if_false, Bool.false_eq_true] <;>
          rw [setIndex_of_lt _ _ _ hi] <;>
          exact ⟨_, rfl, fun a p h => by
            simp only [Option.some_bind, Step.next.injEq] at h; omega⟩
  case caseTiny =>
    rw [w1]
    by_cases hlt : (pv.length : Int) < (q : Int) + 1
    · rw [if_pos hlt]
      exact ⟨_, rfl, fun a p h => absurd h (by simp)⟩
    · rw [if_neg hlt, (read8 pv q (by omega)).1]
      simp only [Option.some_bind]
      rw [setIndex_of_lt _ _ _ hi]
      exact ⟨_, rfl, fun a p h => by
        simp only [Option.some_bind, Step.next.injEq] at h; omega⟩
  case caseShort =>
    rw [w2]
    by_cases hlt : (pv.length : Int) < (q : Int) + 2
    · rw [if_pos hlt]
      exact ⟨_, rfl, fun a p h => absurd h (by simp)⟩
    · rw [if_neg hlt, read16 pv q (by omega)]
      simp only [Option.some_bind]
      rw [setIndex_of_lt _ _ _ hi]
      exact ⟨_, rfl, fun a p h => by
        simp only [Option.some_bind, Step.next.injEq] at h; omega⟩
  case caseLong =>
    rw [w4]
    by_cases hlt : (pv.length : Int) < (q : Int) + 4
    · rw [if_pos hlt]
      exact ⟨_, rfl, fun a p h => absurd h (by simp)⟩
    · rw [if_neg hlt, read32 pv q (by omega)]
      simp only [Option.some_bind]
      rw [setIndex_of_lt _ _ _ hi]
      exact ⟨_, rfl, fun a p h => by
        simp only [Option.some_bind, Step.next.injEq] at h; omega⟩
  case caseFloat =>
    rw [w4]
    by_cases hlt : (pv.length : Int) < (q : Int) + 4
    · rw [if_pos hlt]
      exact ⟨_, rfl, fun a p h => absurd h (by simp)⟩
    · rw [if_neg hlt, read32 pv q (by omega)]
      simp only [Option.some_bind]
      rw [setIndex_of_lt _ _ _ hi]
      exact ⟨_, rfl, fun a p h => by
        simp only [Option.some_bind, Step.next.injEq] at h; omega⟩
  case caseLongLong =>
    rw [w8]
    by_cases hlt : (pv.length : Int) < (q : Int) + 8
    · rw [if_pos hlt]
      exact ⟨_, rfl, fun a p h => absurd h (by simp)⟩
    · rw [if_neg hlt, read64 pv q (by omega)]
      simp only [Option.some_bind]
      rw [setIndex_of_lt _ _ _ hi]
      exact ⟨_, rfl, fun a p h => by
        simp only [Option.some_bind, Step.next.injEq] at h; omega⟩
  case caseDouble =>
    rw [w8]
    by_cases hlt : (pv.length : Int) < (q : Int) + 8
    · rw [if_pos hlt]
      exact ⟨_, rfl, fun a p h => absurd h (by simp)⟩
    · rw [if_neg hlt, read64 pv q (by omega)]
      simp only [Option.some_bind]
      rw [setIndex_of_lt _ _ _ hi]
      exact ⟨_, rfl, fun a p h => by
        simp only [Option.some_bind, Step.next.injEq] at h; omega⟩

theorem bindParam_safe (T : TagTable) (dec : LenencDecoder)
    (hn : ∀ x, 0 ≤ (dec x).n ∧ (dec x).n < 2 ^ 62)
    (nb pt pv : List Byte) (i : Nat) (args : List Value) (pos : Int)
    (hnb : i >>> 3 < nb.length) (hpt : 2 * i + 1 < pt.length)
    (hi : i < args.length) (hpos : 0 ≤ pos)
    (hub : pos ≤ (pv.length : Int) + 2 ^ 62) (hgo : pv.length < 2 ^ 60) :
    ∃ st, bindParam T dec nb pt pv i args pos = some st ∧
      ∀ a p, st = Step.next a p →
        a.length = args.length ∧ 0 ≤ p ∧ p ≤ (pv.length : Int) + 2 ^ 62 := by
  have hmain : ∃ st, bindParam T dec nb pt pv i args pos = some st ∧
      ∀ a p, st = Step.next a p → 0 ≤ p ∧ p ≤ (pv.length : Int) + 2 ^ 62 := by
    have hb : nb[i >>> 3]? = some nb[i >>> 3] := List.getElem?_eq_getElem hnb
    cases hbit : nullBit nb[i >>> 3] i
    · rw [bindParam_of_clear T dec nb pt pv i args pos _ hb hbit,
        bindValue_eq T dec pt pv i args pos pt[2 * i] pt[2 * i + 1]
          (List.getElem?_eq_getElem (by omega)) (List.getElem?_eq_getElem hpt)]
      exact runClause_safe dec hn pv _ _ i args pos _ hi hpos hub hgo
    · rw [bindParam_of_null T dec nb pt pv i args pos _ hb hbit, setIndex_of_lt _ _ _ hi]
      exact ⟨_, rfl, fun a p h => by
        simp only [Option.some_bind, Step.next.injEq] at h; omega⟩
  obtain ⟨st, hst, hp⟩ := hmain
  refine ⟨st, hst, ?_⟩
  intro a p heq
  refine ⟨?_, hp a p heq⟩
  rcases bindParam_shape _ _ _ _ _ _ _ _ _ hst with ⟨p1, e, hf⟩ | ⟨v, p1, -, hx⟩
  · rw [hf] at heq; exact absurd heq (by simp)
  · rw [hx] at heq
    simp only [Step.next.injEq] at heq
    rw [← heq.1, List.length_set]

/-- The loop does not panic when the bitmap, the type array and `Args` are long
enough for the indices it visits and the cursor starts between 0 and
`len(paramValues) + 2^62`. -/
theorem bindLoop_safe (T : TagTable) (dec : LenencDecoder)
    (hn : ∀ x, 0 ≤ (dec x).n ∧ (dec x).n < 2 ^ 62)
    (nb pt pv : List Byte) (n : Nat) (hnb : n ≤ 8 * nb.length) (hpt : 2 * n ≤ pt.length)
    (hgo : pv.length < 2 ^ 60)
    (rem : Nat) : ∀ (i : Nat) (args : List Value) (pos : Int),
    i + rem = n → n ≤ args.length → 0 ≤ pos → pos ≤ (pv.length : Int) + 2 ^ 62 →
    ∃ r, bindLoop T dec nb pt pv rem i args pos = some r := by
  induction rem with
  | zero =>
    intro i args pos _ _ _ _
    exact ⟨_, rfl⟩
  | succ rem ih =>
    intro i args pos hin hargs hpos hub
    have hidx : i >>> 3 < nb.length := by
      rw [Nat.shiftRight_eq_div_pow]
      have : i / 2 ^ 3 * 8 ≤ i := Nat.div_mul_le_self i 8
      omega
    obtain ⟨st, hst, hnext⟩ := bindParam_safe T dec hn nb pt pv i args pos hidx
      (by omega) (by omega) hpos hub hgo
    rw [bindLoop_succ, hst]
    cases st with
    | fail a p e => exact ⟨_, rfl⟩
    | next a p =>
      obtain ⟨hl, hp, hp2⟩ := hnext a p rfl
      exact ih (i + 1) a p (by omega) (by omega) hp hp2

/-- The parameter section does not panic when `Args` has `ParamNum` slots, the
slices have fewer than `2^60` elements and the string decoder reports consumed
counts in `[0, 2^62)`. -/
theorem readParams_safe (T : TagTable) (dec : LenencDecoder)
    (hn : ∀ x, 0 ≤ (dec x).n ∧ (dec x).n < 2 ^ 62)
    (h : Heap) (d : List Byte) (p : StmtPtr) (hlen : 9 ≤ d.length)
    (hargs : (h p).ParamNum ≤ ((h p).Args.length : Int))
    (hslots : (h p).Args.length < 2 ^ 60) (hgo : d.length < 2 ^ 60) :
    (readParams T dec h d p).1 ≠ none := by
  by_cases hflag : d.getD 4 0 = 0
  · by_cases hpn : 0 < (h p).ParamNum
    · obtain ⟨n, hnn⟩ := Int.eq_ofNat_of_zero_le (Int.le_of_lt hpn)
      have hpos : 0 < n := by omega
      rw [readParams_params T dec h d p n hlen hflag hnn hpos
        (by rw [Nat.shiftRight_eq_div_pow]; omega)]
      generalize hL : (n + 7) >>> 3 = L
      have hL8 : L = (n + 7) / 8 := by rw [← hL, Nat.shiftRight_eq_div_pow]
      by_cases h1 : d.length < 9 + L + 1
      · rw [if_pos h1]; simp
      · rw [if_neg h1]
        by_cases hb : d.getD (9 + L) 0 = 1
        · rw [if_pos hb]
          by_cases h3 : d.length < 10 + L + 2 * n
          · rw [if_pos h3]; simp
          · rw [if_neg h3]
            have hloop := bindLoop_safe T dec hn ((d.drop 9).take L)
              ((d.drop (10 + L)).take (2 * n)) (d.drop (10 + L + 2 * n)) n
              (by rw [List.length_take, List.length_drop]; omega)
              (by rw [List.length_take, List.length_drop]; omega)
              (by rw [List.length_drop]; omega)
              n 0 (h p).Args 0 (by omega) (by omega) (by omega) (by omega)
            obtain ⟨r, hr⟩ := hloop
            have hbind : bindStmtArgs T dec (h p) ((d.drop 9).take L)
                ((d.drop (10 + L)).take (2 * n)) (d.drop (10 + L + 2 * n)) = some r := by
              unfold bindStmtArgs
              rw [hnn, Int.toNat_ofNat, hr]
            rw [hbind]
            simp
        · rw [if_neg hb]; simp
    · rw [readParams_noParams T dec h d p hlen hflag (by omega)]
      simp
  · rw [readParams_flag T dec h d p hlen hflag]
    simp

/-- At a cursor at or beyond the end of `paramValues`, and at least 8 below the
largest `int`, a clause other than `NULL` and `default` returns
`ErrMalformPacket`. -/
theorem runClause_overshoot (dec : LenencDecoder) (pv : List Byte) (tp : Byte) (u : Bool)
    (i : Nat) (args : List Value) (pos : Int) (c : Clause)
    (hpos : (pv.length : Int) ≤ pos) (hub : pos + 8 < 2 ^ 63) (h1 : c ≠ Clause.caseNull)
    (h2 : c ≠ Clause.caseDefault) :
    runClause dec pv tp u i args pos c
      = some (Step.fail args pos GoError.ErrMalformPacket) := by
  have w1 : wrapInt (pos + 1) = pos + 1 := wrapInt_of_range _ (by omega) (by omega)
  have w2 : wrapInt (pos + 2) = pos + 2 := wrapInt_of_range _ (by omega) (by omega)
  have w4 : wrapInt (pos + 4) = pos + 4 := wrapInt_of_range _ (by omega) (by omega)
  have w8 : wrapInt (pos + 8) = pos + 8 := wrapInt_of_range _ (by omega) (by omega)
  cases c <;> unfold runClause <;> simp only [Option.pure_def]
  case caseNull => exact absurd rfl h1
  case caseDefault => exact absurd rfl h2
  all_goals
    first | rw [w1] | rw [w2] | rw [w4] | rw [w8]
    rw [if_pos (by omega)]

/-- C20, as amended: when the string decoder reports consumed counts in
`[0, 2^62)`, the payload has fewer than `2^60` bytes and every resolved statement
has at least `ParamNum` and fewer than `2^60` slots in `Args`,
`ReadStmtExecuteRequest`, with its call of `bindStmtArgs`, never panics: no read
of `data`, of the null bitmap, of the type array or of `paramValues` and no write
of `Args` is out of range. After a consumed count that leaves the cursor at or
beyond the end of `paramValues` (and at least 8 below the largest `int`), a
parameter whose null bit is clear and whose tag is a recognised tag other than
`NULL` returns `ErrMalformPacket`, while a parameter whose null bit is set is
stored as nil with no error, at the same cursor. -/
theorem index_safety (T : TagTable) (hT : Function.Injective T) (dec : LenencDecoder)
    (h : Heap) (data : List Byte) (findStmtByID : Nat → Option StmtPtr)
    (hn : ∀ x, 0 ≤ (dec x).n ∧ (dec x).n < 2 ^ 62)
    (hargs : ∀ id p, findStmtByID id = some p →
      (h p).ParamNum ≤ ((h p).Args.length : Int) ∧ (h p).Args.length < 2 ^ 60)
    (hgo : data.length < 2 ^ 60) :
    (ReadStmtExecuteRequest T dec h data findStmtByID).ret ≠ none ∧
    (∀ (nb pt pv : List Byte) (i : Nat) (args : List Value) (pos : Int) (b fb : Byte)
        (tag : FieldType), nb[i >>> 3]? = some b → b.val.testBit (i % 8) = false →
      pt[2 * i]? = some (T tag) → pt[2 * i + 1]? = some fb →
      tag ≠ FieldType.MYSQL_TYPE_NULL → (pv.length : Int) ≤ pos → pos + 8 < 2 ^ 63 →
      bindParam T dec nb pt pv i args pos
        = some (Step.fail args pos GoError.ErrMalformPacket)) ∧
    (∀ (nb pt pv : List Byte) (i : Nat) (args : List Value) (pos : Int) (b : Byte),
      nb[i >>> 3]? = some b → b.val.testBit (i % 8) = true → i < args.length →
      bindParam T dec nb pt pv i args pos
        = some (Step.next (args.set i Value.null) pos)) := by
  refine ⟨?_, ?_, ?_⟩
  · by_cases hlt : data.length < 9
    · simp [ReadStmtExecuteRequest, hlt]
    · have hlen : 9 ≤ data.length := by omega
      generalize hid : (data.getD 0 0).val + 2 ^ 8 * (data.getD 1 0).val
        + 2 ^ 16 * (data.getD 2 0).val + 2 ^ 24 * (data.getD 3 0).val = id
      cases hfind : findStmtByID id with
      | none =>
        rw [read_unresolved T dec h data findStmtByID id hlen hid.symm hfind]
        simp
      | some p =>
        rw [read_resolved T dec h data findStmtByID id p hlen hid.symm hfind]
        exact readParams_safe T dec hn h data p hlen (hargs id p hfind).1
          (hargs id p hfind).2 hgo
  · intro nb pt pv i args pos b fb tag hb hbit htp hfb htag hpos hub
    rw [← nullBit_eq_testBit] at hbit
    rw [bindParam_of_clear T dec nb pt pv i args pos b hb hbit,
      bindValue_eq T dec pt pv i args pos (T tag) fb htp hfb, selectClause_tag T hT]
    apply runClause_overshoot dec pv _ _ i args pos _ hpos hub
    · cases tag <;> simp [clauseOf] at htag ⊢
    · cases tag <;> simp [clauseOf]
  · intro nb pt pv i args pos b hb hbit hi
    rw [← nullBit_eq_testBit] at hbit
    rw [bindParam_of_null T dec nb pt pv i args pos b hb hbit, setIndex_of_lt _ _ _ hi]
    rfl

theorem index_safety_witness :
    (ReadStmtExecuteRequest protocolTags overshootDecoder sampleHeap
        [7, 0, 0, 0, 0, 1, 0, 0, 0, 0, 1, 0xfd, 0, 1, 0, 0] sampleLookup).ret ≠ none ∧
    bindParam protocolTags overshootDecoder [0] [0xfd, 0, 1, 0] [0] 1
        [Value.bytes [], Value.null] 9
      = some (Step.fail [Value.bytes [], Value.null] 9 GoError.ErrMalformPacket) := by
  have h := index_safety protocolTags protocolTags_injective overshootDecoder sampleHeap
    [7, 0, 0, 0, 0, 1, 0, 0, 0, 0, 1, 0xfd, 0, 1, 0, 0] sampleLookup
    (fun _ => ⟨(by decide : (0 : Int) ≤ 9), (by decide : (9 : Int) < 2 ^ 62)⟩)
    (fun _ _ _ => ⟨(by decide : sampleStmt.ParamNum ≤ (sampleStmt.Args.length : Int)),
      (by decide : sampleStmt.Args.length < 2 ^ 60)⟩)
    (by decide)
  exact ⟨h.1, h.2.1 [0] [0xfd, 0, 1, 0] [0] 1 [Value.bytes [], Value.null] 9 0 0
    FieldType.MYSQL_TYPE_TINY (by decide) (by decide) (by decide) (by decide)
    (by decide) (by decide) (by decide)⟩

/-- C20, as stated, fails, in two ways. First, the decoder `overshootDecoder`
reports a consumed count of 9, which is not negative, on a one-byte `paramValues`;
the cursor after parameter 0 is 9, beyond the buffer; parameter 1 has its null bit
set, so the next iteration stores nil at the same cursor and returns no
`ErrMalformPacket`: the bind, and the call, end with a nil error. Second, the
decoder `jumpDecoder` reports a consumed count of `2^63 - 1`, which is not negative
either; the cursor after parameter 0 is `2^63 - 1`, the sum `pos + 1` of the length
check of the `TINY` parameter 1 wraps to `-2^63`, the check passes, and the read
`paramValues[pos]` is out of range: the call panics, although `Args` has
`ParamNum` slots. -/
theorem overshoot_before_null_parameter :
    (∀ x, 0 ≤ (overshootDecoder x).n) ∧
    bindParam protocolTags overshootDecoder [2] [0xfd, 0, 1, 0] [0] 0
        [Value.null, Value.null] 0
      = some (Step.next [Value.bytes [], Value.null] 9) ∧
    (([0] : List Byte).length : Int) < 9 ∧
    bindParam protocolTags overshootDecoder [2] [0xfd, 0, 1, 0] [0] 1
        [Value.bytes [], Value.null] 9
      = some (Step.next [Value.bytes [], Value.null] 9) ∧
    bindStmtArgs protocolTags overshootDecoder sampleStmt [2] [0xfd, 0, 1, 0] [0]
      = some ⟨[Value.bytes [], Value.null], 9, none⟩ ∧
    (ReadStmtExecuteRequest protocolTags overshootDecoder sampleHeap
        [7, 0, 0, 0, 0, 1, 0, 0, 0, 2, 1, 0xfd, 0, 1, 0, 0] sampleLookup).ret
      = some ⟨some 0, none⟩ ∧
    (∀ x, 0 ≤ (jumpDecoder x).n) ∧
    sampleStmt.ParamNum ≤ (sampleStmt.Args.length : Int) ∧
    bindParam protocolTags jumpDecoder [0] [0xfd, 0, 1, 0] [0] 0
        [Value.null, Value.null] 0
      = some (Step.next [Value.bytes [], Value.null] 9223372036854775807) ∧
    bindParam protocolTags jumpDecoder [0] [0xfd, 0, 1, 0] [0] 1
        [Value.bytes [], Value.null] 9223372036854775807 = none ∧
    (ReadStmtExecuteRequest protocolTags jumpDecoder sampleHeap
        [7, 0, 0, 0, 0, 1, 0, 0, 0, 0, 1, 0xfd, 0, 1, 0, 0] sampleLookup).ret = none :=
  ⟨fun _ => (by decide : (0 : Int) ≤ 9), by decide, by decide, by decide, by decide,
    by decide, fun _ => (by decide : (0 : Int) ≤ 9223372036854775807), by decide,
    by decide, by decide, by decide⟩


/-! ## The prepare response: the header packet -/

theorem callPacket_fst (io : Framing) (pr : Progress) (data : Option (List Byte))
    (direct : Bool) :
    (callPacket io pr data direct).1.calls
      = pr.calls ++ [FramingCall.WritePacketBatch pr.total data direct] ∧
    (callPacket io pr data direct).2
      = (io (pr.calls ++ [FramingCall.WritePacketBatch pr.total data direct])).err :=
  ⟨rfl, rfl⟩

theorem callEOF_fst (io : Framing) (pr : Progress) (capability status : Nat)
    (direct : Bool) :
    (callEOF io pr capability status direct).1.calls
      = pr.calls ++ [FramingCall.WriteEOFBatch pr.total capability status direct] ∧
    (callEOF io pr capability status direct).2
      = (io (pr.calls ++ [FramingCall.WriteEOFBatch pr.total capability status direct])).err :=
  ⟨rfl, rfl⟩

/-- A phase keeps the calls made before it. -/
theorem writeDefs_prefix (io : Framing) (defs : List (List Byte)) (rem : Nat) :
    ∀ (i : Nat) (pr : Progress), ∃ l, (writeDefs io defs rem i pr).calls = pr.calls ++ l := by
  induction rem with
  | zero =>
    intro i pr
    exact ⟨[], by simp [writeDefs, Phase.calls]⟩
  | succ rem ih =>
    intro i pr
    unfold writeDefs
    cases hd : defs[i]? with
    | none => exact ⟨[], by simp [Phase.calls]⟩
    | some dump =>
      simp only
      have hc := (callPacket_fst io pr (some (pr.region.bytes ++ dump)) false).1
      generalize callPacket io pr (some (pr.region.bytes ++ dump)) false = res at hc
      obtain ⟨pr1, err⟩ := res
      simp only at hc
      cases err with
      | some e => exact ⟨_, by simp only [Phase.calls]; exact hc⟩
      | none =>
        simp only
        obtain ⟨l, hl⟩ := ih (i + 1) pr1
        exact ⟨_, by rw [hl, hc, List.append_assoc]⟩

theorem writeSection_prefix (io : Framing) (capability status : Nat) (num : Int)
    (defs : List (List Byte)) (pr : Progress) :
    ∃ l, (writeSection io capability status num defs pr).calls = pr.calls ++ l := by
  unfold writeSection
  split_ifs with hnum
  · obtain ⟨l, hl⟩ := writeDefs_prefix io defs num.toNat 0 pr
    cases hw : writeDefs io defs num.toNat 0 pr with
    | goOn pr1 =>
      rw [hw] at hl
      simp only [Phase.calls] at hl
      simp only
      have hc := (callEOF_fst io pr1 capability status false).1
      generalize callEOF io pr1 capability status false = res at hc
      obtain ⟨pr2, err⟩ := res
      simp only at hc
      cases err with
      | some e => exact ⟨_, by simp only [Phase.calls]; rw [hc, hl, List.append_assoc]⟩
      | none => exact ⟨_, by simp only [Phase.calls]; rw [hc, hl, List.append_assoc]⟩
    | returned c e =>
      rw [hw] at hl
      exact ⟨l, hl⟩
    | panicked c =>
      rw [hw] at hl
      exact ⟨l, hl⟩
  · exact ⟨[], by simp [Phase.calls]⟩

/-- The calls of `WriteStmtPrepareResponse` start with the header packet. -/
theorem write_calls_head (io : Framing) (capability status : Nat) (s : Stmt) :
    ∃ l, (WriteStmtPrepareResponse io capability status s).calls
      = FramingCall.WritePacketBatch [] (some (prepareHeader s)) false :: l := by
  unfold WriteStmtPrepareResponse
  have hc := (callPacket_fst io ⟨[], [], ⟨0, 0, 0, 0⟩⟩ (some (prepareHeader s)) false).1
  generalize callPacket io ⟨[], [], ⟨0, 0, 0, 0⟩⟩ (some (prepareHeader s)) false = res at hc
  obtain ⟨pr1, err⟩ := res
  simp only [List.nil_append] at hc
  cases err with
  | some e => exact ⟨[], hc⟩
  | none =>
    simp only
    obtain ⟨l1, hl1⟩ := writeSection_prefix io capability status s.ParamNum s.Params pr1
    cases hw : writeSection io capability status s.ParamNum s.Params pr1 with
    | returned c e =>
      rw [hw] at hl1
      simp only [Phase.calls] at hl1
      exact ⟨l1, by simp only; rw [hl1, hc]; rfl⟩
    | panicked c =>
      rw [hw] at hl1
      simp only [Phase.calls] at hl1
      exact ⟨l1, by simp only; rw [hl1, hc]; rfl⟩
    | goOn pr2 =>
      rw [hw] at hl1
      simp only [Phase.calls] at hl1
      simp only
      obtain ⟨l2, hl2⟩ := writeSection_prefix io capability status s.ColumnNum s.Columns pr2
      cases hw2 : writeSection io capability status s.ColumnNum s.Columns pr2 with
      | returned c e =>
        rw [hw2] at hl2
        simp only [Phase.calls] at hl2
        exact ⟨l1 ++ l2, by simp only; rw [hl2, hl1, hc]; rfl⟩
      | panicked c =>
        rw [hw2] at hl2
        simp only [Phase.calls] at hl2
        exact ⟨l1 ++ l2, by simp only; rw [hl2, hl1, hc]; rfl⟩
      | goOn pr3 =>
        rw [hw2] at hl2
        simp only [Phase.calls] at hl2
        simp only
        exact ⟨l1 ++ l2 ++ [FramingCall.WritePacketBatch pr3.total none true], by
          rw [(callPacket_fst io pr3 none true).1, hl2, hl1, hc]
          simp⟩

theorem ofNat_val (n : Nat) : ((Fin.ofNat n : Byte)).val = n % 256 := rfl

/-- The little-endian value of a two-byte field written by `Uint16ToBytes`. -/
theorem leSum_uint16 (pv : List Byte) (pos n : Nat)
    (h0 : pv.getD pos 0 = Fin.ofNat n) (h1 : pv.getD (pos + 1) 0 = Fin.ofNat (n >>> 8)) :
    leSum pv pos 2 = n % 2 ^ 16 := by
  have h := leSum_eq_mod pv pos n 2 (by
    intro k hk
    have hcases : k = 0 ∨ k = 1 := by omega
    rcases hcases with rfl | rfl
    · rw [Nat.add_zero, h0, ofNat_val]; simp
    · rw [h1, ofNat_val, Nat.shiftRight_eq_div_pow]; rfl)
  rw [h]
  norm_num

theorem toUint16_lt (x : Int) : toUint16 x < 2 ^ 16 := by
  unfold toUint16
  have h1 : x % 2 ^ 16 < 2 ^ 16 := Int.emod_lt_of_pos x (by norm_num)
  have h2 : 0 ≤ x % 2 ^ 16 := Int.emod_nonneg x (by norm_num)
  omega

theorem toUint16_of_range (x : Int) (h0 : 0 ≤ x) (h1 : x < 2 ^ 16) :
    (toUint16 x : Int) = x := by
  unfold toUint16
  rw [Int.emod_eq_of_lt h0 h1]
  omega

/-- C17, as amended: for every statement `s`, the first call of
`WriteStmtPrepareResponse` is `WritePacketBatch` with an empty `total`, `isLast`
false and a body of exactly 16 bytes: four zero bytes (the header region), the
status byte 0, `s.ID` as 4 bytes little-endian, then `uint16(s.ColumnNum)` and
`uint16(s.ParamNum)`, the two counts modulo `2^16`, each as 2 bytes little-endian,
one filler byte 0 and the warning count 0, 0. Decoding the two count fields gives
`ColumnNum` and `ParamNum` modulo `2^16`, hence the counts themselves when they are
in the range 0 to 65535. -/
theorem prepare_header_layout (io : Framing) (capability status : Nat) (s : Stmt) :
    (∃ l, (WriteStmtPrepareResponse io capability status s).calls
      = FramingCall.WritePacketBatch [] (some (prepareHeader s)) false :: l) ∧
    (prepareHeader s).length = 16 ∧
    (prepareHeader s).take 5 = [0, 0, 0, 0, 0] ∧
    ((prepareHeader s).drop 5).take 4 = Uint32ToBytes s.ID ∧
    leSum (prepareHeader s) 5 4 = s.ID % 2 ^ 32 ∧
    (prepareHeader s).drop 13 = [0, 0, 0] ∧
    leSum (prepareHeader s) 9 2 = (s.ColumnNum % 2 ^ 16).toNat ∧
    leSum (prepareHeader s) 11 2 = (s.ParamNum % 2 ^ 16).toNat ∧
    (0 ≤ s.ColumnNum → s.ColumnNum < 2 ^ 16 →
      (leSum (prepareHeader s) 9 2 : Int) = s.ColumnNum) ∧
    (0 ≤ s.ParamNum → s.ParamNum < 2 ^ 16 →
      (leSum (prepareHeader s) 11 2 : Int) = s.ParamNum) := by
  have hid : leSum (prepareHeader s) 5 4 = s.ID % 2 ^ 32 := by
    have h := leSum_eq_mod (prepareHeader s) 5 s.ID 4 (by
      intro k hk
      have hcases : k = 0 ∨ k = 1 ∨ k = 2 ∨ k = 3 := by omega
      rcases hcases with rfl | rfl | rfl | rfl
      · show ((Fin.ofNat s.ID : Byte)).val = _
        rw [ofNat_val]; simp
      · show ((Fin.ofNat (s.ID >>> 8) : Byte)).val = _
        rw [ofNat_val, Nat.shiftRight_eq_div_pow]; rfl
      · show ((Fin.ofNat (s.ID >>> 16) : Byte)).val = _
        rw [ofNat_val, Nat.shiftRight_eq_div_pow]; rfl
      · show ((Fin.ofNat (s.ID >>> 24) : Byte)).val = _
        rw [ofNat_val, Nat.shiftRight_eq_div_pow]; rfl)
    rw [h]
    norm_num
  have hcol : leSum (prepareHeader s) 9 2 = toUint16 s.ColumnNum := by
    rw [leSum_uint16 (prepareHeader s) 9 (toUint16 s.ColumnNum) rfl rfl]
    exact Nat.mod_eq_of_lt (toUint16_lt _)
  have hpar : leSum (prepareHeader s) 11 2 = toUint16 s.ParamNum := by
    rw [leSum_uint16 (prepareHeader s) 11 (toUint16 s.ParamNum) rfl rfl]
    exact Nat.mod_eq_of_lt (toUint16_lt _)
  refine ⟨write_calls_head io capability status s, rfl, rfl, rfl, hid, rfl, hcol, hpar,
    ?_, ?_⟩
  · intro h0 h1
    rw [hcol]
    exact toUint16_of_range _ h0 h1
  · intro h0 h1
    rw [hpar]
    exact toUint16_of_range _ h0 h1

theorem prepare_header_layout_witness :
    prepareHeader preparedStmt = [0, 0, 0, 0, 0, 2, 1, 0, 0, 1, 0, 2, 0, 0, 0, 0] ∧
    ((leSum (prepareHeader preparedStmt) 9 2 : Nat) : Int) = preparedStmt.ColumnNum ∧
    ((leSum (prepareHeader preparedStmt) 11 2 : Nat) : Int) = preparedStmt.ParamNum :=
  ⟨by decide,
    (prepare_header_layout quietFraming 0 0 preparedStmt).2.2.2.2.2.2.2.2.1
      (by decide) (by decide),
    (prepare_header_layout quietFraming 0 0 preparedStmt).2.2.2.2.2.2.2.2.2
      (by decide) (by decide)⟩

/-- C17, as stated, fails: for a statement with 65536 parameters the parameter
count field of the first body is `0, 0`, and decoding it gives 0, not
`ParamNum`. -/
theorem prepare_header_count_truncated :
    wideStmt.ParamNum = 65536 ∧
    ((prepareHeader wideStmt).drop 11).take 2 = [0, 0] ∧
    leSum (prepareHeader wideStmt) 11 2 = 0 ∧
    ((leSum (prepareHeader wideStmt) 11 2 : Nat) : Int) ≠ wideStmt.ParamNum :=
  ⟨by decide, by decide, by decide, by decide⟩

/-! ## The prepare response: the sequence of calls -/

theorem callPacket_ok (io : Framing) (hio : ∀ c, (io c).err = none) (pr : Progress)
    (data : Option (List Byte)) (direct : Bool) :
    ∃ pr1, callPacket io pr data direct = (pr1, none) ∧
      pr1.calls = pr.calls ++ [FramingCall.WritePacketBatch pr.total data direct] := by
  unfold callPacket
  simp only [hio]
  exact ⟨_, rfl, rfl⟩

theorem callEOF_ok (io : Framing) (hio : ∀ c, (io c).err = none) (pr : Progress)
    (capability status : Nat) (direct : Bool) :
    ∃ pr1, callEOF io pr capability status direct = (pr1, none) ∧
      pr1.calls
        = pr.calls ++ [FramingCall.WriteEOFBatch pr.total capability status direct] := by
  unfold callEOF
  simp only [hio]
  exact ⟨_, rfl, rfl⟩

theorem kind_packet (total : List Byte) (r : Region) (dump : List Byte) (direct : Bool) :
    (FramingCall.WritePacketBatch total (some (r.bytes ++ dump)) direct).kind
      = CallKind.packet 4 dump direct := by
  simp [FramingCall.kind, Region.bytes]

/-- The descriptor loop when no call fails: one packet per descriptor, in index
order, each with a four-byte header region before the descriptor's bytes. -/
theorem writeDefs_ok (io : Framing) (hio : ∀ c, (io c).err = none)
    (defs : List (List Byte)) (rem : Nat) : ∀ (i : Nat) (pr : Progress),
    i + rem ≤ defs.length →
    ∃ pr1, writeDefs io defs rem i pr = Phase.goOn pr1 ∧
      pr1.calls.map FramingCall.kind
        = pr.calls.map FramingCall.kind
          ++ ((defs.drop i).take rem).map (fun d => CallKind.packet 4 d false) := by
  induction rem with
  | zero =>
    intro i pr _
    exact ⟨pr, rfl, by simp⟩
  | succ rem ih =>
    intro i pr hlen
    have hi : i < defs.length := by omega
    unfold writeDefs
    rw [List.getElem?_eq_getElem hi]
    simp only
    obtain ⟨pr1, hcp, hcalls⟩ := callPacket_ok io hio pr (some (pr.region.bytes ++ defs[i])) false
    rw [hcp]
    simp only
    obtain ⟨pr2, hw, hk⟩ := ih (i + 1) pr1 (by omega)
    refine ⟨pr2, hw, ?_⟩
    rw [hk, hcalls, List.map_append, List.map_singleton, kind_packet, List.append_assoc,
      List.drop_eq_getElem_cons hi, List.take_succ_cons, List.map_cons]
    rfl

theorem writeSection_ok (io : Framing) (hio : ∀ c, (io c).err = none)
    (capability status : Nat) (num : Int) (defs : List (List Byte)) (pr : Progress)
    (hnum : num ≤ (defs.length : Int)) :
    ∃ pr1, writeSection io capability status num defs pr = Phase.goOn pr1 ∧
      pr1.calls.map FramingCall.kind
        = pr.calls.map FramingCall.kind ++ sectionKinds capability status num defs := by
  unfold writeSection sectionKinds
  split_ifs with hpos
  · obtain ⟨pr1, hw, hk⟩ := writeDefs_ok io hio defs num.toNat 0 pr (by omega)
    rw [hw]
    simp only
    obtain ⟨pr2, hce, hcalls⟩ := callEOF_ok io hio pr1 capability status false
    rw [hce]
    simp only
    refine ⟨pr2, rfl, ?_⟩
    rw [hcalls, List.map_append, hk, List.drop_zero, List.append_assoc]
    rfl
  · exact ⟨pr, rfl, by simp⟩

theorem sectionKinds_length (capability status : Nat) (num : Int)
    (defs : List (List Byte)) (hnum : num ≤ (defs.length : Int)) :
    (sectionKinds capability status num defs).length
      = num.toNat + (if 0 < num then 1 else 0) := by
  unfold sectionKinds
  by_cases hpos : num > 0
  · have h2 : 0 < num := hpos
    rw [if_pos hpos, if_pos h2, List.length_append, List.length_map, List.length_take]
    simp only [List.length_singleton]
    omega
  · have h2 : ¬ 0 < num := hpos
    rw [if_neg hpos, if_neg h2]
    simp only [List.length_nil]
    omega

/-- C18: when no call to the framing collaborator fails (and `Params`, `Columns`
hold `ParamNum`, `ColumnNum` descriptors), `WriteStmtPrepareResponse` returns a nil
error and its calls are exactly: the header packet; then, only if `ParamNum > 0`,
one packet per parameter in index order, whose body is a four-byte header region
followed by `Params[i].Dump()`, and one EOF marker with the given capability and
status; then, only if `ColumnNum > 0`, the same over `Columns`; then one packet
call with a nil body and `isLast` true. Every other call has `isLast` false. The
number of calls is `2 + ParamNum + ColumnNum + [ParamNum>0] + [ColumnNum>0]`, and
without parameters and columns the calls are the header packet and the
terminating call only. -/
theorem prepare_response_call_sequence (io : Framing) (capability status : Nat)
    (s : Stmt) (hio : ∀ c, (io c).err = none)
    (hparams : s.ParamNum ≤ (s.Params.length : Int))
    (hcolumns : s.ColumnNum ≤ (s.Columns.length : Int)) :
    (WriteStmtPrepareResponse io capability status s).ret = some none ∧
    (WriteStmtPrepareResponse io capability status s).calls.map FramingCall.kind
      = [CallKind.packet 4 ((prepareHeader s).drop 4) false]
        ++ (if s.ParamNum > 0 then
            (s.Params.take s.ParamNum.toNat).map (fun d => CallKind.packet 4 d false)
              ++ [CallKind.eof capability status false]
          else [])
        ++ (if s.ColumnNum > 0 then
            (s.Columns.take s.ColumnNum.toNat).map (fun d => CallKind.packet 4 d false)
              ++ [CallKind.eof capability status false]
          else [])
        ++ [CallKind.flush true] ∧
    (WriteStmtPrepareResponse io capability status s).calls.length
      = 2 + s.ParamNum.toNat + s.ColumnNum.toNat + (if 0 < s.ParamNum then 1 else 0)
        + (if 0 < s.ColumnNum then 1 else 0) ∧
    (s.ParamNum ≤ 0 → s.ColumnNum ≤ 0 →
      (WriteStmtPrepareResponse io capability status s).calls.map FramingCall.kind
        = [CallKind.packet 4 ((prepareHeader s).drop 4) false, CallKind.flush true]) := by
  have hmain : (WriteStmtPrepareResponse io capability status s).ret = some none ∧
      (WriteStmtPrepareResponse io capability status s).calls.map FramingCall.kind
        = expectedKinds capability status s := by
    unfold WriteStmtPrepareResponse
    obtain ⟨pr1, h1, hc1⟩ := callPacket_ok io hio ⟨[], [], ⟨0, 0, 0, 0⟩⟩
      (some (prepareHeader s)) false
    rw [h1]
    simp only
    obtain ⟨pr2, h2, hc2⟩ := writeSection_ok io hio capability status s.ParamNum s.Params
      pr1 hparams
    rw [h2]
    simp only
    obtain ⟨pr3, h3, hc3⟩ := writeSection_ok io hio capability status s.ColumnNum s.Columns
      pr2 hcolumns
    rw [h3]
    simp only
    obtain ⟨pr4, h4, hc4⟩ := callPacket_ok io hio pr3 none true
    rw [h4]
    refine ⟨rfl, ?_⟩
    simp only
    rw [hc4, List.map_append, hc3, hc2, hc1]
    rfl
  have hexp : expectedKinds capability status s
      = [CallKind.packet 4 ((prepareHeader s).drop 4) false]
        ++ (if s.ParamNum > 0 then
            (s.Params.take s.ParamNum.toNat).map (fun d => CallKind.packet 4 d false)
              ++ [CallKind.eof capability status false]
          else [])
        ++ (if s.ColumnNum > 0 then
            (s.Columns.take s.ColumnNum.toNat).map (fun d => CallKind.packet 4 d false)
              ++ [CallKind.eof capability status false]
          else [])
        ++ [CallKind.flush true] := rfl
  refine ⟨hmain.1, by rw [hmain.2, hexp], ?_, ?_⟩
  · have hl := congrArg List.length hmain.2
    rw [List.length_map] at hl
    rw [hl]
    unfold expectedKinds
    simp only [List.length_append, List.length_singleton,
      sectionKinds_length capability status _ _ hparams,
      sectionKinds_length capability status _ _ hcolumns]
    omega
  · intro hp hc
    rw [hmain.2]
    unfold expectedKinds sectionKinds
    rw [if_neg (by omega), if_neg (by omega)]
    rfl

theorem prepare_response_call_sequence_witness :
    (WriteStmtPrepareResponse quietFraming 5 6 preparedStmt).calls.map FramingCall.kind
      = [CallKind.packet 4 [0, 2, 1, 0, 0, 1, 0, 2, 0, 0, 0, 0] false,
          CallKind.packet 4 [10, 11] false, CallKind.packet 4 [12] false,
          CallKind.eof 5 6 false, CallKind.packet 4 [20] false, CallKind.eof 5 6 false,
          CallKind.flush true] ∧
    (WriteStmtPrepareResponse quietFraming 5 6 emptyStmt).calls.map FramingCall.kind
      = [CallKind.packet 4 [0, 1, 0, 0, 0, 0, 0, 0, 0, 0, 0, 0] false,
          CallKind.flush true] := by
  have h1 := (prepare_response_call_sequence quietFraming 5 6 preparedStmt
    (fun _ => rfl) (by decide) (by decide)).2.1
  have h2 := (prepare_response_call_sequence quietFraming 5 6 emptyStmt
    (fun _ => rfl) (by decide) (by decide)).2.2.2 (by decide) (by decide)
  exact ⟨h1.trans (by decide), h2.trans (by decide)⟩

/-! ## The prepare response: failures of the framing collaborator -/

theorem allOk_append_last (io : Framing) (calls : List FramingCall) (c : FramingCall)
    (h : AllOk io calls calls.length) :
    AllOk io (calls ++ [c]) ((calls ++ [c]).length - 1) := by
  intro k hk
  rw [List.length_append, List.length_singleton] at hk
  rw [List.take_append_of_le_length (by omega)]
  exact h k (by omega)

theorem allOk_append_ok (io : Framing) (calls : List FramingCall) (c : FramingCall)
    (h : AllOk io calls calls.length) (hc : (io (calls ++ [c])).err = none) :
    AllOk io (calls ++ [c]) (calls ++ [c]).length := by
  intro k hk
  rw [List.length_append, List.length_singleton] at hk
  by_cases hlt : k < calls.length
  · rw [List.take_append_of_le_length (by omega)]
    exact h k hlt
  · rw [List.take_of_length_le (by rw [List.length_append, List.length_singleton]; omega)]
    exact hc

theorem allOk_last (io : Framing) (calls : List FramingCall) (hne : calls ≠ [])
    (h : AllOk io calls calls.length) : (io calls).err = none := by
  have hpos : 0 < calls.length := List.length_pos.mpr hne
  have := h (calls.length - 1) (by omega)
  rw [List.take_of_length_le (by omega)] at this
  exact this

theorem writeDefs_sound (io : Framing) (defs : List (List Byte)) (rem : Nat) :
    ∀ (i : Nat) (pr : Progress), AllOk io pr.calls pr.calls.length →
    (writeDefs io defs rem i pr).Sound io := by
  induction rem with
  | zero =>
    intro i pr h
    exact h
  | succ rem ih =>
    intro i pr h
    unfold writeDefs
    cases hd : defs[i]? with
    | none => exact h
    | some dump =>
      simp only
      obtain ⟨hc, he⟩ := callPacket_fst io pr (some (pr.region.bytes ++ dump)) false
      generalize callPacket io pr (some (pr.region.bytes ++ dump)) false = res at hc he
      obtain ⟨pr1, err⟩ := res
      simp only at hc he
      cases err with
      | some e =>
        simp only [Phase.Sound]
        rw [hc]
        exact ⟨allOk_append_last io _ _ h, he.symm, by simp⟩
      | none =>
        simp only
        apply ih (i + 1) pr1
        rw [hc]
        exact allOk_append_ok io _ _ h he.symm

theorem writeSection_sound (io : Framing) (capability status : Nat) (num : Int)
    (defs : List (List Byte)) (pr : Progress) (h : AllOk io pr.calls pr.calls.length) :
    (writeSection io capability status num defs pr).Sound io := by
  unfold writeSection
  split_ifs with hnum
  · have hs := writeDefs_sound io defs num.toNat 0 pr h
    cases hw : writeDefs io defs num.toNat 0 pr with
    | goOn pr1 =>
      rw [hw] at hs
      simp only [Phase.Sound] at hs
      simp only
      obtain ⟨hc, he⟩ := callEOF_fst io pr1 capability status false
      generalize callEOF io pr1 capability status false = res at hc he
      obtain ⟨pr2, err⟩ := res
      simp only at hc he
      cases err with
      | some e =>
        simp only [Phase.Sound]
        rw [hc]
        exact ⟨allOk_append_last io _ _ hs, he.symm, by simp⟩
      | none =>
        simp only [Phase.Sound]
        rw [hc]
        exact allOk_append_ok io _ _ hs he.symm
    | returned c e =>
      rw [hw] at hs
      exact hs
    | panicked c =>
      rw [hw] at hs
      exact hs
  · exact h

/-- The calls and the returned value of `WriteStmtPrepareResponse`: at a panic every
call made was answered without an error; otherwise every call before the last
was, and the returned value is the error of the last call. -/
theorem write_sound (io : Framing) (capability status : Nat) (s : Stmt) :
    ((WriteStmtPrepareResponse io capability status s).ret = none →
      AllOk io (WriteStmtPrepareResponse io capability status s).calls
        (WriteStmtPrepareResponse io capability status s).calls.length) ∧
    (∀ r, (WriteStmtPrepareResponse io capability status s).ret = some r →
      AllOk io (WriteStmtPrepareResponse io capability status s).calls
        ((WriteStmtPrepareResponse io capability status s).calls.length - 1) ∧
      r = (io (WriteStmtPrepareResponse io capability status s).calls).err) := by
  unfold WriteStmtPrepareResponse
  have h0 : AllOk io ([] : List FramingCall) ([] : List FramingCall).length := by
    intro k hk
    exact absurd hk (by simp)
  obtain ⟨hc, he⟩ := callPacket_fst io ⟨[], [], ⟨0, 0, 0, 0⟩⟩ (some (prepareHeader s)) false
  generalize callPacket io ⟨[], [], ⟨0, 0, 0, 0⟩⟩ (some (prepareHeader s)) false = res
    at hc he
  obtain ⟨pr1, err⟩ := res
  simp only at hc he
  cases err with
  | some e =>
    simp only
    refine ⟨fun h => absurd h (by simp), ?_⟩
    intro r hr
    simp only [Option.some.injEq] at hr
    rw [hc]
    exact ⟨allOk_append_last io _ _ h0, by rw [← hr]; exact he⟩
  | none =>
    simp only
    have h1 : AllOk io pr1.calls pr1.calls.length := by
      rw [hc]
      exact allOk_append_ok io _ _ h0 he.symm
    have hs2 := writeSection_sound io capability status s.ParamNum s.Params pr1 h1
    cases hw : writeSection io capability status s.ParamNum s.Params pr1 with
    | returned c e =>
      rw [hw] at hs2
      simp only [Phase.Sound] at hs2
      simp only
      refine ⟨fun h => absurd h (by simp), ?_⟩
      intro r hr
      simp only [Option.some.injEq] at hr
      exact ⟨hs2.1, by rw [← hr]; exact hs2.2.1.symm⟩
    | panicked c =>
      rw [hw] at hs2
      simp only [Phase.Sound] at hs2
      simp only
      exact ⟨fun _ => hs2, fun r hr => absurd hr (by simp)⟩
    | goOn pr2 =>
      rw [hw] at hs2
      simp only [Phase.Sound] at hs2
      simp only
      have hs3 := writeSection_sound io capability status s.ColumnNum s.Columns pr2 hs2
      cases hw3 : writeSection io capability status s.ColumnNum s.Columns pr2 with
      | returned c e =>
        rw [hw3] at hs3
        simp only [Phase.Sound] at hs3
        simp only
        refine ⟨fun h => absurd h (by simp), ?_⟩
        intro r hr
        simp only [Option.some.injEq] at hr
        exact ⟨hs3.1, by rw [← hr]; exact hs3.2.1.symm⟩
      | panicked c =>
        rw [hw3] at hs3
        simp only [Phase.Sound] at hs3
        simp only
        exact ⟨fun _ => hs3, fun r hr => absurd hr (by simp)⟩
      | goOn pr3 =>
        rw [hw3] at hs3
        simp only [Phase.Sound] at hs3
        simp only
        obtain ⟨hc4, he4⟩ := callPacket_fst io pr3 none true
        refine ⟨fun h => absurd h (by simp), ?_⟩
        intro r hr
        simp only [Option.some.injEq] at hr
        rw [hc4]
        exact ⟨allOk_append_last io _ _ hs3, by rw [← hr]; exact he4⟩

/-- The descriptor loop does not panic when there are enough descriptors. -/
theorem writeDefs_no_panic (io : Framing) (defs : List (List Byte)) (rem : Nat) :
    ∀ (i : Nat) (pr : Progress), i + rem ≤ defs.length →
    ∀ c, writeDefs io defs rem i pr ≠ Phase.panicked c := by
  induction rem with
  | zero =>
    intro i pr _ c
    simp [writeDefs]
  | succ rem ih =>
    intro i pr hlen c
    have hi : i < defs.length := by omega
    unfold writeDefs
    rw [List.getElem?_eq_getElem hi]
    simp only
    generalize callPacket io pr (some (pr.region.bytes ++ defs[i])) false = res
    obtain ⟨pr1, err⟩ := res
    cases err with
    | some e => simp
    | none => exact ih (i + 1) pr1 (by omega) c

theorem writeSection_no_panic (io : Framing) (capability status : Nat) (num : Int)
    (defs : List (List Byte)) (pr : Progress) (hnum : num ≤ (defs.length : Int)) :
    ∀ c, writeSection io capability status num defs pr ≠ Phase.panicked c := by
  intro c
  unfold writeSection
  split_ifs with hpos
  · have hnp := writeDefs_no_panic io defs num.toNat 0 pr (by omega)
    cases hw : writeDefs io defs num.toNat 0 pr with
    | goOn pr1 =>
      simp only
      generalize callEOF io pr1 capability status false = res
      obtain ⟨pr2, err⟩ := res
      cases err <;> simp
    | returned c1 e => simp
    | panicked c1 => exact absurd hw (hnp c1)
  · simp

theorem write_no_panic (io : Framing) (capability status : Nat) (s : Stmt)
    (hparams : s.ParamNum ≤ (s.Params.length : Int))
    (hcolumns : s.ColumnNum ≤ (s.Columns.length : Int)) :
    (WriteStmtPrepareResponse io capability status s).ret ≠ none := by
  unfold WriteStmtPrepareResponse
  generalize callPacket io ⟨[], [], ⟨0, 0, 0, 0⟩⟩ (some (prepareHeader s)) false = res
  obtain ⟨pr1, err⟩ := res
  cases err with
  | some e => simp
  | none =>
    simp only
    have hnp := writeSection_no_panic io capability status s.ParamNum s.Params pr1 hparams
    cases hw : writeSection io capability status s.ParamNum s.Params pr1 with
    | returned c e => simp
    | panicked c => exact absurd hw (hnp c)
    | goOn pr2 =>
      simp only
      have hnp2 := writeSection_no_panic io capability status s.ColumnNum s.Columns pr2
        hcolumns
      cases hw2 : writeSection io capability status s.ColumnNum s.Columns pr2 with
      | returned c e => simp
      | panicked c => exact absurd hw2 (hnp2 c)
      | goOn pr3 => simp

/-- C19: in a run of `WriteStmtPrepareResponse`, when a framing call (the
`k+1`-th, `WritePacketBatch` or `WriteEOFBatch`) fails with error `e`, the function
returns exactly `e`, that call is the last one made, and every call before it
succeeded. The function returns a nil error only if every call it made succeeded,
and, `Params` and `Columns` holding `ParamNum` and `ColumnNum` descriptors, it does
return a nil error when every call it made succeeded. -/
theorem framing_failure_propagates (io : Framing) (capability status : Nat) (s : Stmt) :
    (∀ k e, k < (WriteStmtPrepareResponse io capability status s).calls.length →
      (io ((WriteStmtPrepareResponse io capability status s).calls.take (k + 1))).err
        = some e →
      (WriteStmtPrepareResponse io capability status s).ret = some (some e) ∧
      (WriteStmtPrepareResponse io capability status s).calls.length = k + 1 ∧
      ∀ j, j < k →
        (io ((WriteStmtPrepareResponse io capability status s).calls.take (j + 1))).err
          = none) ∧
    ((WriteStmtPrepareResponse io capability status s).ret = some none →
      ∀ k, k < (WriteStmtPrepareResponse io capability status s).calls.length →
        (io ((WriteStmtPrepareResponse io capability status s).calls.take (k + 1))).err
          = none) ∧
    (s.ParamNum ≤ (s.Params.length : Int) → s.ColumnNum ≤ (s.Columns.length : Int) →
      (∀ k, k < (WriteStmtPrepareResponse io capability status s).calls.length →
        (io ((WriteStmtPrepareResponse io capability status s).calls.take (k + 1))).err
          = none) →
      (WriteStmtPrepareResponse io capability status s).ret = some none) := by
  obtain ⟨hpanic, hret⟩ := write_sound io capability status s
  obtain ⟨l, hhead⟩ := write_calls_head io capability status s
  have hsafe : s.ParamNum ≤ (s.Params.length : Int) → s.ColumnNum ≤ (s.Columns.length : Int) →
      (WriteStmtPrepareResponse io capability status s).ret ≠ none :=
    write_no_panic io capability status s
  generalize WriteStmtPrepareResponse io capability status s = res
    at hpanic hret hhead hsafe
  have hpos : 0 < res.calls.length := by rw [hhead]; simp
  have hfull : res.calls.take (res.calls.length - 1 + 1) = res.calls :=
    List.take_of_length_le (by omega)
  refine ⟨?_, ?_, ?_⟩
  · intro k e hk hfail
    cases hr : res.ret with
    | none =>
      have := hpanic hr k hk
      rw [this] at hfail
      exact absurd hfail (by simp)
    | some r =>
      obtain ⟨hok, hlast⟩ := hret r hr
      have hkl : k = res.calls.length - 1 := by
        by_contra hne
        have := hok k (by omega)
        rw [this] at hfail
        exact absurd hfail (by simp)
      subst hkl
      rw [hfull] at hfail
      refine ⟨by rw [hlast, hfail], by omega, ?_⟩
      intro j hj
      exact hok j hj
  · intro hr k hk
    obtain ⟨hok, hlast⟩ := hret none hr
    by_cases hkl : k < res.calls.length - 1
    · exact hok k hkl
    · have hke : k = res.calls.length - 1 := by omega
      subst hke
      rw [hfull]
      exact hlast.symm
  · intro hparams hcolumns hall
    have hnp := hsafe hparams hcolumns
    cases hr : res.ret with
    | none => exact absurd hr hnp
    | some r =>
      obtain ⟨-, hlast⟩ := hret r hr
      have := hall (res.calls.length - 1) (by omega)
      rw [hfull] at this
      rw [hlast, this]

theorem framing_failure_propagates_witness :
    (WriteStmtPrepareResponse failingFraming 5 6 preparedStmt).ret
      = some (some (GoError.other "EPIPE")) ∧
    (WriteStmtPrepareResponse failingFraming 5 6 preparedStmt).calls.length = 3 := by
  have h := (framing_failure_propagates failingFraming 5 6 preparedStmt).1 2
    (GoError.other "EPIPE") (by decide) (by decide)
  exact ⟨h.1, h.2.1⟩

end Mysql
